import Mathlib

/-!
Sound system of `particle` (sources/sound_system.cpp).

A shallow embedding of the frame pool, the sound component and the mixer of
`sound_system.cpp`, and the properties proved about them.

Modelling conventions.

* The pool `mSampleFrame` (a `std::array` of frames) is a memory addressed by
  frame index; a `SoundFrame*` is an `Option Nat` (`none` is `nullptr`).
* Samples are elements of an arbitrary type `α` carrying exact arithmetic
  (`Zero`, `Add`, `Mul`, or a linear ordered field where the attenuation is
  computed); floating point rounding is not modelled.
* `int32_t` delays and indices are `Int` / `Nat`: every value the mixer computes
  is bounded by the frame capacity and the 16 bit device sample count, so no
  wrap-around can occur.
* A failed `assert`, a dereference of `nullptr` and an access past the end of
  an array end the run with a `Fault`.
* The constants of the missing headers (frame capacity, pool size, device
  buffer size) are the fields of `Config`.
-/

namespace Particle

/-- Abnormal ends of a run: a failed `assert`, a dereferenced `nullptr`, an
array access out of bounds, and the exhaustion of the iteration budget given to
the walk over the play list. -/
inductive Fault where
  | assertion
  | nullDeref
  | outOfBounds
  | fuel
  deriving DecidableEq, Repr

/-- Constants fixed at compile time or when the device is opened:
`frameSize` is `SoundFrame::mSample.max_size()`, `poolSize` is
`SoundSystem::mSampleFrame.max_size()`, `samples` is
`mImpl->mAudioSpecObtained.samples`. -/
structure Config where
  frameSize : Nat
  poolSize : Nat
  samples : Nat
  deriving DecidableEq, Repr

/-- A `SoundFrame`: the sample array, the delay, the pointer to the in-flight
counter and the forward link. -/
structure SoundFrame (α : Type) where
  mSample : Nat → α
  mDelay : Int
  mCounter : Option Nat
  mNext : Option Nat

/-- A `SoundEffect`: the index of the stream and the position of the source. -/
structure SoundEffect (α : Type) where
  mIndex : Nat
  mPosition : α × α × α

/-- A `SoundComponent`: a stream is represented by its `mAudio` samples. -/
structure SoundComponent (α : Type) where
  mValid : Bool
  mSoundStreams : List (List α)
  mSoundPlay : List (SoundEffect α)

/-- The state of `SoundSystem`: the components, the pool memory, the heads of
the free list and of the play list, and the memory holding the
`std::atomic_int` counters that frames point to. -/
structure SoundSystem (α : Type) where
  mComponents : List (SoundComponent α)
  mSampleFrame : Nat → SoundFrame α
  mFreeFrame : Option Nat
  mPlayFrame : Option Nat
  counters : Nat → Int

variable {α : Type}

/-! ## Memory accessors -/

/-- Forward link of frame `f`. -/
def SoundSystem.next (s : SoundSystem α) (f : Nat) : Option Nat :=
  (s.mSampleFrame f).mNext

/-- Overwrite frame `f`. -/
def SoundSystem.setFrame (s : SoundSystem α) (f : Nat) (fr : SoundFrame α) : SoundSystem α :=
  { s with mSampleFrame := Function.update s.mSampleFrame f fr }

/-- Assignment `f->mNext = p`. -/
def SoundSystem.setNext (s : SoundSystem α) (f : Nat) (p : Option Nat) : SoundSystem α :=
  s.setFrame f { s.mSampleFrame f with mNext := p }

/-- Assignment `f->mDelay = d`. -/
def SoundSystem.setDelay (s : SoundSystem α) (f : Nat) (d : Int) : SoundSystem α :=
  s.setFrame f { s.mSampleFrame f with mDelay := d }

/-- Assignment `f->mSample[i] = x`. -/
def SoundSystem.setSample (s : SoundSystem α) (f : Nat) (i : Nat) (x : α) : SoundSystem α :=
  s.setFrame f { s.mSampleFrame f with mSample := Function.update (s.mSampleFrame f).mSample i x }

/-! ## SoundFrame::Reset, the constructor and the pool -/

/-- `SoundFrame::Reset`: the `memset` clears the `frameSize` samples of the
array; delay, counter and link are cleared. -/
def SoundFrame.Reset [Zero α] (cfg : Config) (fr : SoundFrame α) : SoundFrame α :=
  { mSample := fun i => if i < cfg.frameSize then 0 else fr.mSample i
    mDelay := 0
    mCounter := none
    mNext := none }

/-- The loop of the constructor: `mSampleFrame[idx - 1].mNext = &mSampleFrame[idx]`
for `idx = 1 .. poolSize - 1` (the list holds the values of `idx - 1`). -/
def linkFrames (mem : Nat → SoundFrame α) : List Nat → (Nat → SoundFrame α)
  | [] => mem
  | i :: rest => linkFrames (Function.update mem i { mem i with mNext := some (i + 1) }) rest

/-- `SoundSystem::SoundSystem`: the frames are chained in index order, the last
one points back to the first, which is the head of the free list; the play
list is empty.  `mem` and `counters` are the contents of the memory before the
constructor runs. -/
def SoundSystem.ctor (cfg : Config) (mem : Nat → SoundFrame α) (counters : Nat → Int) :
    SoundSystem α :=
  let linked := linkFrames mem (List.range (cfg.poolSize - 1))
  { mComponents := []
    mSampleFrame := Function.update linked (cfg.poolSize - 1)
      { linked (cfg.poolSize - 1) with mNext := some 0 }
    mFreeFrame := some 0
    mPlayFrame := none
    counters := counters }

/-- `SoundSystem::RequestFrame`.  The result is the frame handed out and the new
state. -/
def SoundSystem.RequestFrame [Zero α] (cfg : Config) (s : SoundSystem α) :
    Except Fault (Nat × SoundSystem α) :=
  match s.mFreeFrame with
  | none => .error .assertion
  | some free =>
    if (s.mSampleFrame free).mNext = some free then
      let s1 := { s with mFreeFrame := none }
      .ok (free, s1.setFrame free ((s1.mSampleFrame free).Reset cfg))
    else
      match (s.mSampleFrame free).mNext with
      | none => .error .nullDeref
      | some request =>
        let s1 := s.setNext free (s.mSampleFrame request).mNext
        .ok (request, s1.setFrame request ((s1.mSampleFrame request).Reset cfg))

/-- `SoundSystem::ReleaseFrame` (the pointer argument is a frame, hence not
null). -/
def SoundSystem.ReleaseFrame (s : SoundSystem α) (frame : Nat) : SoundSystem α :=
  let s1 : SoundSystem α :=
    match (s.mSampleFrame frame).mCounter with
    | some c => { s with counters := Function.update s.counters c (s.counters c - 1) }
    | none => s
  match s1.mFreeFrame with
  | none => ({ s1 with mFreeFrame := some frame }).setNext frame none
  | some free => (s1.setNext frame (s1.mSampleFrame free).mNext).setNext free (some frame)

/-- The loop of `SubmitFrame` that walks the submitted chain to its last frame;
the first argument is `poolSize - idx`, so that the assertion `idx < poolSize`
fails when it is `0`. -/
def submitTail (next : Nat → Option Nat) : Nat → Nat → Except Fault Nat
  | 0, lastFrame =>
    match next lastFrame with
    | none => .ok lastFrame
    | some _ => .error .assertion
  | rem + 1, lastFrame =>
    match next lastFrame with
    | none => .ok lastFrame
    | some nx => submitTail next rem nx

/-- `SoundSystem::SubmitFrame`. -/
def SoundSystem.SubmitFrame (cfg : Config) (s : SoundSystem α) (frame : Nat) :
    Except Fault (SoundSystem α) :=
  match s.mPlayFrame with
  | none => .ok { s with mPlayFrame := some frame }
  | some play =>
    match submitTail s.next cfg.poolSize frame with
    | .error e => .error e
    | .ok lastFrame =>
      .ok ((s.setNext lastFrame (s.mSampleFrame play).mNext).setNext play (some frame))

/-! ## SoundComponent -/

/-- `SoundComponent::AddResource`. -/
def SoundComponent.AddResource (c : SoundComponent α) (resource : List α) :
    Nat × SoundComponent α :=
  (c.mSoundStreams.length, { c with mSoundStreams := c.mSoundStreams ++ [resource] })

/-- `SoundComponent::Play`. -/
def SoundComponent.Play (c : SoundComponent α) (soundEffect : SoundEffect α) :
    Except Fault (SoundComponent α) :=
  if soundEffect.mIndex < c.mSoundStreams.length then
    .ok { c with mSoundPlay := c.mSoundPlay ++ [soundEffect] }
  else .error .assertion

/-- `glm::clamp(x, minVal, maxVal)`, which GLM defines as
`min(max(x, minVal), maxVal)`. -/
def glmClamp [LinearOrder α] (x minVal maxVal : α) : α :=
  min (max x minVal) maxVal

/-- The distance attenuation of `SoundComponent::Update`, with the arguments of
`glm::clamp` in the order of the source. -/
def distanceAttenuation [LinearOrderedField α] (distance : α) : α :=
  let minDistance : α := 0
  let maxDistance : α := 50
  1 - glmClamp 0 1 ((distance - minDistance) / (maxDistance - minDistance))

/-- The loop over the samples of a stream in `SoundComponent::Update`: the
arguments are the remaining samples, `idx`, the system, `soundFrame` and
`frameIdx`. -/
def SoundComponent.fillFrames [Zero α] [Mul α] (cfg : Config) (distanceAttenuation : α) :
    List α → Nat → SoundSystem α → Option Nat → Nat →
      Except Fault (SoundSystem α × Option Nat × Nat)
  | [], _, s, soundFrame, frameIdx => .ok (s, soundFrame, frameIdx)
  | sample :: rest, idx, s, soundFrame, frameIdx =>
    let submitted : Except Fault (SoundSystem α × Option Nat) :=
      match soundFrame with
      | some f =>
        if ¬ frameIdx < cfg.frameSize then
          match s.SubmitFrame cfg f with
          | .error e => .error e
          | .ok s1 => .ok (s1, none)
        else .ok (s, some f)
      | none => .ok (s, none)
    match submitted with
    | .error e => .error e
    | .ok (s1, soundFrame1) =>
      let requested : Except Fault (SoundSystem α × Nat × Nat) :=
        match soundFrame1 with
        | none =>
          match s1.RequestFrame cfg with
          | .error e => .error e
          | .ok (f, s2) => .ok (s2.setDelay f (-(idx : Int)), f, 0)
        | some f => .ok (s1, f, frameIdx)
      match requested with
      | .error e => .error e
      | .ok (s2, f, frameIdx2) =>
        if frameIdx2 < cfg.frameSize then
          SoundComponent.fillFrames cfg distanceAttenuation rest (idx + 1)
            (s2.setSample f frameIdx2 (distanceAttenuation * sample)) (some f) (frameIdx2 + 1)
        else .error .outOfBounds

/-- The loop over the queued effects in `SoundComponent::Update`; the second
argument is `soundEffectIdx`.  `listenerDistance p` is the value of
`glm::distance(listener.mPosition, p)` for the listener of this tick. -/
def SoundComponent.playEffects [LinearOrderedField α] (cfg : Config)
    (listenerDistance : α × α × α → α) (streams : List (List α)) :
    List (SoundEffect α) → Nat → SoundSystem α → Except Fault (SoundSystem α)
  | [], _, s => .ok s
  | effect :: rest, soundEffectIdx, s =>
    if ¬ soundEffectIdx < streams.length then .error .assertion
    else
      let att := distanceAttenuation (listenerDistance effect.mPosition)
      match streams.get? effect.mIndex with
      | none => .error .assertion
      | some audio =>
        match SoundComponent.fillFrames cfg att audio 0 s none 0 with
        | .error e => .error e
        | .ok (s1, _, _) =>
          SoundComponent.playEffects cfg listenerDistance streams rest (soundEffectIdx + 1) s1

/-- `SoundComponent::Update`. -/
def SoundComponent.Update [LinearOrderedField α] (cfg : Config) (_deltaTime : α)
    (listenerDistance : α × α × α → α) (c : SoundComponent α) (s : SoundSystem α) :
    Except Fault (SoundComponent α × SoundSystem α) :=
  match SoundComponent.playEffects cfg listenerDistance c.mSoundStreams c.mSoundPlay 0 s with
  | .error e => .error e
  | .ok s1 => .ok ({ c with mSoundPlay := [] }, s1)

/-! ## The mixer -/

/-- The innermost loop of `SoundSystem::Update`, lines 397 to 401:
`sample` is the sample array of the frame, `size` is `array_mix_size`, the first
argument bounds the number of iterations by `frameSize - frameInit`.  The
result is the final `frameIdx` and the buffer. -/
def mixSamples [Add α] (sample : Nat → α) (frameSize size : Nat) :
    Nat → Nat → Nat → (Nat → α) → Except Fault (Nat × (Nat → α))
  | 0, frameIdx, _, array_mix => .ok (frameIdx, array_mix)
  | n + 1, frameIdx, mixIdx, array_mix =>
    if frameIdx < frameSize ∧ mixIdx < size then
      let mix1 := Function.update array_mix mixIdx (array_mix mixIdx + sample frameIdx)
      if mixIdx + 1 < size then
        mixSamples sample frameSize size n (frameIdx + 1) (mixIdx + 2)
          (Function.update mix1 (mixIdx + 1) (mix1 (mixIdx + 1) + sample frameIdx))
      else .error .outOfBounds
    else .ok (frameIdx, array_mix)

/-- Lines 392 to 408 of `SoundSystem::Update`: the block guarded by
`frame->mDelay < frameStepMono`.  The result is the new delay of the frame and
the buffer. -/
def mixActive [Add α] (cfg : Config) (frameStepMono : Int) (size : Nat)
    (fr : SoundFrame α) (array_mix : Nat → α) : Except Fault (Int × (Nat → α)) :=
  if fr.mDelay < frameStepMono then
    let frameInit : Int := max 0 fr.mDelay
    let mixInit : Int := if fr.mDelay < 0 then |fr.mDelay| * 2 else 0
    match mixSamples fr.mSample cfg.frameSize size (cfg.frameSize - frameInit.toNat)
        frameInit.toNat mixInit.toNat array_mix with
    | .error e => .error e
    | .ok (frameIdx, mix1) =>
      let delay0 : Int := if fr.mDelay < 0 then 0 else fr.mDelay
      let delay1 : Int := delay0 + (frameIdx : Int)
      if 0 < delay1 then .ok (delay1, mix1) else .error .assertion
  else .ok (fr.mDelay, array_mix)

/-- Lines 412 to 421: the frame is taken out of the play list. -/
def SoundSystem.unlinkFrame (s : SoundSystem α) (frame : Nat) (lastFrame : Option Nat) :
    Except Fault (SoundSystem α) :=
  match lastFrame with
  | some l => .ok ((s.setNext l (s.mSampleFrame frame).mNext).setNext frame none)
  | none =>
    if s.mPlayFrame = some frame then .ok { s with mPlayFrame := (s.mSampleFrame frame).mNext }
    else .error .assertion

/-- The loop over the play list of `SoundSystem::Update`, lines 381 to 428.
The arguments after the iteration budget are the system, `array_mix`, `frame`
and `lastFrame`. -/
def SoundSystem.mixFrames [Add α] (cfg : Config) (frameStepMono : Int) (size : Nat) :
    Nat → SoundSystem α → (Nat → α) → Option Nat → Option Nat →
      Except Fault (SoundSystem α × (Nat → α))
  | _, s, array_mix, none, _ => .ok (s, array_mix)
  | 0, _, _, some _, _ => .error .fuel
  | fuel + 1, s, array_mix, some frame, lastFrame =>
    if cfg.samples % cfg.frameSize ≠ 0 then .error .assertion
    else
      let nextFrame := (s.mSampleFrame frame).mNext
      if (s.mSampleFrame frame).mDelay ≤ -frameStepMono then
        SoundSystem.mixFrames cfg frameStepMono size fuel
          (s.setDelay frame ((s.mSampleFrame frame).mDelay + frameStepMono)) array_mix
          nextFrame (some frame)
      else
        match mixActive cfg frameStepMono size (s.mSampleFrame frame) array_mix with
        | .error e => .error e
        | .ok (delay1, mix1) =>
          let s1 := s.setDelay frame delay1
          if (cfg.frameSize : Int) ≤ delay1 then
            match s1.unlinkFrame frame lastFrame with
            | .error e => .error e
            | .ok s2 =>
              SoundSystem.mixFrames cfg frameStepMono size fuel (s2.ReleaseFrame frame) mix1
                nextFrame lastFrame
          else
            SoundSystem.mixFrames cfg frameStepMono size fuel s1 mix1 nextFrame (some frame)

/-- The loop over the components at the start of `SoundSystem::Update`. -/
def SoundSystem.updateComponents [LinearOrderedField α] (cfg : Config) (deltaTime : α)
    (listenerDistance : α × α × α → α) :
    List (SoundComponent α) → SoundSystem α →
      Except Fault (List (SoundComponent α) × SoundSystem α)
  | [], s => .ok ([], s)
  | c :: cs, s =>
    match c.Update cfg deltaTime listenerDistance s with
    | .error e => .error e
    | .ok (c1, s1) =>
      match SoundSystem.updateComponents cfg deltaTime listenerDistance cs s1 with
      | .error e => .error e
      | .ok (cs1, s2) => .ok (c1 :: cs1, s2)

/-- `SoundSystem::Update`.  `samplesNeeded` is the value returned by
`mImpl->samplesNeeded()`, `fuel` the iteration budget of the walk over the play
list.  The result is the new state and the buffer handed to the device by
`queueAudio`. -/
def SoundSystem.Update [LinearOrderedField α] (cfg : Config) (deltaTime : α)
    (listenerDistance : α × α × α → α) (samplesNeeded : Int) (fuel : Nat)
    (s : SoundSystem α) : Except Fault (SoundSystem α × List α) :=
  if ¬ 0 ≤ deltaTime then .error .assertion
  else
    match SoundSystem.updateComponents cfg deltaTime listenerDistance s.mComponents s with
    | .error e => .error e
    | .ok (comps, s0) =>
      let s1 : SoundSystem α := { s0 with mComponents := comps }
      let frameStep : Int := samplesNeeded
      if ¬ 0 ≤ frameStep then .error .assertion
      else
        let frameStepMono : Int := Int.tdiv frameStep 2
        let array_mix_size : Nat := frameStep.toNat
        match SoundSystem.mixFrames cfg frameStepMono array_mix_size fuel s1 (fun _ => 0)
            s1.mPlayFrame none with
        | .error e => .error e
        | .ok (s2, array_mix) => .ok (s2, (List.range array_mix_size).map array_mix)

/-! ## Linked lists in the pool memory -/

/-- `Seg next p l e`: following the links from the pointer `p` visits exactly
the frames of `l`, in order, and the link of the last one is `e` (when `l` is
empty, `p` is `e`). -/
def Seg (next : Nat → Option Nat) : Option Nat → List Nat → Option Nat → Prop
  | p, [], e => p = e
  | p, x :: l, e => p = some x ∧ Seg next (next x) l e

/-- Frame `f` is reachable from the head of the free list along the links. -/
def SoundSystem.InFreeList (s : SoundSystem α) (f : Nat) : Prop :=
  ∃ h, s.mFreeFrame = some h ∧ Relation.ReflTransGen (fun a b => s.next a = some b) h f

/-- Frame `f` is reachable from the head of the play list along the links. -/
def SoundSystem.InPlayList (s : SoundSystem α) (f : Nat) : Prop :=
  ∃ h, s.mPlayFrame = some h ∧ Relation.ReflTransGen (fun a b => s.next a = some b) h f

/-- The states of the pool reachable from the constructor, with the list of the
frames handed out and not yet released.  The holder of a frame may overwrite it
(samples, delay, counter, link) and the rest of the system may change; only
frames handed out are released. -/
inductive PoolReach [Zero α] (cfg : Config) : SoundSystem α → List Nat → Prop
  | ctor (mem : Nat → SoundFrame α) (counters : Nat → Int) (hN : 1 ≤ cfg.poolSize) :
      PoolReach cfg (SoundSystem.ctor cfg mem counters) []
  | request {s s1 : SoundSystem α} {out : List Nat} {f : Nat} :
      PoolReach cfg s out → s.RequestFrame cfg = .ok (f, s1) → PoolReach cfg s1 (f :: out)
  | release {s : SoundSystem α} {out : List Nat} {f : Nat} :
      PoolReach cfg s out → f ∈ out → PoolReach cfg (s.ReleaseFrame f) (out.erase f)
  | client {s s1 : SoundSystem α} {out : List Nat} :
      PoolReach cfg s out → s1.mFreeFrame = s.mFreeFrame →
      (∀ x, x ∉ out → s1.mSampleFrame x = s.mSampleFrame x) → PoolReach cfg s1 out

/-- Shape of the free list: either it is empty, or its frames `h :: l` are
chained from the head `h` and the link of the last one is the head again
(circular) or null. -/
def FreeShape (s : SoundSystem α) (fl : List Nat) : Prop :=
  (s.mFreeFrame = none ∧ fl = []) ∨
  ∃ h l e, s.mFreeFrame = some h ∧ fl = h :: l ∧ Seg s.next (s.next h) l e ∧
    (e = some h ∨ e = none)

/-- Invariant of the pool: the frames of the free list are pairwise distinct
and none of them is handed out. -/
def PoolInv (s : SoundSystem α) (out : List Nat) : Prop :=
  ∃ fl, FreeShape s fl ∧ fl.Nodup ∧ out.Nodup ∧ ∀ x ∈ fl, x ∉ out

/-! ## Concrete pools -/

/-- Memory contents before the constructor runs: every frame holds samples `7`,
delay `3`, a counter pointer and a dangling link. -/
def dirtyMem : Nat → SoundFrame Int :=
  fun _ => { mSample := fun _ => 7, mDelay := 3, mCounter := some 5, mNext := some 9 }

/-- Frame capacity 2 and a pool of one frame. -/
def cfgPool1 : Config := { frameSize := 2, poolSize := 1, samples := 2 }

/-- Frame capacity 2 and a pool of two frames. -/
def cfgPool2 : Config := { frameSize := 2, poolSize := 2, samples := 2 }

/-- The freshly constructed pool of one frame. -/
def pool1 : SoundSystem Int := SoundSystem.ctor cfgPool1 dirtyMem (fun _ => 0)

/-- The freshly constructed pool of two frames. -/
def pool2 : SoundSystem Int := SoundSystem.ctor cfgPool2 dirtyMem (fun _ => 0)

/-- The state of a successful `RequestFrame` (the state itself when it fails). -/
def afterRequest [Zero α] (cfg : Config) (s : SoundSystem α) : SoundSystem α :=
  match s.RequestFrame cfg with
  | .ok (_, s1) => s1
  | .error _ => s

/-! ## Closed forms of the mixing of one frame -/

/-- Delay of frame `f`. -/
def SoundSystem.delay (s : SoundSystem α) (f : Nat) : Int := (s.mSampleFrame f).mDelay

/-- Sample array of frame `f`. -/
def SoundSystem.sample (s : SoundSystem α) (f : Nat) : Nat → α := (s.mSampleFrame f).mSample

/-- Counter pointer of frame `f`. -/
def SoundSystem.counter (s : SoundSystem α) (f : Nat) : Option Nat := (s.mSampleFrame f).mCounter

/-- The buffer `mix` after the samples `frameInit, frameInit + 1, ...` (`cnt` of
them) have been added to both channels of the mono positions `off, off + 1, ...`. -/
def addSamples [Add α] (sample : Nat → α) (frameInit off cnt : Nat) (mix : Nat → α) : Nat → α :=
  fun i => if 2 * off ≤ i ∧ i < 2 * (off + cnt) then mix i + sample (frameInit + (i / 2 - off))
    else mix i

/-- Mono position of the first sample a frame of delay `d` writes in a tick. -/
def mixOffset (d : Int) : Nat := if d < 0 then d.natAbs else 0

/-- Number of samples the mixing loop copies from a frame of delay `d` when the
tick produces `step` mono samples: it stops at the end of the frame or of the
buffer. -/
def mixCount (cap step : Nat) (d : Int) : Nat := min (cap - d.toNat) (step - mixOffset d)

/-- Delay the body of the loop leaves in a frame of delay `d`. -/
def delayAfter (cap step : Nat) (d : Int) : Int :=
  if d ≤ -(step : Int) then d + step
  else if d < step then (if d < 0 then 0 else d) + ((d.toNat + mixCount cap step d : Nat) : Int)
  else d

/-- Buffer the body of the loop leaves when it runs on the frame `fr`. -/
def mixAfter [Add α] (cap step : Nat) (fr : SoundFrame α) (mix : Nat → α) : Nat → α :=
  if fr.mDelay ≤ -(step : Int) then mix
  else if fr.mDelay < step then
    addSamples fr.mSample fr.mDelay.toNat (mixOffset fr.mDelay) (mixCount cap step fr.mDelay) mix
  else mix

/-- Invariant of the loop over the play list: the frames `K` kept so far are
chained from `mPlayFrame` up to the pointer `p` to the remaining frames `R`,
which end with a null link; all these frames are distinct and the head of the
free list is none of them. -/
def MixInv (s : SoundSystem α) (K : List Nat) (p : Option Nat) (R : List Nat) : Prop :=
  Seg s.next s.mPlayFrame K p ∧ Seg s.next p R none ∧ (K ++ R).Nodup ∧
    ∀ h, s.mFreeFrame = some h → h ∉ K ++ R

/-! ## Vocabulary for the statements about a tick -/

/-- The play list of `s` consists of the frames `L`, in order, and ends with a
null link. -/
def SoundSystem.PlayList (s : SoundSystem α) (L : List Nat) : Prop :=
  Seg s.next s.mPlayFrame L none

/-- No component has a queued effect. -/
def SoundSystem.Idle (s : SoundSystem α) : Prop :=
  ∀ c ∈ s.mComponents, c.mSoundPlay = []

/-- The buffer after the body of the loop of `SoundSystem::Update` (lines 385
to 401) has run on a frame: untouched when the branch with `continue` is taken,
else what the guarded block leaves. -/
def frameMix [Add α] (cfg : Config) (frameStepMono : Int) (size : Nat) (fr : SoundFrame α)
    (array_mix : Nat → α) : Nat → α :=
  if fr.mDelay ≤ -frameStepMono then array_mix
  else
    match mixActive cfg frameStepMono size fr array_mix with
    | .ok (_, mix1) => mix1
    | .error _ => array_mix

/-- The buffer a tick hands to the device when the play list is `L`: the frames
are mixed in turn into a buffer of `size` zeros. -/
def tickOutput [Zero α] [Add α] (cfg : Config) (frameStepMono : Int) (size : Nat)
    (s : SoundSystem α) (L : List Nat) : List α :=
  (List.range size).map
    (L.foldl (fun m g => frameMix cfg frameStepMono size (s.mSampleFrame g) m) (fun _ => 0))

/-! ## Concrete mixer states -/

/-- Frame capacity 4, a pool of three frames, a device buffer of 8 samples. -/
def cfgMix : Config := { frameSize := 4, poolSize := 3, samples := 8 }

/-- A system without components whose play list is the single frame 1, with
samples 1, 2, 3, 4, delay `d` and a counter of value 1; frames 0 and 2 form the
(circular) free list. -/
def oneFrame (d : Int) : SoundSystem ℚ :=
  { mComponents := []
    mSampleFrame := fun i =>
      if i = 1 then
        { mSample := fun k => (k : ℚ) + 1, mDelay := d, mCounter := some 0, mNext := none }
      else
        { mSample := fun _ => 0, mDelay := 0, mCounter := none
          mNext := if i = 0 then some 2 else some 0 }
    mFreeFrame := some 0
    mPlayFrame := some 1
    counters := fun _ => 1 }

/-- A listener at distance 0 of every source. -/
def nearListener : ℚ × ℚ × ℚ → ℚ := fun _ => 0

/-! ## A concrete sound effect -/

/-- Frame capacity 2, a pool of two frames, a device buffer of 2 samples. -/
def cfgComp : Config := { frameSize := 2, poolSize := 2, samples := 2 }

/-- The sound effect played in the examples: stream 0 at the origin. -/
def effect0 : SoundEffect ℚ := { mIndex := 0, mPosition := (0, 0, 0) }

/-- A component with the one-sample stream `[1]` registered and one queued
effect playing it. -/
def shortSound : SoundComponent ℚ :=
  { mValid := true, mSoundStreams := [[1]], mSoundPlay := [effect0] }

/-- The freshly constructed system with a pool of two frames. -/
def freshSystem : SoundSystem ℚ :=
  SoundSystem.ctor cfgComp
    (fun _ => { mSample := fun _ => 0, mDelay := 0, mCounter := none, mNext := none })
    (fun _ => 0)

/-- The fresh system with the component `shortSound` attached. -/
def queuedSystem : SoundSystem ℚ := { freshSystem with mComponents := [shortSound] }

/-- The state a successful `SoundComponent::Update` leaves (the state itself when
it fails). -/
def afterComponentUpdate [LinearOrderedField α] (cfg : Config) (deltaTime : α)
    (listenerDistance : α × α × α → α) (c : SoundComponent α) (s : SoundSystem α) :
    SoundSystem α :=
  match c.Update cfg deltaTime listenerDistance s with
  | .ok (_, s1) => s1
  | .error _ => s

/-- The state of `queuedSystem` after its first tick: the component has been
updated and its queue cleared. -/
def tickedSystem : SoundSystem ℚ :=
  { afterComponentUpdate cfgComp 1 nearListener shortSound queuedSystem with
    mComponents := [{ shortSound with mSoundPlay := [] }] }

/-! ## The attenuation as the specification words it -/

/-- The clamp of the specification: `clamp(x, lo, hi)` brings `x` into
`[lo, hi]`. -/
def clampSpec [LinearOrder α] (x lo hi : α) : α := max lo (min x hi)

/-- The attenuation as the specification writes it:
`1 - clamp((d - 0) / (50 - 0), 0, 1)`. -/
def attenuationSpec [LinearOrderedField α] (d : α) : α :=
  1 - clampSpec ((d - 0) / (50 - 0)) 0 1

/-! ## More concrete components -/

/-- A component with one registered stream and two queued effects playing it. -/
def twoEffects : SoundComponent ℚ :=
  { mValid := true, mSoundStreams := [[1]], mSoundPlay := [effect0, effect0] }

/-- The same queue on a component with two registered streams. -/
def twoEffectsTwoStreams : SoundComponent ℚ :=
  { mValid := true, mSoundStreams := [[1], [1]], mSoundPlay := [effect0, effect0] }

/-! ## A concrete play list and chain -/

/-- Frame capacity 2 and a pool of four frames. -/
def cfgSplice : Config := { frameSize := 2, poolSize := 4, samples := 2 }

/-- A system whose play list is frame 0 followed by frame 1, with frames 2 and
3 chained and not yet submitted. -/
def spliceState : SoundSystem Int :=
  { mComponents := []
    mSampleFrame := fun i =>
      { mSample := fun _ => 0, mDelay := 0, mCounter := none
        mNext := if i = 0 then some 1 else if i = 2 then some 3 else none }
    mFreeFrame := none
    mPlayFrame := some 0
    counters := fun _ => 0 }

/-- The frames `Rel` released so far during a tick sit in the free list: when
the free list has a head, they are reachable from it through a segment `tail`
that consists of released frames only. -/
def FreeHolds (s : SoundSystem α) (Rel : List Nat) : Prop :=
  match s.mFreeFrame with
  | none => Rel = []
  | some hd => ∃ tail e, Seg s.next (s.next hd) tail e ∧ (∀ g ∈ Rel, g ∈ hd :: tail) ∧
      (∀ x ∈ tail, x ∈ Rel) ∧ hd ∉ tail

/-- The frame `g` is drained by the tick: the delay the loop leaves in it is at
least the frame capacity. -/
def drainedBy (cap step : Nat) (s : SoundSystem α) (g : Nat) : Bool :=
  decide ((cap : Int) ≤ delayAfter cap step (s.delay g))

/-- A system without components whose play list is frame 1 (delay 0, counter
0) followed by frame 2 (delay -6, counter 0); frame 0 alone is the circular
free list, and the counter has value 2. -/
def twoFrames : SoundSystem ℚ :=
  { mComponents := []
    mSampleFrame := fun i =>
      if i = 1 then
        { mSample := fun k => (k : ℚ) + 1, mDelay := 0, mCounter := some 0, mNext := some 2 }
      else if i = 2 then
        { mSample := fun k => (k : ℚ) + 5, mDelay := -6, mCounter := some 0, mNext := none }
      else
        { mSample := fun _ => 0, mDelay := 0, mCounter := none, mNext := some 0 }
    mFreeFrame := some 0
    mPlayFrame := some 1
    counters := fun _ => 2 }

/-! ## The free list as the order in which frames are handed out -/

/-- `FreeRing s avail`: the free list is circular and `RequestFrame` will hand
out the frames `avail` in this order: the frames after the head first, the head
itself last (`avail` is empty when the free list is). -/
def FreeRing (s : SoundSystem α) (avail : List Nat) : Prop :=
  (avail = [] ∧ s.mFreeFrame = none) ∨
  ∃ hd rem, avail = rem ++ [hd] ∧ s.mFreeFrame = some hd ∧
    Seg s.next (s.next hd) rem (some hd)

/-- Value of slot `j` of the `k`-th frame acquired for a stream when the first
`idx` samples of the stream have been written: the attenuated sample
`k * cap + j`, or 0 when that sample has not been written. -/
def slotValue [Zero α] [Mul α] (cap : Nat) (a : α) (audio : List α) (idx k j : Nat) : α :=
  if k * cap + j < idx then a * audio.getD (k * cap + j) 0 else 0

/-- Invariant of the loop over the samples of a stream: `taken` are the frames
acquired so far, in order, `avail` the frames still free; each acquired frame
has its delay and the slots written so far, and the frame being filled is the
last one acquired, with a null link. -/
def FillInv [Zero α] [Mul α] (cfg : Config) (a : α) (audio : List α) (s : SoundSystem α)
    (idx : Nat) (taken avail : List Nat) (soundFrame : Option Nat) (frameIdx : Nat) : Prop :=
  FreeRing s avail ∧ (taken ++ avail).Nodup ∧
  (∀ p, s.mPlayFrame = some p → p ∉ avail) ∧
  (∀ k fk, taken[k]? = some fk →
    s.delay fk = -((k * cfg.frameSize : Nat) : Int) ∧
    ∀ j, j < cfg.frameSize → s.sample fk j = slotValue cfg.frameSize a audio idx k j) ∧
  ((taken = [] ∧ idx = 0 ∧ soundFrame = none ∧ frameIdx = 0) ∨
    ∃ init f, taken = init ++ [f] ∧ soundFrame = some f ∧
      idx = init.length * cfg.frameSize + frameIdx ∧
      1 ≤ frameIdx ∧ frameIdx ≤ cfg.frameSize ∧ s.next f = none)

/-! ## RingBuffer -/

/-- A `RingBuffer<T, N>`: the array `mBuffer` (cells `0 .. N - 1`), `mSize` and
`mWriteIndex`.  The capacity `N`, a template parameter, is an argument of the
operations.  The `int16_t` fields are integers: every value the operations
compute lies between `-N` and `2 * N`, and the arithmetic of the source is done
in `int`, so nothing wraps around. -/
structure RingBuffer (α : Type) where
  mBuffer : Nat → α
  mSize : Int
  mWriteIndex : Int

/-- The constructor: no unread element, write index 0; `mem` is the content of
the array before the constructor runs. -/
def RingBuffer.ctor (mem : Nat → α) : RingBuffer α :=
  { mBuffer := mem, mSize := 0, mWriteIndex := 0 }

/-- `memcpy(&dst[start], src, cnt * sizeof(T))` into an array of `N` cells: the
first `cnt` elements of `src` go to the cells `start .. start + cnt - 1`. -/
def memcpyInto (N : Nat) (dst : Nat → α) (start : Int) (src : List α) (cnt : Int) :
    Except Fault (Nat → α) :=
  if 0 ≤ start ∧ 0 ≤ cnt ∧ start + cnt ≤ N ∧ cnt ≤ src.length then
    .ok (fun i =>
      if start.toNat ≤ i ∧ i < start.toNat + cnt.toNat then src.getD (i - start.toNat) (dst i)
      else dst i)
  else .error .outOfBounds

/-- `memcpy(dst, &src[start], cnt * sizeof(T))` out of an array of `N` cells:
the cells `start .. start + cnt - 1`, in order. -/
def memcpyFrom (N : Nat) (src : Nat → α) (start : Int) (cnt : Int) : Except Fault (List α) :=
  if 0 ≤ start ∧ 0 ≤ cnt ∧ start + cnt ≤ N then
    .ok ((List.range cnt.toNat).map (fun k => src (start.toNat + k)))
  else .error .outOfBounds

/-- `RingBuffer::size`. -/
def RingBuffer.size (rb : RingBuffer α) : Int := rb.mSize

/-- `RingBuffer::read_index`. -/
def RingBuffer.read_index (N : Nat) (rb : RingBuffer α) (idx : Int) : Except Fault Int :=
  if ¬ 0 ≤ idx then .error .assertion
  else if ¬ idx ≤ rb.size then .error .assertion
  else
    let idx1 : Int := rb.size - idx
    let index : Int := rb.mWriteIndex - idx1
    if index < 0 then .ok ((N : Int) + index) else .ok index

/-- `RingBuffer::peek_at`. -/
def RingBuffer.peek_at (N : Nat) (rb : RingBuffer α) (index : Int) : Except Fault α :=
  match rb.read_index N index with
  | .error e => .error e
  | .ok index1 =>
    if 0 ≤ index1 ∧ index1 < N then .ok (rb.mBuffer index1.toNat) else .error .outOfBounds

/-- `RingBuffer::write(int16_t& count, const T* data)`: `data` is the list of the
`count` elements the pointer refers to.  The result is the value written back
to `count` and the new buffer. -/
def RingBuffer.write (N : Nat) (rb : RingBuffer α) (data : List α) :
    Except Fault (Int × RingBuffer α) :=
  let count : Int := min (data.length : Int) ((N : Int) - rb.size)
  let max_seq_write : Int := min count ((N : Int) - rb.mWriteIndex)
  let copied : Except Fault (RingBuffer α) :=
    if count ≤ max_seq_write then
      match memcpyInto N rb.mBuffer rb.mWriteIndex data count with
      | .error e => .error e
      | .ok buf =>
        .ok { rb with mBuffer := buf, mWriteIndex := Int.tmod (rb.mWriteIndex + count) N }
    else
      match memcpyInto N rb.mBuffer rb.mWriteIndex data max_seq_write with
      | .error e => .error e
      | .ok buf1 =>
        let writeIndex : Int := count - max_seq_write
        match memcpyInto N buf1 0 (data.drop max_seq_write.toNat) writeIndex with
        | .error e => .error e
        | .ok buf2 => .ok { rb with mBuffer := buf2, mWriteIndex := writeIndex }
  match copied with
  | .error e => .error e
  | .ok rb1 =>
    let rb2 : RingBuffer α := { rb1 with mSize := rb1.mSize + count }
    if rb2.mSize ≤ N then .ok (count, rb2) else .error .assertion

/-- `RingBuffer::write(const T& element)`. -/
def RingBuffer.writeElement (N : Nat) (rb : RingBuffer α) (element : α) :
    Except Fault (RingBuffer α) :=
  if ¬ rb.mSize + 1 ≤ N then .error .assertion
  else if ¬ (0 ≤ rb.mWriteIndex ∧ rb.mWriteIndex < N) then .error .outOfBounds
  else
    let buf := Function.update rb.mBuffer rb.mWriteIndex.toNat element
    let w1 : Int := rb.mWriteIndex + 1
    let w2 : Int := if (N : Int) ≤ w1 then w1 - N else w1
    .ok { mBuffer := buf, mSize := rb.mSize + 1, mWriteIndex := w2 }

/-- `RingBuffer::read(int16_t* count, T* data)`.  The result is the value written
back to `count`, the elements copied to `data`, and the new buffer. -/
def RingBuffer.read (N : Nat) (rb : RingBuffer α) (count : Int) :
    Except Fault (Int × List α × RingBuffer α) :=
  let clamped_count : Int := min count rb.size
  match rb.read_index N 0 with
  | .error e => .error e
  | .ok readIndex =>
    if ¬ 0 ≤ readIndex then .error .assertion
    else if ¬ readIndex < N then .error .assertion
    else
      let max_seq_read : Int := min clamped_count ((N : Int) - readIndex)
      let copied : Except Fault (List α) :=
        if clamped_count ≤ max_seq_read then memcpyFrom N rb.mBuffer readIndex clamped_count
        else
          match memcpyFrom N rb.mBuffer readIndex max_seq_read with
          | .error e => .error e
          | .ok part1 =>
            match memcpyFrom N rb.mBuffer 0 (clamped_count - max_seq_read) with
            | .error e => .error e
            | .ok part2 => .ok (part1 ++ part2)
      match copied with
      | .error e => .error e
      | .ok data =>
        let rb1 : RingBuffer α := { rb with mSize := rb.mSize - clamped_count }
        if 0 ≤ rb1.mSize then .ok (clamped_count, data, rb1) else .error .assertion

/-- `RingBuffer::read_ptr`.  The result is the pointer returned (the index of a
cell of `mBuffer`, or null), the value written back to `count`, and the new
buffer. -/
def RingBuffer.read_ptr (N : Nat) (rb : RingBuffer α) (count : Int) :
    Except Fault (Option Nat × Int × RingBuffer α) :=
  let clamped_count : Int := min count rb.size
  if 0 < clamped_count then
    match rb.read_index N 0 with
    | .error e => .error e
    | .ok readIndex =>
      if ¬ 0 ≤ readIndex then .error .assertion
      else if ¬ readIndex < N then .error .assertion
      else
        let clamped1 : Int := min clamped_count ((N : Int) - readIndex)
        let rb1 : RingBuffer α := { rb with mSize := rb.mSize - clamped1 }
        if 0 ≤ rb1.mSize then .ok (some readIndex.toNat, clamped1, rb1) else .error .assertion
  else .ok (none, clamped_count, rb)

/-- `RingBuffer::read()`. -/
def RingBuffer.readElement (N : Nat) (rb : RingBuffer α) : Except Fault (α × RingBuffer α) :=
  if ¬ 0 < rb.mSize then .error .assertion
  else
    match rb.read_index N 0 with
    | .error e => .error e
    | .ok index =>
      if 0 ≤ index ∧ index < N then
        .ok (rb.mBuffer index.toNat, { rb with mSize := rb.mSize - 1 })
      else .error .outOfBounds

/-- The representation invariant of a ring buffer of capacity `N`. -/
def RingInv (N : Nat) (rb : RingBuffer α) : Prop :=
  0 ≤ rb.mSize ∧ rb.mSize ≤ N ∧ 0 ≤ rb.mWriteIndex ∧ rb.mWriteIndex < N

/-- The unread elements, oldest first: the `mSize` cells that end, cyclically,
just before the write index. -/
def RingBuffer.unread (N : Nat) (rb : RingBuffer α) : List α :=
  (List.range rb.mSize.toNat).map
    (fun i => rb.mBuffer ((rb.mWriteIndex.toNat + N - rb.mSize.toNat + i) % N))

/-- The `cnt` cells of the array from the cell `start` on: what a caller reads
through the pointer returned by `read_ptr`. -/
def RingBuffer.cells (rb : RingBuffer α) (start : Option Nat) (cnt : Int) : List α :=
  match start with
  | none => []
  | some p => (List.range cnt.toNat).map (fun k => rb.mBuffer (p + k))

/-- A buffer of capacity 4 whose one unread element, 7, is in the last cell: the
next write starts at cell 0, so the unread elements wrap around the end of the
array. -/
def ringWrapped : RingBuffer Int :=
  { mBuffer := fun i => if i = 3 then 7 else 0, mSize := 1, mWriteIndex := 0 }

/-- An empty buffer of capacity 4 whose write index is 3: what is written next
wraps around the end of the array. -/
def ringEmptyAt3 : RingBuffer Int :=
  { mBuffer := fun _ => 0, mSize := 0, mWriteIndex := 3 }

/-- A buffer of capacity 4 with the three unread elements 1, 2, 3 in the cells
3, 0, 1: the oldest is in the last cell of the array. -/
def ringThree : RingBuffer Int :=
  { mBuffer := fun i => if i = 3 then 1 else if i = 0 then 2 else if i = 1 then 3 else 0,
    mSize := 3, mWriteIndex := 2 }

/-! ## RingBuffer: sequences of calls -/

/-- One call of a client on a ring buffer: the bulk write of the elements `data`
(the count is their number), the single-element write, the bulk read and the
pointer read with the requested count, and the single-element read. -/
inductive RingOp (α : Type) where
  | write (data : List α)
  | writeElement (element : α)
  | read (count : Int)
  | read_ptr (count : Int)
  | readElement

/-- What the caller has to ensure before the call: room for the element of a
single write, an unread element for a single read, and a count that is not
negative for a bulk read. -/
def RingOp.pre (N : Nat) (rb : RingBuffer α) : RingOp α → Prop
  | .write _ => True
  | .writeElement _ => rb.mSize < N
  | .read count => 0 ≤ count
  | .read_ptr _ => True
  | .readElement => 0 < rb.mSize

/-- The buffer after one call; what the call hands back to the caller is
dropped. -/
def RingBuffer.step (N : Nat) (rb : RingBuffer α) : RingOp α → Except Fault (RingBuffer α)
  | .write data =>
    match rb.write N data with
    | .ok (_, rb1) => .ok rb1
    | .error e => .error e
  | .writeElement element => rb.writeElement N element
  | .read count =>
    match rb.read N count with
    | .ok (_, _, rb1) => .ok rb1
    | .error e => .error e
  | .read_ptr count =>
    match rb.read_ptr N count with
    | .ok (_, _, rb1) => .ok rb1
    | .error e => .error e
  | .readElement =>
    match rb.readElement N with
    | .ok (_, rb1) => .ok rb1
    | .error e => .error e

/-- The buffer after a sequence of calls, the first fault ending the run. -/
def RingBuffer.run (N : Nat) (rb : RingBuffer α) : List (RingOp α) → Except Fault (RingBuffer α)
  | [] => .ok rb
  | op :: ops =>
    match rb.step N op with
    | .ok rb1 => rb1.run N ops
    | .error e => .error e

/-- Five calls on a buffer of capacity 4: they wrap around the end of the array. -/
def sampleOps : List (RingOp Int) :=
  [.write [1, 2, 3], .read 2, .write [4, 5, 6, 7, 8], .read_ptr 5, .readElement]

/-- The buffer the calls `sampleOps` leave, from the empty buffer of capacity 4. -/
def ringAfterOps : RingBuffer Int :=
  match (RingBuffer.ctor (fun _ => (0 : Int))).run 4 sampleOps with
  | .ok rb => rb
  | .error _ => RingBuffer.ctor (fun _ => 0)

/-- In a tick with the odd device sample count `2 * step + 1`, the mixing loop
writes past the buffer on a frame of delay `d`: the frame is due
(`-step < d < step`) and has more samples left than there are mono positions
from its offset to the end of the buffer. -/
def overruns (cap step : Nat) (d : Int) : Prop :=
  -(step : Int) < d ∧ d < step ∧ step - mixOffset d < cap - d.toNat

/-- Number of frames the loop over the samples of a stream acquires for a
stream of `len` samples: one per started chunk of `cap` samples. -/
def framesFor (cap len : Nat) : Nat := (len + cap - 1) / cap

/-- Number of frames `SoundComponent::Update` acquires for a queue of effects:
the frames for the stream of each effect. -/
def framesForQueue (cap : Nat) (streams : List (List α)) : List (SoundEffect α) → Nat
  | [] => 0
  | e :: es => framesFor cap (streams.getD e.mIndex []).length + framesForQueue cap streams es

/-- Frame capacity 2, a pool of three frames, a device buffer of 2 samples. -/
def cfgQueue : Config := { frameSize := 2, poolSize := 3, samples := 2 }

/-- A component with the streams `[1, 2, 3]` and `[4]` registered and two queued
effects: the first plays stream 0, the second stream 1. -/
def twoSounds : SoundComponent ℚ :=
  { mValid := true, mSoundStreams := [[1, 2, 3], [4]],
    mSoundPlay := [{ mIndex := 0, mPosition := (0, 0, 0) },
      { mIndex := 1, mPosition := (0, 0, 0) }] }

/-- The freshly constructed system with a pool of three frames. -/
def freshPool3 : SoundSystem ℚ :=
  SoundSystem.ctor cfgQueue
    (fun _ => { mSample := fun _ => 0, mDelay := 0, mCounter := none, mNext := none })
    (fun _ => 0)

/-! # Theorems -/

@[simp] theorem next_setFrame (s : SoundSystem α) (f : Nat) (fr : SoundFrame α) :
    (s.setFrame f fr).next = Function.update s.next f fr.mNext := by
  funext x
  by_cases hx : x = f
  · subst hx; simp [SoundSystem.next, SoundSystem.setFrame]
  · simp [SoundSystem.next, SoundSystem.setFrame, Function.update_noteq hx]

@[simp] theorem next_setNext (s : SoundSystem α) (f : Nat) (p : Option Nat) :
    (s.setNext f p).next = Function.update s.next f p := by
  simp [SoundSystem.setNext]

@[simp] theorem next_setDelay (s : SoundSystem α) (f : Nat) (d : Int) :
    (s.setDelay f d).next = s.next := by
  simp [SoundSystem.setDelay]; rfl

theorem seg_congr {next next1 : Nat → Option Nat} {l : List Nat} :
    ∀ {p e : Option Nat}, (∀ x ∈ l, next1 x = next x) → Seg next p l e → Seg next1 p l e := by
  induction l with
  | nil => intro p e _ h; exact h
  | cons x l ih =>
    intro p e hx h
    refine ⟨h.1, ?_⟩
    rw [hx x (List.mem_cons_self _ _)]
    exact ih (fun y hy => hx y (List.mem_cons_of_mem _ hy)) h.2

theorem seg_update {next : Nat → Option Nat} {l : List Nat} {p e : Option Nat} (y : Nat)
    (v : Option Nat) (hy : y ∉ l) (h : Seg next p l e) : Seg (Function.update next y v) p l e := by
  refine seg_congr (fun x hx => ?_) h
  have : x ≠ y := fun hxy => hy (hxy ▸ hx)
  simp [Function.update_noteq this]

theorem seg_append {next : Nat → Option Nat} {l1 l2 : List Nat} :
    ∀ {p e : Option Nat}, Seg next p (l1 ++ l2) e ↔ ∃ q, Seg next p l1 q ∧ Seg next q l2 e := by
  induction l1 with
  | nil =>
    intro p e
    constructor
    · intro h; exact ⟨p, rfl, h⟩
    · rintro ⟨q, h1, h2⟩; cases h1; exact h2
  | cons x l ih =>
    intro p e
    constructor
    · rintro ⟨hp, h⟩
      obtain ⟨q, h1, h2⟩ := ih.1 h
      exact ⟨q, ⟨hp, h1⟩, h2⟩
    · rintro ⟨q, ⟨hp, h1⟩, h2⟩
      exact ⟨hp, ih.2 ⟨q, h1, h2⟩⟩

/-- The links of the frames of a segment lead to frames of the segment or to its
end. -/
theorem seg_closed {next : Nat → Option Nat} {l : List Nat} :
    ∀ {p e : Option Nat}, Seg next p l e → ∀ x ∈ l, ∀ y, next x = some y → y ∈ l ∨ e = some y := by
  induction l with
  | nil => intro p e _ x hx; cases hx
  | cons a l ih =>
    intro p e h x hx y hxy
    rcases List.mem_cons.1 hx with rfl | hx
    · cases l with
      | nil => right; rw [← hxy]; exact h.2.symm
      | cons b l => left; have := h.2.1; rw [hxy] at this; cases this; simp
    · rcases ih h.2 x hx y hxy with h1 | h1
      · left; exact List.mem_cons_of_mem _ h1
      · right; exact h1

theorem linkFrames_next (l : List Nat) :
    ∀ (mem : Nat → SoundFrame α) (i : Nat),
      (linkFrames mem l i).mNext = if i ∈ l then some (i + 1) else (mem i).mNext := by
  induction l with
  | nil => intro mem i; simp [linkFrames]
  | cons a l ih =>
    intro mem i
    rw [linkFrames, ih]
    by_cases hi : i ∈ l
    · simp [hi]
    · by_cases hia : i = a
      · subst hia; simp [hi]
      · simp [hi, hia, Function.update_noteq hia]

theorem ctor_next (cfg : Config) (mem : Nat → SoundFrame α) (counters : Nat → Int) (i : Nat) :
    (SoundSystem.ctor cfg mem counters).next i =
      if i = cfg.poolSize - 1 then some 0
      else if i < cfg.poolSize - 1 then some (i + 1) else (mem i).mNext := by
  unfold SoundSystem.next SoundSystem.ctor
  by_cases hi : i = cfg.poolSize - 1
  · subst hi; simp
  · simp only [Function.update_noteq hi, if_neg hi, linkFrames_next, List.mem_range]

theorem seg_range {next : Nat → Option Nat} :
    ∀ (m a : Nat), (∀ i, a ≤ i → i + 1 < a + m → next i = some (i + 1)) →
      Seg next (some a) (List.range' a m) (if m = 0 then some a else next (a + m - 1)) := by
  intro m
  induction m with
  | zero => intro a _; simp [Seg]
  | succ m ih =>
    intro a h
    rw [List.range'_succ]
    refine ⟨rfl, ?_⟩
    by_cases hm : m = 0
    · subst hm; simp [Seg]
    · rw [h a (le_refl a) (by omega)]
      have := ih (a + 1) (fun i h1 h2 => h i (by omega) (by omega))
      simp only [hm, if_false] at this
      simp only [Nat.succ_ne_zero, if_false]
      have e : a + 1 + m - 1 = a + (m + 1) - 1 := by omega
      rw [← e]; exact this

theorem poolInv_ctor (cfg : Config) (mem : Nat → SoundFrame α) (counters : Nat → Int)
    (hN : 1 ≤ cfg.poolSize) : PoolInv (SoundSystem.ctor cfg mem counters) [] := by
  refine ⟨List.range' 0 cfg.poolSize, ?_, List.nodup_range' _ _, List.nodup_nil,
    fun _ _ => List.not_mem_nil _⟩
  right
  obtain ⟨n, hn⟩ : ∃ n, cfg.poolSize = n + 1 := ⟨cfg.poolSize - 1, by omega⟩
  refine ⟨0, List.range' 1 n, some 0, rfl, by rw [hn, List.range'_succ], ?_, Or.inl rfl⟩
  set nx := (SoundSystem.ctor cfg mem counters).next with hnx
  have hlast : nx n = some 0 := by
    rw [hnx, ctor_next]; simp [hn]
  have hstep : ∀ i, i < n → nx i = some (i + 1) := by
    intro i hi
    rw [hnx, ctor_next]
    have h1 : i ≠ cfg.poolSize - 1 := by omega
    have h2 : i < cfg.poolSize - 1 := by omega
    simp [h1, h2]
  by_cases h0 : n = 0
  · subst h0; simpa [Seg] using hlast
  · rw [hstep 0 (by omega)]
    have := @seg_range nx n 1 (fun i h1 h2 => hstep i (by omega))
    simp only [h0, if_false] at this
    have e : 1 + n - 1 = n := by omega
    rw [e, hlast] at this
    exact this

@[simp] theorem mFreeFrame_setFrame (s : SoundSystem α) (f : Nat) (fr : SoundFrame α) :
    (s.setFrame f fr).mFreeFrame = s.mFreeFrame := rfl

@[simp] theorem mPlayFrame_setFrame (s : SoundSystem α) (f : Nat) (fr : SoundFrame α) :
    (s.setFrame f fr).mPlayFrame = s.mPlayFrame := rfl

@[simp] theorem counters_setFrame (s : SoundSystem α) (f : Nat) (fr : SoundFrame α) :
    (s.setFrame f fr).counters = s.counters := rfl

@[simp] theorem mComponents_setFrame (s : SoundSystem α) (f : Nat) (fr : SoundFrame α) :
    (s.setFrame f fr).mComponents = s.mComponents := rfl

@[simp] theorem mSampleFrame_setFrame (s : SoundSystem α) (f : Nat) (fr : SoundFrame α) :
    (s.setFrame f fr).mSampleFrame = Function.update s.mSampleFrame f fr := rfl

/-- The two successful outcomes of `RequestFrame`. -/
theorem requestFrame_ok [Zero α] {cfg : Config} {s s1 : SoundSystem α} {f : Nat}
    (h : s.RequestFrame cfg = .ok (f, s1)) :
    (s.mFreeFrame = some f ∧ s.next f = some f ∧
      s1 = ({ s with mFreeFrame := none } : SoundSystem α).setFrame f
        ((s.mSampleFrame f).Reset cfg)) ∨
    (∃ hd, s.mFreeFrame = some hd ∧ s.next hd = some f ∧ f ≠ hd ∧
      s1 = (s.setNext hd (s.next f)).setFrame f
        (((s.setNext hd (s.next f)).mSampleFrame f).Reset cfg)) := by
  unfold SoundSystem.RequestFrame at h
  cases hfree : s.mFreeFrame with
  | none => simp [hfree] at h
  | some hd =>
    simp only [hfree] at h
    by_cases hself : (s.mSampleFrame hd).mNext = some hd
    · simp only [hself, if_true] at h
      injection h with h
      injection h with h1 h2
      subst h1
      exact Or.inl ⟨rfl, hself, h2.symm⟩
    · simp only [hself, if_false] at h
      cases hnx : (s.mSampleFrame hd).mNext with
      | none => simp [hnx] at h
      | some r =>
        simp only [hnx] at h
        injection h with h
        injection h with h1 h2
        subst h1
        refine Or.inr ⟨hd, rfl, hnx, ?_, h2.symm⟩
        rintro rfl
        exact hself hnx

theorem freeShape_closed {s : SoundSystem α} {fl : List Nat} (h : FreeShape s fl) :
    ∀ x ∈ fl, ∀ y, s.next x = some y → y ∈ fl := by
  rcases h with ⟨_, rfl⟩ | ⟨hd, l, e, _, rfl, hseg, he⟩
  · intro x hx; cases hx
  · intro x hx y hxy
    have hend : e = some y → y ∈ hd :: l := by
      intro hey
      rcases he with he | he
      · rw [he] at hey; cases hey; simp
      · rw [he] at hey; cases hey
    rcases List.mem_cons.1 hx with rfl | hx
    · cases l with
      | nil =>
        have : s.next x = e := hseg
        exact hend (this ▸ hxy)
      | cons b l =>
        have := hseg.1; rw [hxy] at this; cases this; simp
    · rcases seg_closed hseg x hx y hxy with h1 | h1
      · exact List.mem_cons_of_mem _ h1
      · exact hend h1

theorem reach_mem {next : Nat → Option Nat} {S : List Nat}
    (hS : ∀ x ∈ S, ∀ y, next x = some y → y ∈ S) {a b : Nat} (ha : a ∈ S)
    (h : Relation.ReflTransGen (fun a b => next a = some b) a b) : b ∈ S := by
  induction h with
  | refl => exact ha
  | tail _ hbc ih => exact hS _ ih _ hbc

theorem poolInv_not_inFreeList {s : SoundSystem α} {out : List Nat} (h : PoolInv s out)
    {f : Nat} (hf : f ∈ out) : ¬ s.InFreeList f := by
  obtain ⟨fl, hshape, _, _, hdis⟩ := h
  rintro ⟨hd, hhd, hreach⟩
  have hmem : hd ∈ fl := by
    rcases hshape with ⟨h0, _⟩ | ⟨h1, l, e, hh, rfl, _, _⟩
    · rw [h0] at hhd; cases hhd
    · rw [hh] at hhd; cases hhd; simp
  exact hdis f (reach_mem (freeShape_closed hshape) hmem hreach) hf

theorem poolInv_request [Zero α] {cfg : Config} {s s1 : SoundSystem α} {out : List Nat}
    {f : Nat} (hinv : PoolInv s out) (h : s.RequestFrame cfg = .ok (f, s1)) :
    PoolInv s1 (f :: out) := by
  obtain ⟨fl, hshape, hnd, hout, hdis⟩ := hinv
  rcases requestFrame_ok h with ⟨hfree, hself, rfl⟩ | ⟨hd, hfree, hnx, hne, rfl⟩
  · rcases hshape with ⟨h0, _⟩ | ⟨hd, l, e, hh, rfl, hseg, _⟩
    · rw [h0] at hfree; cases hfree
    · rw [hh] at hfree; cases hfree
      refine ⟨[], Or.inl ⟨rfl, rfl⟩, List.nodup_nil, ?_, fun _ hx => by cases hx⟩
      exact List.nodup_cons.2 ⟨hdis _ (List.mem_cons_self _ _), hout⟩
  · rcases hshape with ⟨h0, _⟩ | ⟨hd1, l, e, hh, rfl, hseg, he⟩
    · rw [h0] at hfree; cases hfree
    · rw [hh] at hfree; cases hfree
      cases l with
      | nil =>
        have h1 : s.next hd = e := hseg
        rw [hnx] at h1
        rcases he with he | he
        · rw [he] at h1; cases h1; exact absurd rfl hne
        · rw [he] at h1; cases h1
      | cons b l2 =>
        obtain ⟨hb, hseg2⟩ := hseg
        rw [hnx] at hb; cases hb
        have hnd1 := List.nodup_cons.1 hnd
        have hnd2 := List.nodup_cons.1 hnd1.2
        have hhd : hd ∉ l2 := fun hm => hnd1.1 (List.mem_cons_of_mem _ hm)
        refine ⟨hd :: l2, Or.inr ⟨hd, l2, e, hh, rfl, ?_, he⟩, ?_, ?_, ?_⟩
        · simp only [next_setFrame, next_setNext, SoundFrame.Reset]
          rw [Function.update_noteq (Ne.symm hne), Function.update_same]
          exact seg_update _ _ hnd2.1 (seg_update _ _ hhd hseg2)
        · exact List.nodup_cons.2 ⟨hhd, hnd2.2⟩
        · exact List.nodup_cons.2 ⟨hdis _ (by simp), hout⟩
        · intro x hx hxo
          rcases List.mem_cons.1 hxo with rfl | hxo
          · rcases List.mem_cons.1 hx with rfl | hx
            · exact hne rfl
            · exact hnd2.1 hx
          · rcases List.mem_cons.1 hx with rfl | hx
            · exact hdis _ (by simp) hxo
            · exact hdis _ (by simp [hx]) hxo

theorem releaseFrame_mFreeFrame (s : SoundSystem α) (f : Nat) :
    (s.ReleaseFrame f).mFreeFrame = some (s.mFreeFrame.getD f) := by
  unfold SoundSystem.ReleaseFrame
  cases (s.mSampleFrame f).mCounter <;> cases hfree : s.mFreeFrame <;>
    simp [hfree, SoundSystem.setNext]

theorem releaseFrame_next (s : SoundSystem α) (f : Nat) :
    (s.ReleaseFrame f).next =
      match s.mFreeFrame with
      | none => Function.update s.next f none
      | some hd => Function.update (Function.update s.next f (s.next hd)) hd (some f) := by
  unfold SoundSystem.ReleaseFrame
  cases (s.mSampleFrame f).mCounter <;> cases hfree : s.mFreeFrame <;>
    simp [hfree] <;> rfl

theorem poolInv_release {s : SoundSystem α} {out : List Nat} {f : Nat}
    (hinv : PoolInv s out) (hf : f ∈ out) : PoolInv (s.ReleaseFrame f) (out.erase f) := by
  obtain ⟨fl, hshape, hnd, hout, hdis⟩ := hinv
  have hffl : f ∉ fl := fun hm => hdis f hm hf
  have herase : f ∉ out.erase f := fun hm => (List.Nodup.mem_erase_iff hout).1 hm |>.1 rfl
  rcases hshape with ⟨h0, rfl⟩ | ⟨hd, l, e, hh, rfl, hseg, he⟩
  · refine ⟨[f], Or.inr ⟨f, [], none, ?_, rfl, ?_, Or.inr rfl⟩, List.nodup_singleton f,
      hout.erase f, ?_⟩
    · rw [releaseFrame_mFreeFrame, h0]; rfl
    · rw [releaseFrame_next, h0]; simp [Seg]
    · intro x hx; rw [List.mem_singleton.1 hx]; exact herase
  · have hne : f ≠ hd := fun hfh => hffl (hfh ▸ List.mem_cons_self _ _)
    have hnd1 := List.nodup_cons.1 hnd
    have hfl : f ∉ l := fun hm => hffl (List.mem_cons_of_mem _ hm)
    refine ⟨hd :: f :: l, Or.inr ⟨hd, f :: l, e, ?_, rfl, ?_, he⟩, ?_, hout.erase f, ?_⟩
    · rw [releaseFrame_mFreeFrame, hh]; rfl
    · rw [releaseFrame_next, hh]
      simp only [Function.update_same]
      refine ⟨rfl, ?_⟩
      rw [Function.update_noteq hne, Function.update_same]
      exact seg_update _ _ hnd1.1 (seg_update _ _ hfl hseg)
    · refine List.nodup_cons.2 ⟨?_, List.nodup_cons.2 ⟨hfl, hnd1.2⟩⟩
      intro hm
      rcases List.mem_cons.1 hm with h1 | h1
      · exact hne h1.symm
      · exact hnd1.1 h1
    · intro x hx hxo
      rcases List.mem_cons.1 hx with rfl | hx
      · exact hdis _ (by simp) (List.mem_of_mem_erase hxo)
      · rcases List.mem_cons.1 hx with rfl | hx
        · exact herase hxo
        · exact hdis _ (by simp [hx]) (List.mem_of_mem_erase hxo)

theorem poolInv_client {s s1 : SoundSystem α} {out : List Nat} (hinv : PoolInv s out)
    (hfree : s1.mFreeFrame = s.mFreeFrame)
    (hmem : ∀ x, x ∉ out → s1.mSampleFrame x = s.mSampleFrame x) : PoolInv s1 out := by
  obtain ⟨fl, hshape, hnd, hout, hdis⟩ := hinv
  have hnext : ∀ x ∈ fl, s1.next x = s.next x := fun x hx => by
    unfold SoundSystem.next; rw [hmem x (hdis x hx)]
  refine ⟨fl, ?_, hnd, hout, hdis⟩
  rcases hshape with ⟨h0, rfl⟩ | ⟨hd, l, e, hh, rfl, hseg, he⟩
  · exact Or.inl ⟨hfree.trans h0, rfl⟩
  · refine Or.inr ⟨hd, l, e, hfree.trans hh, rfl, ?_, he⟩
    rw [hnext hd (by simp)]
    exact seg_congr (fun x hx => hnext x (by simp [hx])) hseg

theorem poolReach_inv [Zero α] {cfg : Config} {s : SoundSystem α} {out : List Nat}
    (h : PoolReach cfg s out) : PoolInv s out := by
  induction h with
  | ctor mem counters hN => exact poolInv_ctor cfg mem counters hN
  | request _ hreq ih => exact poolInv_request ih hreq
  | release _ hf ih => exact poolInv_release ih hf
  | client _ hfree hmem ih => exact poolInv_client ih hfree hmem

/-- C4: in every reachable state of the pool, a frame returned by a successful
`RequestFrame` has all its samples equal to 0, delay 0, no counter and no
forward link, whatever it held before, and it is no longer reachable from the
head of the free list. -/
theorem requestFrame_returns_cleared_frame [Zero α] (cfg : Config) (s : SoundSystem α)
    (out : List Nat) (hreach : PoolReach cfg s out) (f : Nat) (s1 : SoundSystem α)
    (hreq : s.RequestFrame cfg = .ok (f, s1)) :
    (∀ i, i < cfg.frameSize → (s1.mSampleFrame f).mSample i = 0) ∧
    (s1.mSampleFrame f).mDelay = 0 ∧ (s1.mSampleFrame f).mCounter = none ∧
    (s1.mSampleFrame f).mNext = none ∧ ¬ s1.InFreeList f := by
  have hinv := poolInv_request (poolReach_inv hreach) hreq
  have hfree := poolInv_not_inFreeList hinv (List.mem_cons_self f out)
  rcases requestFrame_ok hreq with ⟨_, _, rfl⟩ | ⟨hd, _, _, _, rfl⟩
  · refine ⟨fun i hi => ?_, ?_, ?_, ?_, hfree⟩ <;> simp [SoundFrame.Reset, *]
  · refine ⟨fun i hi => ?_, ?_, ?_, ?_, hfree⟩ <;> simp [SoundFrame.Reset, *]

/-- Witness of C4: the pool of two frames whose memory was dirty before the
constructor ran hands out frame 1, cleared. -/
theorem requestFrame_returns_cleared_frame_witness :
    PoolReach cfgPool2 pool2 [] ∧
    pool2.RequestFrame cfgPool2 = .ok (1, afterRequest cfgPool2 pool2) ∧
    ((∀ i, i < cfgPool2.frameSize →
        ((afterRequest cfgPool2 pool2).mSampleFrame 1).mSample i = 0) ∧
      ((afterRequest cfgPool2 pool2).mSampleFrame 1).mDelay = 0 ∧
      ((afterRequest cfgPool2 pool2).mSampleFrame 1).mCounter = none ∧
      ((afterRequest cfgPool2 pool2).mSampleFrame 1).mNext = none ∧
      ¬ (afterRequest cfgPool2 pool2).InFreeList 1) :=
  ⟨PoolReach.ctor _ _ (by decide), rfl,
    requestFrame_returns_cleared_frame cfgPool2 pool2 [] (PoolReach.ctor _ _ (by decide)) 1
      (afterRequest cfgPool2 pool2) rfl⟩

/-- C2 (evaluation at the failing input): in the pool of capacity 1, the first
`RequestFrame` hands out frame 0; after `ReleaseFrame` of that frame nothing is
outstanding and frame 0 is the head of the free list, yet the next
`RequestFrame` dereferences a null pointer instead of returning a frame. -/
theorem pool1_request_release_request_faults :
    ∃ s1 : SoundSystem Int, pool1.RequestFrame cfgPool1 = .ok (0, s1) ∧
      (s1.ReleaseFrame 0).mFreeFrame = some 0 ∧
      (s1.ReleaseFrame 0).RequestFrame cfgPool1 = .error .nullDeref :=
  ⟨afterRequest cfgPool1 pool1, rfl, rfl, rfl⟩

/-- C3 (evaluation at the failing input): in the pool of capacity 2, after both
frames have been acquired (frame 1, then frame 0) and frame 1 is released, the
free list is the single frame 1 whose link is null, not the frame itself, and
the next `RequestFrame` dereferences a null pointer although frame 1 is free. -/
theorem pool2_exhaust_release_request_faults :
    ∃ s1 s2 : SoundSystem Int, pool2.RequestFrame cfgPool2 = .ok (1, s1) ∧
      s1.RequestFrame cfgPool2 = .ok (0, s2) ∧
      s2.mFreeFrame = none ∧
      (s2.ReleaseFrame 1).mFreeFrame = some 1 ∧
      (s2.ReleaseFrame 1).next 1 = none ∧
      (s2.ReleaseFrame 1).RequestFrame cfgPool2 = .error .nullDeref :=
  ⟨afterRequest cfgPool2 pool2, afterRequest cfgPool2 (afterRequest cfgPool2 pool2),
    rfl, rfl, rfl, rfl, rfl, rfl⟩

theorem addSamples_zero [Add α] (sample : Nat → α) (frameInit off : Nat) (mix : Nat → α) :
    addSamples sample frameInit off 0 mix = mix := by
  funext i
  unfold addSamples
  rw [if_neg]; omega

theorem mixSamples_even [Add α] (sample : Nat → α) (cap step : Nat) :
    ∀ (n frameIdx off : Nat) (mix : Nat → α), cap - frameIdx ≤ n →
      mixSamples sample cap (2 * step) n frameIdx (2 * off) mix =
        .ok (frameIdx + min (cap - frameIdx) (step - off),
          addSamples sample frameIdx off (min (cap - frameIdx) (step - off)) mix) := by
  intro n
  induction n with
  | zero =>
    intro frameIdx off mix hn
    have h0 : min (cap - frameIdx) (step - off) = 0 := by omega
    simp [mixSamples, h0, addSamples_zero]
  | succ n ih =>
    intro frameIdx off mix hn
    unfold mixSamples
    by_cases hc : frameIdx < cap ∧ 2 * off < 2 * step
    · have h1 : 2 * off + 1 < 2 * step := by omega
      have e2 : 2 * off + 2 = 2 * (off + 1) := by ring
      simp only [hc, and_self, if_true, h1, e2]
      rw [ih (frameIdx + 1) (off + 1) _ (by omega)]
      have hcnt : min (cap - frameIdx) (step - off) =
          min (cap - (frameIdx + 1)) (step - (off + 1)) + 1 := by omega
      rw [hcnt]
      congr 1
      refine Prod.ext (by simp; omega) ?_
      funext i
      simp only [addSamples]
      by_cases hi0 : i = 2 * off
      · subst hi0
        have : ¬ (2 * (off + 1) ≤ 2 * off ∧ 2 * off <
            2 * (off + 1 + min (cap - (frameIdx + 1)) (step - (off + 1)))) := by omega
        rw [if_neg this, if_pos (by omega)]
        have e : 2 * off / 2 - off = 0 := by omega
        rw [e, Function.update_noteq (by omega), Function.update_same]; rfl
      · by_cases hi1 : i = 2 * off + 1
        · subst hi1
          have : ¬ (2 * (off + 1) ≤ 2 * off + 1 ∧ 2 * off + 1 <
              2 * (off + 1 + min (cap - (frameIdx + 1)) (step - (off + 1)))) := by omega
          rw [if_neg this, if_pos (by omega)]
          have e : (2 * off + 1) / 2 - off = 0 := by omega
          rw [e, Function.update_same, Function.update_noteq (by omega)]; rfl
        · rw [Function.update_noteq hi1, Function.update_noteq hi0]
          by_cases hr : 2 * (off + 1) ≤ i ∧
              i < 2 * (off + 1 + min (cap - (frameIdx + 1)) (step - (off + 1)))
          · rw [if_pos hr, if_pos (by omega)]
            have e : frameIdx + 1 + (i / 2 - (off + 1)) = frameIdx + (i / 2 - off) := by omega
            rw [e]
          · rw [if_neg hr, if_neg (by omega)]
    · have h0 : min (cap - frameIdx) (step - off) = 0 := by omega
      rw [if_neg hc, h0, addSamples_zero]; rfl

theorem mixActive_even [Add α] (cfg : Config) (step : Nat) (fr : SoundFrame α)
    (mix : Nat → α) (hcap : 0 < cfg.frameSize) (hd : -(step : Int) < fr.mDelay) :
    mixActive cfg step (2 * step) fr mix =
      .ok (delayAfter cfg.frameSize step fr.mDelay, mixAfter cfg.frameSize step fr mix) := by
  have hnp : ¬ fr.mDelay ≤ -(step : Int) := not_le.2 hd
  unfold mixActive delayAfter mixAfter
  by_cases hlt : fr.mDelay < (step : Int)
  · have hinit : (max 0 fr.mDelay).toNat = fr.mDelay.toNat := by
      rcases le_total 0 fr.mDelay with h | h
      · rw [max_eq_right h]
      · rw [max_eq_left h]; simp [Int.toNat_eq_zero.2 h]
    have hmix : (if fr.mDelay < 0 then |fr.mDelay| * 2 else 0 : Int).toNat =
        2 * mixOffset fr.mDelay := by
      unfold mixOffset
      by_cases hneg : fr.mDelay < 0
      · simp only [hneg, if_true]
        rw [Int.abs_eq_natAbs]
        have : ((fr.mDelay.natAbs : Int) * 2) = ((2 * fr.mDelay.natAbs : Nat) : Int) := by
          push_cast; ring
        rw [this, Int.toNat_natCast]
      · simp [hneg]
    simp only [hlt, if_true, hnp, if_false, hinit, hmix]
    rw [mixSamples_even _ _ _ _ _ _ _ (le_refl _)]
    simp only
    have hpos : 0 < (if fr.mDelay < 0 then (0 : Int) else fr.mDelay) +
        ((fr.mDelay.toNat + min (cfg.frameSize - fr.mDelay.toNat)
          (step - mixOffset fr.mDelay) : Nat) : Int) := by
      unfold mixOffset
      by_cases hneg : fr.mDelay < 0
      · simp only [hneg, if_true]
        have h1 : fr.mDelay.toNat = 0 := Int.toNat_eq_zero.2 (le_of_lt hneg)
        have h2 : fr.mDelay.natAbs < step := by omega
        rw [h1]
        have : 0 < min (cfg.frameSize - 0) (step - fr.mDelay.natAbs) := by omega
        omega
      · simp only [hneg, if_false]
        have h1 : (fr.mDelay.toNat : Int) = fr.mDelay := Int.toNat_of_nonneg (by omega)
        have : 0 < fr.mDelay ∨ fr.mDelay = 0 := by omega
        rcases this with h | h
        · omega
        · have h3 : fr.mDelay.toNat = 0 := by omega
          rw [h3, h]
          have : 0 < min (cfg.frameSize - 0) (step - 0) := by omega
          omega
    rw [if_pos hpos]
    rfl
  · simp [hlt, hnp]

@[simp] theorem delay_setFrame (s : SoundSystem α) (f : Nat) (fr : SoundFrame α) :
    (s.setFrame f fr).delay = Function.update s.delay f fr.mDelay := by
  funext x
  by_cases hx : x = f
  · subst hx; simp [SoundSystem.delay, SoundSystem.setFrame]
  · simp [SoundSystem.delay, SoundSystem.setFrame, Function.update_noteq hx]

@[simp] theorem sample_setFrame (s : SoundSystem α) (f : Nat) (fr : SoundFrame α) :
    (s.setFrame f fr).sample = Function.update s.sample f fr.mSample := by
  funext x
  by_cases hx : x = f
  · subst hx; simp [SoundSystem.sample, SoundSystem.setFrame]
  · simp [SoundSystem.sample, SoundSystem.setFrame, Function.update_noteq hx]

@[simp] theorem counter_setFrame (s : SoundSystem α) (f : Nat) (fr : SoundFrame α) :
    (s.setFrame f fr).counter = Function.update s.counter f fr.mCounter := by
  funext x
  by_cases hx : x = f
  · subst hx; simp [SoundSystem.counter, SoundSystem.setFrame]
  · simp [SoundSystem.counter, SoundSystem.setFrame, Function.update_noteq hx]

@[simp] theorem delay_setNext (s : SoundSystem α) (f : Nat) (p : Option Nat) :
    (s.setNext f p).delay = s.delay := by
  simp [SoundSystem.setNext]; rfl

@[simp] theorem sample_setNext (s : SoundSystem α) (f : Nat) (p : Option Nat) :
    (s.setNext f p).sample = s.sample := by
  simp [SoundSystem.setNext]; rfl

@[simp] theorem counter_setNext (s : SoundSystem α) (f : Nat) (p : Option Nat) :
    (s.setNext f p).counter = s.counter := by
  simp [SoundSystem.setNext]; rfl

@[simp] theorem delay_setDelay (s : SoundSystem α) (f : Nat) (d : Int) :
    (s.setDelay f d).delay = Function.update s.delay f d := by
  simp [SoundSystem.setDelay]

@[simp] theorem sample_setDelay (s : SoundSystem α) (f : Nat) (d : Int) :
    (s.setDelay f d).sample = s.sample := by
  simp [SoundSystem.setDelay]; rfl

@[simp] theorem counter_setDelay (s : SoundSystem α) (f : Nat) (d : Int) :
    (s.setDelay f d).counter = s.counter := by
  simp [SoundSystem.setDelay]; rfl

@[simp] theorem mFreeFrame_setNext (s : SoundSystem α) (f : Nat) (p : Option Nat) :
    (s.setNext f p).mFreeFrame = s.mFreeFrame := rfl

@[simp] theorem mPlayFrame_setNext (s : SoundSystem α) (f : Nat) (p : Option Nat) :
    (s.setNext f p).mPlayFrame = s.mPlayFrame := rfl

@[simp] theorem mComponents_setNext (s : SoundSystem α) (f : Nat) (p : Option Nat) :
    (s.setNext f p).mComponents = s.mComponents := rfl

@[simp] theorem counters_setNext (s : SoundSystem α) (f : Nat) (p : Option Nat) :
    (s.setNext f p).counters = s.counters := rfl

@[simp] theorem mFreeFrame_setDelay (s : SoundSystem α) (f : Nat) (d : Int) :
    (s.setDelay f d).mFreeFrame = s.mFreeFrame := rfl

@[simp] theorem mPlayFrame_setDelay (s : SoundSystem α) (f : Nat) (d : Int) :
    (s.setDelay f d).mPlayFrame = s.mPlayFrame := rfl

@[simp] theorem mComponents_setDelay (s : SoundSystem α) (f : Nat) (d : Int) :
    (s.setDelay f d).mComponents = s.mComponents := rfl

@[simp] theorem counters_setDelay (s : SoundSystem α) (f : Nat) (d : Int) :
    (s.setDelay f d).counters = s.counters := rfl

@[simp] theorem releaseFrame_delay (s : SoundSystem α) (f : Nat) :
    (s.ReleaseFrame f).delay = s.delay := by
  unfold SoundSystem.ReleaseFrame
  cases (s.mSampleFrame f).mCounter <;> cases hfree : s.mFreeFrame <;> simp [hfree] <;> rfl

@[simp] theorem releaseFrame_sample (s : SoundSystem α) (f : Nat) :
    (s.ReleaseFrame f).sample = s.sample := by
  unfold SoundSystem.ReleaseFrame
  cases (s.mSampleFrame f).mCounter <;> cases hfree : s.mFreeFrame <;> simp [hfree] <;> rfl

@[simp] theorem releaseFrame_counter (s : SoundSystem α) (f : Nat) :
    (s.ReleaseFrame f).counter = s.counter := by
  unfold SoundSystem.ReleaseFrame
  cases (s.mSampleFrame f).mCounter <;> cases hfree : s.mFreeFrame <;> simp [hfree] <;> rfl

@[simp] theorem releaseFrame_mPlayFrame (s : SoundSystem α) (f : Nat) :
    (s.ReleaseFrame f).mPlayFrame = s.mPlayFrame := by
  unfold SoundSystem.ReleaseFrame
  cases (s.mSampleFrame f).mCounter <;> cases hfree : s.mFreeFrame <;> simp [hfree]

@[simp] theorem releaseFrame_mComponents (s : SoundSystem α) (f : Nat) :
    (s.ReleaseFrame f).mComponents = s.mComponents := by
  unfold SoundSystem.ReleaseFrame
  cases (s.mSampleFrame f).mCounter <;> cases hfree : s.mFreeFrame <;> simp [hfree]

/-- Releasing a frame that is neither in a segment nor the head of the free list
when that head is in the segment leaves the segment as it is. -/
theorem seg_releaseFrame {s : SoundSystem α} {f : Nat} {l : List Nat} {p e : Option Nat}
    (hf : f ∉ l) (hfree : ∀ h, s.mFreeFrame = some h → h ∉ l) (h : Seg s.next p l e) :
    Seg (s.ReleaseFrame f).next p l e := by
  rw [releaseFrame_next]
  cases hh : s.mFreeFrame with
  | none => exact seg_update _ _ hf h
  | some hd => exact seg_update _ _ (hfree hd hh) (seg_update _ _ hf h)

theorem getLast?_concat_some (K : List Nat) (f : Nat) : (K ++ [f]).getLast? = some f := by
  simp

theorem list_nil_or_snoc (K : List Nat) : K = [] ∨ ∃ K0 l, K = K0 ++ [l] := by
  rcases List.eq_nil_or_concat K with h | ⟨K0, l, h⟩
  · exact Or.inl h
  · exact Or.inr ⟨K0, l, by rw [h, List.concat_eq_append]⟩

/-- The frame taken out of the play list and released: the invariant holds for
the frames kept so far and the remaining ones. -/
theorem mixInv_release {s : SoundSystem α} {K R : List Nat} {f : Nat}
    (hinv : MixInv s K (some f) (f :: R)) :
    ∃ s2, s.unlinkFrame f K.getLast? = .ok s2 ∧
      MixInv (s2.ReleaseFrame f) K (s.next f) R ∧
      s2.delay = s.delay ∧ s2.sample = s.sample ∧ s2.counter = s.counter ∧
      s2.mComponents = s.mComponents ∧ s2.mFreeFrame = s.mFreeFrame ∧
      s2.counters = s.counters := by
  obtain ⟨hK, hR, hnd, hfree⟩ := hinv
  have hfK : f ∉ K := fun hm => by
    have := List.nodup_append.1 hnd
    exact this.2.2 hm (List.mem_cons_self _ _)
  have hndR : (f :: R).Nodup := (List.nodup_append.1 hnd).2.1
  have hfR : f ∉ R := (List.nodup_cons.1 hndR).1
  have hndKR : (K ++ R).Nodup := by
    refine List.nodup_append.2 ⟨(List.nodup_append.1 hnd).1, (List.nodup_cons.1 hndR).2, ?_⟩
    intro x hx hxR
    exact (List.nodup_append.1 hnd).2.2 hx (List.mem_cons_of_mem _ hxR)
  have hfKR : f ∉ K ++ R := fun hm => by
    rcases List.mem_append.1 hm with h | h
    · exact hfK h
    · exact hfR h
  have hR2 : Seg s.next (s.next f) R none := hR.2
  rcases list_nil_or_snoc K with rfl | ⟨K0, l, rfl⟩
  · have hplay : s.mPlayFrame = some f := hK
    refine ⟨{ s with mPlayFrame := (s.mSampleFrame f).mNext }, ?_, ?_, rfl, rfl, rfl, rfl, rfl,
      rfl⟩
    · simp [SoundSystem.unlinkFrame, hplay]
    · refine ⟨?_, ?_, hndKR, ?_⟩
      · simp only [releaseFrame_mPlayFrame]; rfl
      · exact seg_releaseFrame hfR (fun h hh => fun hm => hfree h hh (by simp [hm])) hR2
      · intro h hh
        rw [releaseFrame_mFreeFrame] at hh
        cases hs : s.mFreeFrame with
        | none =>
          have hs2 : ({ s with mPlayFrame := (s.mSampleFrame f).mNext } :
              SoundSystem α).mFreeFrame = none := hs
          rw [hs2] at hh; cases hh; exact hfKR
        | some hd =>
          have hs2 : ({ s with mPlayFrame := (s.mSampleFrame f).mNext } :
              SoundSystem α).mFreeFrame = some hd := hs
          rw [hs2] at hh
          have e : hd = h := Option.some.inj hh
          subst e
          intro hm; exact hfree hd hs (by simpa using Or.inr hm)
  · have hl : (K0 ++ [l]).getLast? = some l := getLast?_concat_some K0 l
    obtain ⟨q, hK0, hq⟩ := seg_append.1 hK
    obtain ⟨hql, hlf⟩ := hq
    have hlf : s.next l = some f := hlf
    subst hql
    have hndK : (K0 ++ [l]).Nodup := (List.nodup_append.1 hnd).1
    have hlK0 : l ∉ K0 := fun hm => by
      have := (List.nodup_append.1 hndK).2.2 hm (List.mem_singleton_self l)
      exact this
    have hlR : l ∉ R := fun hm =>
      (List.nodup_append.1 hnd).2.2 (by simp) (List.mem_cons_of_mem _ hm)
    have hlf2 : l ≠ f := fun e => hfK (by simp [e])
    have hfK0 : f ∉ K0 := fun hm => hfK (by simp [hm])
    refine ⟨(s.setNext l (s.mSampleFrame f).mNext).setNext f none, ?_, ?_, by simp, by simp,
      by simp, rfl, rfl, rfl⟩
    · rw [hl]; rfl
    · have hnx : ((s.setNext l (s.mSampleFrame f).mNext).setNext f none).next =
          Function.update (Function.update s.next l (s.next f)) f none := by
        simp; rfl
      refine ⟨?_, ?_, hndKR, ?_⟩
      · simp only [releaseFrame_mPlayFrame, mPlayFrame_setNext]
        refine seg_releaseFrame hfK (fun h hh => fun hm =>
          hfree h hh (List.mem_append_left _ hm)) ?_
        rw [hnx]
        refine seg_append.2 ⟨some l, seg_update _ _ hfK0 (seg_update _ _ hlK0 hK0), rfl, ?_⟩
        show Function.update (Function.update s.next l (s.next f)) f none l = s.next f
        rw [Function.update_noteq hlf2, Function.update_same]
      · refine seg_releaseFrame hfR (fun h hh => fun hm =>
          hfree h hh (List.mem_append_right _ (List.mem_cons_of_mem _ hm))) ?_
        rw [hnx]
        exact seg_update _ _ hfR (seg_update _ _ hlR hR2)
      · intro h hh
        rw [releaseFrame_mFreeFrame] at hh
        simp only [mFreeFrame_setNext] at hh
        cases hs : s.mFreeFrame with
        | none => rw [hs] at hh; cases hh; exact hfKR
        | some hd =>
          rw [hs] at hh
          have e : hd = h := Option.some.inj hh
          subst e
          intro hm
          refine hfree hd hs ?_
          rcases List.mem_append.1 hm with h1 | h1
          · exact List.mem_append_left _ h1
          · exact List.mem_append_right _ (List.mem_cons_of_mem _ h1)

theorem mixInv_setDelay {s : SoundSystem α} {K R : List Nat} {p : Option Nat} (f : Nat)
    (d : Int) (h : MixInv s K p R) : MixInv (s.setDelay f d) K p R := by
  obtain ⟨h1, h2, h3, h4⟩ := h
  exact ⟨by simpa using h1, by simpa using h2, h3, by simpa using h4⟩

theorem mixInv_keep {s : SoundSystem α} {K R : List Nat} {f : Nat}
    (h : MixInv s K (some f) (f :: R)) : MixInv s (K ++ [f]) (s.next f) R := by
  obtain ⟨h1, h2, h3, h4⟩ := h
  refine ⟨seg_append.2 ⟨some f, h1, rfl, rfl⟩, h2.2, by simpa using h3, ?_⟩
  intro h hh
  simpa using h4 h hh

/-- One iteration of the loop over the play list, on a buffer of `size` samples
on which the guarded block does not write past the end for this frame: the
state, the buffer and `lastFrame` with which the loop goes on. -/
theorem mixFrames_step [Add α] (cfg : Config) (step size : Nat) (hcap : 0 < cfg.frameSize)
    (hdev : cfg.samples % cfg.frameSize = 0) (fuel : Nat) (s : SoundSystem α)
    (mix : Nat → α) (K R : List Nat) (f : Nat) (hinv : MixInv s K (some f) (f :: R))
    (hact : -(step : Int) < (s.mSampleFrame f).mDelay →
      mixActive cfg step size (s.mSampleFrame f) mix =
        .ok (delayAfter cfg.frameSize step (s.mSampleFrame f).mDelay,
          mixAfter cfg.frameSize step (s.mSampleFrame f) mix)) :
    ∃ s1 K1,
      SoundSystem.mixFrames cfg step size (fuel + 1) s mix (some f) K.getLast? =
        SoundSystem.mixFrames cfg step size fuel s1
          (mixAfter cfg.frameSize step (s.mSampleFrame f) mix) (s.next f) K1.getLast? ∧
      K1 = (if delayAfter cfg.frameSize step (s.delay f) < cfg.frameSize then K ++ [f] else K) ∧
      MixInv s1 K1 (s.next f) R ∧ s1.sample = s.sample ∧ s1.counter = s.counter ∧
      s1.delay = Function.update s.delay f (delayAfter cfg.frameSize step (s.delay f)) ∧
      s1.mComponents = s.mComponents ∧
      (delayAfter cfg.frameSize step (s.delay f) < cfg.frameSize →
        s1 = s.setDelay f (delayAfter cfg.frameSize step (s.delay f))) ∧
      (¬ delayAfter cfg.frameSize step (s.delay f) < cfg.frameSize →
        ∃ s2, (s.setDelay f (delayAfter cfg.frameSize step (s.delay f))).unlinkFrame f
            K.getLast? = .ok s2 ∧ s1 = s2.ReleaseFrame f) := by
  have hdev1 : ¬ cfg.samples % cfg.frameSize ≠ 0 := not_not.2 hdev
  by_cases hpend : (s.mSampleFrame f).mDelay ≤ -(step : Int)
  · -- the frame is not due yet
    have hda : delayAfter cfg.frameSize step (s.delay f) = (s.mSampleFrame f).mDelay + step := by
      unfold delayAfter SoundSystem.delay; rw [if_pos hpend]
    have hkeep : delayAfter cfg.frameSize step (s.delay f) < cfg.frameSize := by
      rw [hda]; omega
    refine ⟨s.setDelay f ((s.mSampleFrame f).mDelay + step), K ++ [f], ?_, by rw [if_pos hkeep],
      mixInv_setDelay _ _ (mixInv_keep hinv), by simp, by simp, by simp [hda], by simp,
      fun _ => by rw [hda], fun h => absurd hkeep h⟩
    rw [SoundSystem.mixFrames]
    simp only [hdev1, if_false, hpend, if_true, getLast?_concat_some]
    unfold mixAfter
    rw [if_pos hpend]
    rfl
  · have hd : -(step : Int) < (s.mSampleFrame f).mDelay := not_le.1 hpend
    have hact := hact hd
    by_cases hkeep : delayAfter cfg.frameSize step (s.delay f) < cfg.frameSize
    · have hnot : ¬ (cfg.frameSize : Int) ≤
          delayAfter cfg.frameSize step (s.mSampleFrame f).mDelay := not_le.2 hkeep
      refine ⟨s.setDelay f (delayAfter cfg.frameSize step (s.delay f)), K ++ [f], ?_,
        by rw [if_pos hkeep], mixInv_setDelay _ _ (mixInv_keep hinv), by simp, by simp,
        by simp, by simp, fun _ => rfl, fun h => absurd hkeep h⟩
      rw [SoundSystem.mixFrames]
      simp only [hdev1, if_false, hpend, hact, hnot, getLast?_concat_some]
      rfl
    · have hdrain : (cfg.frameSize : Int) ≤
          delayAfter cfg.frameSize step (s.mSampleFrame f).mDelay := not_lt.1 hkeep
      obtain ⟨s2, hunlink, hinv2, hdel, hsmp, hcnt, hcomp, _, _⟩ :=
        mixInv_release (mixInv_setDelay f (delayAfter cfg.frameSize step (s.delay f)) hinv)
      refine ⟨s2.ReleaseFrame f, K, ?_, by rw [if_neg hkeep], by simpa using hinv2,
        by simp [hsmp], by simp [hcnt], by simp [hdel], by simp [hcomp],
        fun h => absurd h hkeep, fun _ => ⟨s2, hunlink, rfl⟩⟩
      rw [SoundSystem.mixFrames]
      simp only [hdev1, if_false, hpend, hact, hdrain, if_true]
      have hunlink1 : (s.setDelay f (delayAfter cfg.frameSize step
          (s.mSampleFrame f).mDelay)).unlinkFrame f K.getLast? = .ok s2 := hunlink
      rw [hunlink1]
      rfl

theorem mixAfter_congr [Add α] (cap step : Nat) {fr1 fr2 : SoundFrame α}
    (hd : fr1.mDelay = fr2.mDelay) (hs : fr1.mSample = fr2.mSample) :
    mixAfter cap step fr1 = mixAfter cap step fr2 := by
  funext mix
  unfold mixAfter
  rw [hd, hs]

/-- The loop over the play list on an even buffer: it ends without fault, every
frame of the list has been mixed in turn, the frames whose new delay is below
the frame capacity stay in the play list, in order. -/
theorem mixFrames_spec [Add α] (cfg : Config) (step : Nat) (hcap : 0 < cfg.frameSize)
    (hdev : cfg.samples % cfg.frameSize = 0) :
    ∀ (R K : List Nat) (s : SoundSystem α) (mix : Nat → α) (fuel : Nat) (p : Option Nat),
      MixInv s K p R → R.length < fuel →
      ∃ s1, SoundSystem.mixFrames cfg step (2 * step) fuel s mix p K.getLast? =
          .ok (s1, R.foldl (fun m g => mixAfter cfg.frameSize step (s.mSampleFrame g) m) mix) ∧
        Seg s1.next s1.mPlayFrame
          (K ++ R.filter (fun g => decide (delayAfter cfg.frameSize step (s.delay g) <
            cfg.frameSize))) none ∧
        s1.sample = s.sample ∧ s1.counter = s.counter ∧
        (∀ g ∈ R, s1.delay g = delayAfter cfg.frameSize step (s.delay g)) ∧
        (∀ g, g ∉ R → s1.delay g = s.delay g) ∧
        s1.mComponents = s.mComponents ∧
        (∀ h, s1.mFreeFrame = some h →
          h ∉ K ++ R.filter (fun g => decide (delayAfter cfg.frameSize step (s.delay g) <
            cfg.frameSize))) := by
  intro R
  induction R with
  | nil =>
    intro K s mix fuel p hinv _
    have hp : p = none := hinv.2.1
    subst hp
    refine ⟨s, ?_, by simpa using hinv.1, rfl, rfl, fun g hg => absurd hg (List.not_mem_nil g),
      fun _ _ => rfl, rfl, by simpa using hinv.2.2.2⟩
    cases fuel <;> simp [SoundSystem.mixFrames]
  | cons f R ih =>
    intro K s mix fuel p hinv hfuel
    have hp : p = some f := hinv.2.1.1
    subst hp
    obtain ⟨fuel1, rfl⟩ : ∃ n, fuel = n + 1 := ⟨fuel - 1, by simp at hfuel; omega⟩
    obtain ⟨s1, K1, heq, hK1, hinv1, hsmp1, hcnt1, hdel1, hcomp1, _, _⟩ :=
      mixFrames_step cfg step (2 * step) hcap hdev fuel1 s mix K R f hinv
        (fun hd => mixActive_even cfg step (s.mSampleFrame f) mix hcap hd)
    obtain ⟨s2, hrun, hseg, hsmp2, hcnt2, hdelR, hdelN, hcomp2, hfree2⟩ :=
      ih K1 s1 (mixAfter cfg.frameSize step (s.mSampleFrame f) mix) fuel1 (s.next f) hinv1
        (by simp at hfuel; omega)
    have hfR : f ∉ R := by
      have := (List.nodup_append.1 hinv.2.2.1).2.1
      exact (List.nodup_cons.1 this).1
    have hsame : ∀ g ∈ R, s1.delay g = s.delay g := by
      intro g hg
      rw [hdel1, Function.update_noteq]
      rintro rfl; exact hfR hg
    have hkept : K1 ++ R.filter (fun g => decide (delayAfter cfg.frameSize step (s1.delay g) <
        cfg.frameSize)) = K ++ (f :: R).filter (fun g => decide (delayAfter cfg.frameSize step
          (s.delay g) < cfg.frameSize)) := by
      have hfilt : R.filter (fun g => decide (delayAfter cfg.frameSize step (s1.delay g) <
          cfg.frameSize)) = R.filter (fun g => decide (delayAfter cfg.frameSize step
            (s.delay g) < cfg.frameSize)) := by
        refine List.filter_congr (fun g hg => ?_)
        rw [hsame g hg]
      rw [hfilt, hK1]
      by_cases hk : delayAfter cfg.frameSize step (s.delay f) < cfg.frameSize
      · rw [if_pos hk, List.filter_cons_of_pos (by simpa using hk)]
        simp
      · rw [if_neg hk, List.filter_cons_of_neg (by simpa using hk)]
    rw [hkept] at hseg hfree2
    refine ⟨s2, ?_, hseg, hsmp2.trans hsmp1, hcnt2.trans hcnt1, ?_, ?_, hcomp2.trans hcomp1,
      hfree2⟩
    · rw [heq, hrun, List.foldl_cons]
      congr 2
      refine List.foldl_ext _ _ _ (fun m g hg => ?_)
      have h1 : (s1.mSampleFrame g).mDelay = (s.mSampleFrame g).mDelay := hsame g hg
      have h2 : (s1.mSampleFrame g).mSample = (s.mSampleFrame g).mSample :=
        congrFun hsmp1 g
      rw [mixAfter_congr _ _ h1 h2]
    · intro g hg
      rcases List.mem_cons.1 hg with rfl | hg
      · rw [hdelN g hfR, hdel1, Function.update_same]
      · rw [hdelR g hg, hsame g hg]
    · intro g hg
      have hgf : g ≠ f := fun e => hg (by simp [e])
      have hgR : g ∉ R := fun hm => hg (List.mem_cons_of_mem _ hm)
      rw [hdelN g hgR, hdel1, Function.update_noteq hgf]

theorem seg_det {next : Nat → Option Nat} {l : List Nat} :
    ∀ {l1 : List Nat} {p : Option Nat}, Seg next p l none → Seg next p l1 none → l = l1 := by
  induction l with
  | nil =>
    intro l1 p h h1
    cases l1 with
    | nil => rfl
    | cons y l1 =>
      have e1 : p = none := h
      have e2 : p = some y := h1.1
      rw [e1] at e2; cases e2
  | cons x l ih =>
    intro l1 p h h1
    cases l1 with
    | nil =>
      have e1 : p = none := h1
      have e2 : p = some x := h.1
      rw [e1] at e2; cases e2
    | cons y l1 =>
      have e : some x = some y := h.1.symm.trans h1.1
      cases e
      rw [ih h.2 h1.2]

/-- A list that ends with a null link holds no frame twice. -/
theorem seg_nodup {next : Nat → Option Nat} {l : List Nat} :
    ∀ {p : Option Nat}, Seg next p l none → l.Nodup := by
  induction l with
  | nil => intro _ _; exact List.nodup_nil
  | cons x l ih =>
    intro p h
    refine List.nodup_cons.2 ⟨fun hx => ?_, ih h.2⟩
    obtain ⟨l1, l2, rfl⟩ := List.append_of_mem hx
    obtain ⟨q, _, hq⟩ := seg_append.1 h.2
    have hl2 : Seg next (next x) l2 none := hq.2
    have := seg_det h.2 hl2
    have hlen := congrArg List.length this
    simp at hlen
    omega

theorem seg_reach {next : Nat → Option Nat} {l : List Nat} :
    ∀ {p e : Option Nat}, Seg next p l e → ∀ x ∈ l,
      ∃ h, p = some h ∧ Relation.ReflTransGen (fun a b => next a = some b) h x := by
  induction l with
  | nil => intro p e _ x hx; cases hx
  | cons a l ih =>
    intro p e h x hx
    refine ⟨a, h.1, ?_⟩
    rcases List.mem_cons.1 hx with rfl | hx
    · exact Relation.ReflTransGen.refl
    · obtain ⟨b, hb, hreach⟩ := ih h.2 x hx
      exact Relation.ReflTransGen.head hb hreach

theorem playList_inPlayList {s : SoundSystem α} {L : List Nat} (h : s.PlayList L) {f : Nat}
    (hf : f ∈ L) : s.InPlayList f := seg_reach h f hf

theorem component_update_idle [LinearOrderedField α] (cfg : Config) (deltaTime : α)
    (listenerDistance : α × α × α → α) (c : SoundComponent α) (s : SoundSystem α)
    (h : c.mSoundPlay = []) : c.Update cfg deltaTime listenerDistance s = .ok (c, s) := by
  cases c with
  | mk v streams play =>
    simp only at h
    subst h
    simp [SoundComponent.Update, SoundComponent.playEffects]

theorem updateComponents_idle [LinearOrderedField α] (cfg : Config) (deltaTime : α)
    (listenerDistance : α × α × α → α) (s : SoundSystem α) :
    ∀ cs : List (SoundComponent α), (∀ c ∈ cs, c.mSoundPlay = []) →
      SoundSystem.updateComponents cfg deltaTime listenerDistance cs s = .ok (cs, s) := by
  intro cs
  induction cs with
  | nil => intro _; rfl
  | cons c cs ih =>
    intro h
    rw [SoundSystem.updateComponents, component_update_idle _ _ _ _ _ (h c (by simp))]
    simp only
    rw [ih (fun c1 hc1 => h c1 (by simp [hc1]))]

theorem frameMix_even [Add α] (cfg : Config) (step : Nat) (fr : SoundFrame α)
    (mix : Nat → α) (hcap : 0 < cfg.frameSize) :
    frameMix cfg step (2 * step) fr mix = mixAfter cfg.frameSize step fr mix := by
  unfold frameMix
  by_cases hp : fr.mDelay ≤ -(step : Int)
  · rw [if_pos hp]; unfold mixAfter; rw [if_pos hp]
  · rw [if_neg hp, mixActive_even cfg step fr mix hcap (not_le.1 hp)]

/-- A tick of an idle system is the loop over the play list on a zeroed buffer. -/
theorem update_idle [LinearOrderedField α] (cfg : Config) (deltaTime : α)
    (listenerDistance : α × α × α → α) (step fuel : Nat) (s : SoundSystem α)
    (hdt : 0 ≤ deltaTime) (hidle : s.Idle) :
    s.Update cfg deltaTime listenerDistance (2 * (step : Int)) fuel =
      match SoundSystem.mixFrames cfg step (2 * step) fuel s (fun _ => 0) s.mPlayFrame none with
      | .error e => .error e
      | .ok (s2, mix) => .ok (s2, (List.range (2 * step)).map mix) := by
  have h2 : ¬ ¬ (0 : Int) ≤ 2 * (step : Int) := by omega
  have hdiv : Int.tdiv (2 * (step : Int)) 2 = step := by
    rw [Int.tdiv_eq_ediv (by omega) (by omega)]; omega
  have hnat : (2 * (step : Int)).toNat = 2 * step := by omega
  unfold SoundSystem.Update
  rw [if_neg (not_not.2 hdt), updateComponents_idle _ _ _ _ _ hidle]
  simp only [h2, if_false, hdiv, hnat]

/-- One tick of an idle system whose play list is `L`, producing `step` mono
samples: the tick ends without fault and hands `tickOutput` to the device; the
frames whose new delay is below the frame capacity form the new play list. -/
theorem update_spec [LinearOrderedField α] (cfg : Config) (deltaTime : α)
    (listenerDistance : α × α × α → α) (step fuel : Nat) (s : SoundSystem α) (L : List Nat)
    (hcap : 0 < cfg.frameSize) (hdev : cfg.samples % cfg.frameSize = 0)
    (hdt : 0 ≤ deltaTime) (hidle : s.Idle) (hL : s.PlayList L)
    (hfree : ∀ h, s.mFreeFrame = some h → h ∉ L) (hfuel : L.length < fuel) :
    ∃ s1, s.Update cfg deltaTime listenerDistance (2 * (step : Int)) fuel =
        .ok (s1, tickOutput cfg step (2 * step) s L) ∧
      s1.PlayList (L.filter (fun g => decide (delayAfter cfg.frameSize step (s.delay g) <
        cfg.frameSize))) ∧
      s1.sample = s.sample ∧ s1.counter = s.counter ∧
      (∀ g ∈ L, s1.delay g = delayAfter cfg.frameSize step (s.delay g)) ∧
      (∀ g, g ∉ L → s1.delay g = s.delay g) ∧
      s1.mComponents = s.mComponents ∧
      (∀ h, s1.mFreeFrame = some h →
        h ∉ L.filter (fun g => decide (delayAfter cfg.frameSize step (s.delay g) <
          cfg.frameSize))) := by
  have hinv : MixInv s [] s.mPlayFrame L :=
    ⟨rfl, hL, by simpa using seg_nodup hL, by simpa using hfree⟩
  obtain ⟨s1, hrun, hseg, hsmp, hcnt, hdel, hdelN, hcomp, hfree1⟩ :=
    mixFrames_spec cfg step hcap hdev L [] s (fun _ => 0) fuel s.mPlayFrame hinv hfuel
  refine ⟨s1, ?_, by simpa using hseg, hsmp, hcnt, hdel, hdelN, hcomp, by simpa using hfree1⟩
  rw [update_idle cfg deltaTime listenerDistance step fuel s hdt hidle]
  have hrun1 : SoundSystem.mixFrames cfg step (2 * step) fuel s (fun _ => 0) s.mPlayFrame none =
      .ok (s1, L.foldl (fun m g => mixAfter cfg.frameSize step (s.mSampleFrame g) m)
        (fun _ => 0)) := hrun
  rw [hrun1]
  simp only [tickOutput]
  congr 3
  refine List.foldl_ext _ _ _ (fun m g _ => ?_)
  rw [frameMix_even _ _ _ _ hcap]

theorem addSamples_hit [Add α] (sample : Nat → α) (frameInit off cnt : Nat) (mix : Nat → α)
    (k : Nat) (hk : k < cnt) :
    addSamples sample frameInit off cnt mix ((off + k) * 2) =
        mix ((off + k) * 2) + sample (frameInit + k) ∧
      addSamples sample frameInit off cnt mix ((off + k) * 2 + 1) =
        mix ((off + k) * 2 + 1) + sample (frameInit + k) := by
  unfold addSamples
  have e1 : (off + k) * 2 / 2 - off = k := by omega
  have e2 : ((off + k) * 2 + 1) / 2 - off = k := by omega
  rw [if_pos (by omega), if_pos (by omega), e1, e2]
  exact ⟨rfl, rfl⟩

theorem addSamples_miss [Add α] (sample : Nat → α) (frameInit off cnt : Nat) (mix : Nat → α)
    (i : Nat) (hi : ∀ k, k < cnt → i ≠ (off + k) * 2 ∧ i ≠ (off + k) * 2 + 1) :
    addSamples sample frameInit off cnt mix i = mix i := by
  unfold addSamples
  rw [if_neg]
  rintro ⟨h1, h2⟩
  have := hi (i / 2 - off) (by omega)
  omega

/-- C7: for a frame of the play list with `-stepSize < delay < 0` and the even
device sample count `2 * stepSize`, the body of the loop adds sample `k` of the
frame, read from index 0, to the output indices `(|delay| + k) * 2` and
`(|delay| + k) * 2 + 1` for every `k < min(capacity, stepSize - |delay|)`, and
changes no other index of the buffer (the tick hands `tickOutput` to the
device, the result of running that body on every frame of the play list); the
frame keeps its samples and ends the tick with the number of copied samples as
its delay. -/
theorem starting_frame_mixed_at_offset [LinearOrderedField α] (cfg : Config) (deltaTime : α)
    (listenerDistance : α × α × α → α) (stepSize fuel : Nat) (s : SoundSystem α)
    (L : List Nat) (f : Nat)
    (hcap : 0 < cfg.frameSize) (hdev : cfg.samples % cfg.frameSize = 0)
    (hdt : 0 ≤ deltaTime) (hidle : s.Idle) (hL : s.PlayList L)
    (hfree : ∀ h, s.mFreeFrame = some h → h ∉ L) (hfuel : L.length < fuel)
    (hf : f ∈ L) (hlo : -(stepSize : Int) < (s.mSampleFrame f).mDelay)
    (hhi : (s.mSampleFrame f).mDelay < 0) :
    ∃ s1, s.Update cfg deltaTime listenerDistance (2 * (stepSize : Int)) fuel =
        .ok (s1, tickOutput cfg stepSize (2 * stepSize) s L) ∧
      (s1.mSampleFrame f).mSample = (s.mSampleFrame f).mSample ∧
      (s1.mSampleFrame f).mDelay =
        (min cfg.frameSize (stepSize - (s.mSampleFrame f).mDelay.natAbs) : Nat) ∧
      ∀ array_mix : Nat → α,
        (∀ k, k < min cfg.frameSize (stepSize - (s.mSampleFrame f).mDelay.natAbs) →
          frameMix cfg stepSize (2 * stepSize) (s.mSampleFrame f) array_mix
              (((s.mSampleFrame f).mDelay.natAbs + k) * 2) =
            array_mix (((s.mSampleFrame f).mDelay.natAbs + k) * 2) +
              (s.mSampleFrame f).mSample k ∧
          frameMix cfg stepSize (2 * stepSize) (s.mSampleFrame f) array_mix
              (((s.mSampleFrame f).mDelay.natAbs + k) * 2 + 1) =
            array_mix (((s.mSampleFrame f).mDelay.natAbs + k) * 2 + 1) +
              (s.mSampleFrame f).mSample k) ∧
        (∀ i, (∀ k, k < min cfg.frameSize (stepSize - (s.mSampleFrame f).mDelay.natAbs) →
            i ≠ ((s.mSampleFrame f).mDelay.natAbs + k) * 2 ∧
            i ≠ ((s.mSampleFrame f).mDelay.natAbs + k) * 2 + 1) →
          frameMix cfg stepSize (2 * stepSize) (s.mSampleFrame f) array_mix i =
            array_mix i) := by
  obtain ⟨s1, hrun, _, hsmp, _, hdel, _, _⟩ :=
    update_spec cfg deltaTime listenerDistance stepSize fuel s L hcap hdev hdt hidle hL hfree
      hfuel
  have h0 : (s.mSampleFrame f).mDelay.toNat = 0 := Int.toNat_eq_zero.2 (le_of_lt hhi)
  have hda : delayAfter cfg.frameSize stepSize (s.delay f) =
      (min cfg.frameSize (stepSize - (s.mSampleFrame f).mDelay.natAbs) : Nat) := by
    unfold delayAfter mixCount mixOffset SoundSystem.delay
    rw [if_neg (not_le.2 hlo), if_pos (by omega), if_pos hhi, if_pos hhi, h0, Nat.sub_zero,
      Nat.zero_add, zero_add]
  refine ⟨s1, hrun, congrFun hsmp f, (hdel f hf).trans hda, fun array_mix => ?_⟩
  have hmix : frameMix cfg stepSize (2 * stepSize) (s.mSampleFrame f) array_mix =
      addSamples (s.mSampleFrame f).mSample 0 (s.mSampleFrame f).mDelay.natAbs
        (min cfg.frameSize (stepSize - (s.mSampleFrame f).mDelay.natAbs)) array_mix := by
    rw [frameMix_even _ _ _ _ hcap]
    unfold mixAfter mixCount mixOffset
    rw [if_neg (not_le.2 hlo), if_pos (by omega), if_pos hhi, h0, Nat.sub_zero]
  rw [hmix]
  refine ⟨fun k hk => ?_, fun i hi => addSamples_miss _ _ _ _ _ i hi⟩
  have := addSamples_hit (s.mSampleFrame f).mSample 0 (s.mSampleFrame f).mDelay.natAbs _
    array_mix k hk
  simpa using this

/-- Witness of C7: the frame of delay -2 ticked with `stepSize = 3` is written
from output offset `2 * 2 = 4` on. -/
theorem starting_frame_mixed_at_offset_witness :
    (0 < cfgMix.frameSize ∧ cfgMix.samples % cfgMix.frameSize = 0 ∧ (0 : ℚ) ≤ 1 ∧
      (oneFrame (-2)).Idle ∧ (oneFrame (-2)).PlayList [1] ∧
      (∀ h, (oneFrame (-2)).mFreeFrame = some h → h ∉ [1]) ∧ [1].length < 2 ∧ 1 ∈ [1] ∧
      -((3 : Nat) : Int) < ((oneFrame (-2)).mSampleFrame 1).mDelay ∧
      ((oneFrame (-2)).mSampleFrame 1).mDelay < 0) ∧
    ∃ s1, (oneFrame (-2)).Update cfgMix 1 nearListener (2 * ((3 : Nat) : Int)) 2 =
        .ok (s1, tickOutput cfgMix (3 : Nat) (2 * 3) (oneFrame (-2)) [1]) ∧
      (s1.mSampleFrame 1).mSample = ((oneFrame (-2)).mSampleFrame 1).mSample ∧
      (s1.mSampleFrame 1).mDelay =
        (min cfgMix.frameSize (3 - ((oneFrame (-2)).mSampleFrame 1).mDelay.natAbs) : Nat) ∧
      ∀ array_mix : Nat → ℚ,
        (∀ k, k < min cfgMix.frameSize (3 - ((oneFrame (-2)).mSampleFrame 1).mDelay.natAbs) →
          frameMix cfgMix (3 : Nat) (2 * 3) ((oneFrame (-2)).mSampleFrame 1) array_mix
              ((((oneFrame (-2)).mSampleFrame 1).mDelay.natAbs + k) * 2) =
            array_mix ((((oneFrame (-2)).mSampleFrame 1).mDelay.natAbs + k) * 2) +
              ((oneFrame (-2)).mSampleFrame 1).mSample k ∧
          frameMix cfgMix (3 : Nat) (2 * 3) ((oneFrame (-2)).mSampleFrame 1) array_mix
              ((((oneFrame (-2)).mSampleFrame 1).mDelay.natAbs + k) * 2 + 1) =
            array_mix ((((oneFrame (-2)).mSampleFrame 1).mDelay.natAbs + k) * 2 + 1) +
              ((oneFrame (-2)).mSampleFrame 1).mSample k) ∧
        (∀ i, (∀ k, k < min cfgMix.frameSize
              (3 - ((oneFrame (-2)).mSampleFrame 1).mDelay.natAbs) →
            i ≠ (((oneFrame (-2)).mSampleFrame 1).mDelay.natAbs + k) * 2 ∧
            i ≠ (((oneFrame (-2)).mSampleFrame 1).mDelay.natAbs + k) * 2 + 1) →
          frameMix cfgMix (3 : Nat) (2 * 3) ((oneFrame (-2)).mSampleFrame 1) array_mix i =
            array_mix i) :=
  have hfree : ∀ h, (oneFrame (-2)).mFreeFrame = some h → h ∉ [1] := by
    intro h hh
    have e : 0 = h := Option.some.inj hh
    subst e
    decide
  ⟨⟨by decide, by decide, by norm_num, fun c hc => absurd hc (List.not_mem_nil c),
      ⟨rfl, rfl⟩, hfree, by decide, by decide, by decide, by decide⟩,
    starting_frame_mixed_at_offset cfgMix 1 nearListener 3 2 (oneFrame (-2)) [1] 1 (by decide)
      (by decide) (by norm_num) (fun c hc => absurd hc (List.not_mem_nil c)) ⟨rfl, rfl⟩ hfree
      (by decide) (by decide) (by decide) (by decide)⟩

theorem releaseFrame_inFreeList (s : SoundSystem α) (f : Nat) :
    (s.ReleaseFrame f).InFreeList f := by
  refine ⟨s.mFreeFrame.getD f, releaseFrame_mFreeFrame s f, ?_⟩
  cases hh : s.mFreeFrame with
  | none => exact Relation.ReflTransGen.refl
  | some hd =>
    refine Relation.ReflTransGen.single ?_
    show (s.ReleaseFrame f).next hd = some f
    rw [releaseFrame_next, hh]
    simp

theorem releaseFrame_counters (s : SoundSystem α) (f cid : Nat)
    (h : (s.mSampleFrame f).mCounter = some cid) :
    (s.ReleaseFrame f).counters = Function.update s.counters cid (s.counters cid - 1) := by
  unfold SoundSystem.ReleaseFrame
  rw [h]
  cases hfree : s.mFreeFrame <;> simp [hfree]

theorem delayAfter_zero (cap step : Nat) (hcap : 0 < cap) (hstep : cap ≤ step) :
    delayAfter cap step 0 = cap := by
  unfold delayAfter mixCount mixOffset
  have h1 : ¬ (0 : Int) ≤ -(step : Int) := by omega
  have h2 : (0 : Int) < (step : Int) := by omega
  simp only [h1, h2, if_true, if_false, lt_irrefl, Int.toNat_zero, Nat.sub_zero, zero_add]
  rw [min_eq_left hstep]

/-- C5: when the play list holds a single frame with delay 0 and a counter of
value `c`, one tick whose mono step size is at least the frame capacity (device
sample count `2 * stepSize`) copies all the samples of the frame to both
channels of the output from offset 0 on, leaves the play list empty, puts the
frame in the free list and leaves the counter at `c - 1`. -/
theorem single_frame_drained_in_one_tick [LinearOrderedField α] (cfg : Config)
    (deltaTime : α) (listenerDistance : α × α × α → α) (stepSize fuel : Nat)
    (s : SoundSystem α) (f cid : Nat) (c : Int)
    (hcap : 0 < cfg.frameSize) (hdev : cfg.samples % cfg.frameSize = 0)
    (hdt : 0 ≤ deltaTime) (hidle : s.Idle)
    (hplay : s.mPlayFrame = some f) (hnext : (s.mSampleFrame f).mNext = none)
    (hdelay : (s.mSampleFrame f).mDelay = 0)
    (hcounter : (s.mSampleFrame f).mCounter = some cid) (hc : s.counters cid = c)
    (hstep : cfg.frameSize ≤ stepSize) (hfuel : 1 < fuel) :
    ∃ s1, s.Update cfg deltaTime listenerDistance (2 * (stepSize : Int)) fuel =
        .ok (s1, (List.range (2 * stepSize)).map (fun i =>
          if i < 2 * cfg.frameSize then (s.mSampleFrame f).mSample (i / 2) else 0)) ∧
      s1.mPlayFrame = none ∧ s1.InFreeList f ∧ s1.counters cid = c - 1 := by
  obtain ⟨n, rfl⟩ : ∃ n, fuel = n + 1 := ⟨fuel - 1, by omega⟩
  have hdev1 : ¬ cfg.samples % cfg.frameSize ≠ 0 := not_not.2 hdev
  have hpend : ¬ (s.mSampleFrame f).mDelay ≤ -(stepSize : Int) := by rw [hdelay]; omega
  have hact := mixActive_even cfg stepSize (s.mSampleFrame f) (fun _ => (0 : α)) hcap
    (not_le.1 hpend)
  rw [hdelay, delayAfter_zero _ _ hcap hstep] at hact
  have hunlink : (s.setDelay f (cfg.frameSize : Int)).unlinkFrame f none =
      .ok { s.setDelay f (cfg.frameSize : Int) with mPlayFrame := none } := by
    simp [SoundSystem.unlinkFrame, hplay, SoundSystem.setDelay, hnext]
  refine ⟨({ s.setDelay f (cfg.frameSize : Int) with mPlayFrame := none } :
    SoundSystem α).ReleaseFrame f, ?_, by simp, releaseFrame_inFreeList _ _, ?_⟩
  · rw [update_idle cfg deltaTime listenerDistance stepSize (n + 1) s hdt hidle, hplay,
      SoundSystem.mixFrames]
    simp only [hdev1, if_false, hpend, hact, le_refl, if_true, hunlink, hnext]
    have hend : ∀ (m : Nat) (s2 : SoundSystem α) (mix : Nat → α) (l : Option Nat),
        SoundSystem.mixFrames cfg stepSize (2 * stepSize) m s2 mix none l = .ok (s2, mix) := by
      intro m s2 mix l
      cases m <;> simp [SoundSystem.mixFrames]
    rw [hend]
    simp only
    congr 2
    refine List.map_congr_left (fun i _ => ?_)
    unfold mixAfter addSamples mixCount mixOffset
    simp only [hdelay]
    have h1 : ¬ (0 : Int) ≤ -(stepSize : Int) := by omega
    have h2 : (0 : Int) < (stepSize : Int) := by omega
    simp only [h1, h2, if_true, if_false, lt_irrefl, Int.toNat_zero, Nat.sub_zero, zero_add,
      Nat.zero_le, true_and, Nat.mul_zero, min_eq_left hstep]
  · have hcnt : (({ s.setDelay f (cfg.frameSize : Int) with mPlayFrame := none } :
        SoundSystem α).mSampleFrame f).mCounter = some cid := by
      simp [SoundSystem.setDelay, hcounter]
    rw [releaseFrame_counters _ _ _ hcnt]
    simp [hc]

/-- Witness of C5: the frame of capacity 4 with delay 0, ticked with
`stepSize = 4`. -/
theorem single_frame_drained_in_one_tick_witness :
    (0 < cfgMix.frameSize ∧ cfgMix.samples % cfgMix.frameSize = 0 ∧ (0 : ℚ) ≤ 1 ∧
      (oneFrame 0).Idle ∧ (oneFrame 0).mPlayFrame = some 1 ∧
      ((oneFrame 0).mSampleFrame 1).mNext = none ∧ ((oneFrame 0).mSampleFrame 1).mDelay = 0 ∧
      ((oneFrame 0).mSampleFrame 1).mCounter = some 0 ∧ (oneFrame 0).counters 0 = 1 ∧
      cfgMix.frameSize ≤ 4 ∧ 1 < 2) ∧
    ∃ s1, (oneFrame 0).Update cfgMix 1 nearListener (2 * ((4 : Nat) : Int)) 2 =
        .ok (s1, (List.range (2 * 4)).map (fun i =>
          if i < 2 * cfgMix.frameSize then ((oneFrame 0).mSampleFrame 1).mSample (i / 2)
          else 0)) ∧
      s1.mPlayFrame = none ∧ s1.InFreeList 1 ∧ s1.counters 0 = 1 - 1 :=
  ⟨⟨by decide, by decide, by norm_num, fun c hc => absurd hc (List.not_mem_nil c), rfl, rfl,
      rfl, rfl, rfl, by decide, by decide⟩,
    single_frame_drained_in_one_tick cfgMix 1 nearListener 4 2 (oneFrame 0) 1 0 1 (by decide)
      (by decide) (by norm_num) (fun c hc => absurd hc (List.not_mem_nil c)) rfl rfl rfl rfl
      rfl (by decide) (by decide)⟩

theorem oneFrame_hyps (d : Int) :
    (0 : ℚ) ≤ 1 ∧ (oneFrame d).Idle ∧ (oneFrame d).PlayList [1] ∧
      (∀ h, (oneFrame d).mFreeFrame = some h → h ∉ [1]) := by
  refine ⟨by norm_num, fun c hc => absurd hc (List.not_mem_nil c), ⟨rfl, rfl⟩, ?_⟩
  intro h hh
  have e : 0 = h := Option.some.inj hh
  subst e
  decide

theorem attenuation_near : distanceAttenuation (nearListener (0, 0, 0)) = 1 := by
  norm_num [distanceAttenuation, glmClamp, nearListener]

/-- C10 (evaluation at the failing input): a stream of one sample, frame
capacity 2, a fresh pool of two frames.  `SoundComponent::Update` acquires frame
1 and writes the sample into it, but never submits it: when it returns the
queue is empty, the play list is empty and frame 1 is reachable neither from
the free list nor from the play list. -/
theorem last_frame_of_stream_never_submitted :
    shortSound.Update cfgComp 1 nearListener freshSystem =
        .ok ({ shortSound with mSoundPlay := [] },
          afterComponentUpdate cfgComp 1 nearListener shortSound freshSystem) ∧
      ((afterComponentUpdate cfgComp 1 nearListener shortSound freshSystem).mSampleFrame
        1).mSample 0 = 1 ∧
      (afterComponentUpdate cfgComp 1 nearListener shortSound freshSystem).mPlayFrame = none ∧
      ¬ (afterComponentUpdate cfgComp 1 nearListener shortSound freshSystem).InPlayList 1 ∧
      ¬ (afterComponentUpdate cfgComp 1 nearListener shortSound freshSystem).InFreeList 1 := by
  refine ⟨rfl, ?_, rfl, ?_, ?_⟩
  · show distanceAttenuation (nearListener effect0.mPosition) * (1 : ℚ) = 1
    rw [show effect0.mPosition = (0, 0, 0) from rfl, attenuation_near]
    norm_num
  · rintro ⟨h, hh, _⟩
    cases hh
  · rintro ⟨h, hh, hreach⟩
    have e : 0 = h := Option.some.inj hh
    subst e
    have hclosed : ∀ x ∈ [0], ∀ y,
        (afterComponentUpdate cfgComp 1 nearListener shortSound freshSystem).next x = some y →
          y ∈ [0] := by
      intro x hx y hxy
      rw [List.mem_singleton.1 hx] at hxy
      have e : 0 = y := Option.some.inj hxy
      subst e
      simp
    have := reach_mem hclosed (List.mem_singleton_self 0) hreach
    simp at this

/-- C1 (evaluation at the failing input): the stream `[1]` is queued on a
component by `AddResource` and `Play`, at distance 0 so that the attenuation is
1; the first tick, with mono step size 1, then hands silence to the device
instead of the sample `1 * 1`, and leaves an idle system with an empty play
list, so that the next tick is silent as well. -/
theorem one_sample_effect_is_never_played :
    SoundComponent.Play
        (SoundComponent.AddResource { mValid := true, mSoundStreams := [], mSoundPlay := [] }
          [1]).2 effect0 = .ok shortSound ∧
      distanceAttenuation (nearListener effect0.mPosition) * (1 : ℚ) = 1 ∧
      queuedSystem.Update cfgComp 1 nearListener 2 1 = .ok (tickedSystem, [0, 0]) ∧
      tickedSystem.mPlayFrame = none ∧ tickedSystem.Idle ∧
      tickedSystem.Update cfgComp 1 nearListener 2 1 = .ok (tickedSystem, [0, 0]) := by
  have hatt : distanceAttenuation (nearListener effect0.mPosition) * (1 : ℚ) = 1 := by
    rw [show effect0.mPosition = (0, 0, 0) from rfl, attenuation_near]
    norm_num
  have hdt : ¬ ¬ (0 : ℚ) ≤ 1 := by norm_num
  have hcomp : SoundSystem.updateComponents cfgComp (1 : ℚ) nearListener
      queuedSystem.mComponents queuedSystem =
        .ok ([{ shortSound with mSoundPlay := [] }],
          afterComponentUpdate cfgComp 1 nearListener shortSound queuedSystem) := rfl
  have hidle : tickedSystem.Idle := by
    intro c hc
    rw [List.mem_singleton.1 hc]
  refine ⟨rfl, hatt, ?_, rfl, hidle, ?_⟩
  · unfold SoundSystem.Update
    rw [if_neg hdt, hcomp]
    rfl
  · have := update_idle cfgComp (1 : ℚ) nearListener 1 1 tickedSystem (by norm_num) hidle
    rw [show (2 : Int) = 2 * ((1 : Nat) : Int) from rfl, this]
    rfl

/-- The output of a tick depends on the delays and the samples of the frames of
the play list only. -/
theorem tickOutput_congr [Zero α] [Add α] (cfg : Config) (frameStepMono : Int) (size : Nat)
    (s s1 : SoundSystem α) (L : List Nat)
    (h : ∀ g ∈ L, (s1.mSampleFrame g).mDelay = (s.mSampleFrame g).mDelay ∧
      (s1.mSampleFrame g).mSample = (s.mSampleFrame g).mSample) :
    tickOutput cfg frameStepMono size s1 L = tickOutput cfg frameStepMono size s L := by
  unfold tickOutput
  congr 1
  refine List.foldl_ext _ _ _ (fun m g hg => ?_)
  unfold frameMix mixActive
  rw [(h g hg).1, (h g hg).2]

/-- C8 (evaluation at the failing input): frame capacity 4, a play list of one
frame with samples 1, 2, 3, 4 and delay 0, two ticks with `stepSize = 2`.  The
first tick copies the samples of index 0 and 1 and leaves delay 2.  In the
second tick the guard `mDelay < frameStepMono` is false, so nothing is copied:
the output is silence and the frame keeps delay 2 and stays in the play list,
where the claim has the samples of index 2 and 3 copied to the mono positions
0 and 1. -/
theorem resumed_frame_skipped_when_delay_reaches_step :
    ∃ s1 s2, (oneFrame 0).Update cfgMix 1 nearListener (2 * ((2 : Nat) : Int)) 2 =
        .ok (s1, [1, 1, 2, 2]) ∧
      (s1.mSampleFrame 1).mDelay = 2 ∧
      (s1.mSampleFrame 1).mSample = ((oneFrame 0).mSampleFrame 1).mSample ∧
      s1.PlayList [1] ∧
      s1.Update cfgMix 1 nearListener (2 * ((2 : Nat) : Int)) 2 = .ok (s2, [0, 0, 0, 0]) ∧
      (s2.mSampleFrame 1).mDelay = 2 ∧ s2.PlayList [1] := by
  obtain ⟨hdt, hidle, hL, hfree⟩ := oneFrame_hyps 0
  obtain ⟨s1, hrun1, hplay1, hsmp1, _, hdel1, _, hcomp1, hfree1⟩ :=
    update_spec cfgMix (1 : ℚ) nearListener 2 2 (oneFrame 0) [1] (by decide) (by decide) hdt
      hidle hL hfree (by decide)
  have hd1 : (s1.mSampleFrame 1).mDelay = 2 := hdel1 1 (by simp)
  have hs1 : (s1.mSampleFrame 1).mSample = ((oneFrame 0).mSampleFrame 1).mSample :=
    congrFun hsmp1 1
  have hidle1 : s1.Idle := by
    intro c hc
    rw [hcomp1] at hc
    exact absurd hc (List.not_mem_nil c)
  have hplay1a : s1.PlayList [1] := hplay1
  obtain ⟨s2, hrun2, hplay2, _, _, hdel2, _, _⟩ :=
    update_spec cfgMix (1 : ℚ) nearListener 2 2 s1 [1] (by decide) (by decide) hdt
      hidle1 hplay1a hfree1 (by decide)
  have hd2 : s2.delay 1 = delayAfter cfgMix.frameSize 2 2 := by
    rw [hdel2 1 (by simp)]
    show delayAfter cfgMix.frameSize 2 (s1.mSampleFrame 1).mDelay = _
    rw [hd1]
  have hplay2a : s2.PlayList ([1].filter (fun g =>
      decide (delayAfter cfgMix.frameSize 2 (s1.delay g) < cfgMix.frameSize))) := hplay2
  have hfilter : [1].filter (fun g =>
      decide (delayAfter cfgMix.frameSize 2 (s1.delay g) < cfgMix.frameSize)) = [1] := by
    have : s1.delay 1 = 2 := hd1
    simp only [List.filter, this]
    rfl
  rw [hfilter] at hplay2a
  refine ⟨s1, s2, ?_, hd1, hs1, hplay1a, ?_, hd2, hplay2a⟩
  · rw [hrun1]
    have hout : tickOutput cfgMix ((2 : Nat) : Int) (2 * 2) (oneFrame 0) [1] = [1, 1, 2, 2] := by
      simp only [tickOutput, List.foldl_cons, List.foldl_nil]
      rw [frameMix_even _ _ _ _ (by decide)]
      simp [mixAfter, addSamples, mixCount, mixOffset, oneFrame, cfgMix, List.range_succ]
      norm_num
    rw [hout]
  · rw [hrun2, tickOutput_congr cfgMix _ _ (oneFrame 2) s1 [1] (by
      intro g hg
      rw [List.mem_singleton.1 hg]
      exact ⟨hd1, hs1⟩)]
    rfl

/-- C9 (evaluation at the failing input): frame capacity 4, a play list of one
frame with samples 1, 2, 3, 4 and delay 0, a tick with `stepSize = 1` followed
by a tick with `stepSize = 2`.  The first tick copies the sample of index 0 and
leaves delay 1.  The second tick copies the samples of index 1 and 2, so that
the next unread sample has index 3, but the delay becomes `1 + 3 = 4`: the
frame counts as drained and leaves the play list with its last sample
unread. -/
theorem resumed_frame_delay_counts_start_twice :
    ∃ s1 s2, (oneFrame 0).Update cfgMix 1 nearListener (2 * ((1 : Nat) : Int)) 2 =
        .ok (s1, [1, 1]) ∧
      (s1.mSampleFrame 1).mDelay = 1 ∧
      (s1.mSampleFrame 1).mSample = ((oneFrame 0).mSampleFrame 1).mSample ∧
      s1.PlayList [1] ∧
      s1.Update cfgMix 1 nearListener (2 * ((2 : Nat) : Int)) 2 = .ok (s2, [2, 2, 3, 3]) ∧
      (s2.mSampleFrame 1).mDelay = 4 ∧ s2.mPlayFrame = none := by
  obtain ⟨hdt, hidle, hL, hfree⟩ := oneFrame_hyps 0
  obtain ⟨s1, hrun1, hplay1, hsmp1, _, hdel1, _, hcomp1, hfree1⟩ :=
    update_spec cfgMix (1 : ℚ) nearListener 1 2 (oneFrame 0) [1] (by decide) (by decide) hdt
      hidle hL hfree (by decide)
  have hd1 : (s1.mSampleFrame 1).mDelay = 1 := hdel1 1 (by simp)
  have hs1 : (s1.mSampleFrame 1).mSample = ((oneFrame 0).mSampleFrame 1).mSample :=
    congrFun hsmp1 1
  have hidle1 : s1.Idle := by
    intro c hc
    rw [hcomp1] at hc
    exact absurd hc (List.not_mem_nil c)
  have hplay1a : s1.PlayList [1] := hplay1
  obtain ⟨s2, hrun2, hplay2, _, _, hdel2, _, _⟩ :=
    update_spec cfgMix (1 : ℚ) nearListener 2 2 s1 [1] (by decide) (by decide) hdt
      hidle1 hplay1a hfree1 (by decide)
  have hd2 : s2.delay 1 = delayAfter cfgMix.frameSize 2 1 := by
    rw [hdel2 1 (by simp)]
    show delayAfter cfgMix.frameSize 2 (s1.mSampleFrame 1).mDelay = _
    rw [hd1]
  have hplay2a : s2.PlayList ([1].filter (fun g =>
      decide (delayAfter cfgMix.frameSize 2 (s1.delay g) < cfgMix.frameSize))) := hplay2
  have hfilter : [1].filter (fun g =>
      decide (delayAfter cfgMix.frameSize 2 (s1.delay g) < cfgMix.frameSize)) = [] := by
    have : s1.delay 1 = 1 := hd1
    simp only [List.filter, this]
    rfl
  rw [hfilter] at hplay2a
  refine ⟨s1, s2, ?_, hd1, hs1, hplay1a, ?_, hd2, hplay2a⟩
  · rw [hrun1]
    have hout : tickOutput cfgMix ((1 : Nat) : Int) (2 * 1) (oneFrame 0) [1] = [1, 1] := by
      simp only [tickOutput, List.foldl_cons, List.foldl_nil]
      rw [frameMix_even _ _ _ _ (by decide)]
      simp [mixAfter, addSamples, mixCount, mixOffset, oneFrame, cfgMix, List.range_succ]
    rw [hout]
  · rw [hrun2, tickOutput_congr cfgMix _ _ (oneFrame 1) s1 [1] (by
      intro g hg
      rw [List.mem_singleton.1 hg]
      exact ⟨hd1, hs1⟩)]
    have hout : tickOutput cfgMix ((2 : Nat) : Int) (2 * 2) (oneFrame 1) [1] = [2, 2, 3, 3] := by
      simp only [tickOutput, List.foldl_cons, List.foldl_nil]
      rw [frameMix_even _ _ _ _ (by decide)]
      simp [mixAfter, addSamples, mixCount, mixOffset, oneFrame, cfgMix, List.range_succ]
      norm_num
    rw [hout]

/-- C13: for every distance `d`, the value of `glm::distance` and so not
negative, the attenuation computed by `SoundComponent::Update` equals
`1 - clamp((d - 0) / (50 - 0), 0, 1)`: it is 1 for `d ≤ 0`, 0 for every
`d ≥ 50` and `1 - d / 50` in between, and it lies in `[0, 1]`. -/
theorem attenuation_of_distance [LinearOrderedField α] (d : α) (hd : 0 ≤ d) :
    distanceAttenuation d = attenuationSpec d ∧
      (d ≤ 0 → distanceAttenuation d = 1) ∧
      (50 ≤ d → distanceAttenuation d = 0) ∧
      (0 < d → d < 50 → distanceAttenuation d = 1 - d / 50) ∧
      0 ≤ distanceAttenuation d ∧ distanceAttenuation d ≤ 1 := by
  have h50 : (0 : α) < 50 := by norm_num
  have ht : 0 ≤ d / 50 := div_nonneg hd (le_of_lt h50)
  have hcode : distanceAttenuation d = 1 - min 1 (d / 50) := by
    simp [distanceAttenuation, glmClamp]
  have hspec : attenuationSpec d = 1 - min 1 (d / 50) := by
    unfold attenuationSpec clampSpec
    rw [sub_zero, sub_zero, max_eq_right (le_min ht zero_le_one), min_comm]
  refine ⟨hcode.trans hspec.symm, ?_, ?_, ?_, ?_, ?_⟩
  · intro hle
    have h0 : d = 0 := le_antisymm hle hd
    rw [hcode, h0, zero_div, min_eq_right zero_le_one, sub_zero]
  · intro h
    have : 1 ≤ d / 50 := by rw [le_div_iff₀ h50]; simpa using h
    rw [hcode, min_eq_left this, sub_self]
  · intro _ h
    have : d / 50 ≤ 1 := by rw [div_le_iff₀ h50]; simpa using le_of_lt h
    rw [hcode, min_eq_right this]
  · rw [hcode]
    have : min 1 (d / 50) ≤ 1 := min_le_left _ _
    linarith
  · rw [hcode]
    have : 0 ≤ min 1 (d / 50) := le_min zero_le_one ht
    linarith

/-- Witness of C13: at `d = 25` the attenuation is `1 - 25 / 50`. -/
theorem attenuation_of_distance_witness :
    (0 : ℚ) ≤ 25 ∧
    (distanceAttenuation (25 : ℚ) = attenuationSpec 25 ∧
      ((25 : ℚ) ≤ 0 → distanceAttenuation (25 : ℚ) = 1) ∧
      ((50 : ℚ) ≤ 25 → distanceAttenuation (25 : ℚ) = 0) ∧
      ((0 : ℚ) < 25 → (25 : ℚ) < 50 → distanceAttenuation (25 : ℚ) = 1 - 25 / 50) ∧
      0 ≤ distanceAttenuation (25 : ℚ) ∧ distanceAttenuation (25 : ℚ) ≤ 1) :=
  ⟨by norm_num, attenuation_of_distance 25 (by norm_num)⟩

/-- C19 (evaluation at the failing input): frame capacity 4, a play list of one
frame with delay 0, a tick with the odd device sample count 3.  The second
iteration of the mixing loop passes the guard with `mixIdx = 2` and writes
`array_mix[3]`, past the end of the buffer of 3 samples. -/
theorem odd_sample_count_writes_past_buffer :
    (oneFrame 0).Update cfgMix 1 nearListener 3 2 = .error .outOfBounds := by
  have hdt : ¬ ¬ (0 : ℚ) ≤ 1 := by norm_num
  unfold SoundSystem.Update
  rw [if_neg hdt]
  rfl

/-- C20 (evaluation at the failing input): a component with one registered
stream and two queued effects, both with the valid index 0.  `Play` accepts the
second effect, but `SoundComponent::Update` fails the assertion of line 54,
which compares the position of the effect in the queue with the number of
streams; with two streams registered the same queue is processed and
cleared. -/
theorem more_effects_than_streams_fails_assertion :
    SoundComponent.Play { mValid := true, mSoundStreams := [[1]], mSoundPlay := [effect0] }
        effect0 = .ok twoEffects ∧
      twoEffects.Update cfgMix 1 nearListener (SoundSystem.ctor cfgMix (fun _ =>
        { mSample := fun _ => 0, mDelay := 0, mCounter := none, mNext := none })
        (fun _ => 0)) = .error .assertion ∧
      ∃ s1, twoEffectsTwoStreams.Update cfgMix 1 nearListener (SoundSystem.ctor cfgMix (fun _ =>
        { mSample := fun _ => 0, mDelay := 0, mCounter := none, mNext := none })
        (fun _ => 0)) = .ok ({ twoEffectsTwoStreams with mSoundPlay := [] }, s1) :=
  ⟨rfl, rfl, _, rfl⟩

/-- The walk of `SubmitFrame` over a null-terminated chain ends at its last
frame when the chain is not longer than the pool. -/
theorem submitTail_spec {next : Nat → Option Nat} :
    ∀ (cs : List Nat) (c rem : Nat), Seg next (some c) (c :: cs) none → cs.length ≤ rem →
      ∃ init last, c :: cs = init ++ [last] ∧ submitTail next rem c = .ok last := by
  intro cs
  induction cs with
  | nil =>
    intro c rem h _
    have hc : next c = none := h.2
    refine ⟨[], c, rfl, ?_⟩
    cases rem <;> simp [submitTail, hc]
  | cons d ds ih =>
    intro c rem h hlen
    have hc : next c = some d := h.2.1
    obtain ⟨r, rfl⟩ : ∃ r, rem = r + 1 := ⟨rem - 1, by simp at hlen; omega⟩
    obtain ⟨init, last, hsplit, hrun⟩ := ih d r ⟨rfl, h.2.2⟩ (by simp at hlen; omega)
    refine ⟨c :: init, last, by rw [hsplit]; rfl, ?_⟩
    simp [submitTail, hc, hrun]

theorem nodup_length_le_of_lt {l : List Nat} {n : Nat} (hnd : l.Nodup) (h : ∀ x ∈ l, x < n) :
    l.length ≤ n := by
  have hsub : l.toFinset ⊆ Finset.range n := by
    intro x hx
    exact Finset.mem_range.2 (h x (List.mem_toFinset.1 hx))
  have := Finset.card_le_card hsub
  rwa [List.toFinset_card_of_nodup hnd, Finset.card_range] at this

/-- C18: when the play list is the null-terminated list `P` and `c :: cs` is a
null-terminated chain of pool frames disjoint from `P`, `SubmitFrame` succeeds
and the play list becomes the chain itself when `P` is empty, and otherwise the
head of `P`, then the chain in its own order, then the rest of `P`; the new
play list is null-terminated and holds exactly the frames of `P` and of the
chain, each once. -/
theorem submitFrame_splices_chain_after_head (cfg : Config) (s : SoundSystem α)
    (P cs : List Nat) (c : Nat) (hP : s.PlayList P)
    (hC : Seg s.next (some c) (c :: cs) none)
    (hpool : ∀ x ∈ c :: cs, x < cfg.poolSize)
    (hdis : ∀ x ∈ c :: cs, x ∉ P) :
    ∃ s1, s.SubmitFrame cfg c = .ok s1 ∧
      s1.PlayList (match P with
        | [] => c :: cs
        | p :: ps => p :: ((c :: cs) ++ ps)) ∧
      (match P with
        | [] => c :: cs
        | p :: ps => p :: ((c :: cs) ++ ps)).Nodup ∧
      (match P with
        | [] => c :: cs
        | p :: ps => p :: ((c :: cs) ++ ps)).Perm (P ++ (c :: cs)) := by
  have hndC : (c :: cs).Nodup := seg_nodup hC
  have hndP : P.Nodup := seg_nodup hP
  cases P with
  | nil =>
    have hplay : s.mPlayFrame = none := hP
    refine ⟨{ s with mPlayFrame := some c }, ?_, hC, hndC, by simp⟩
    simp [SoundSystem.SubmitFrame, hplay]
  | cons p ps =>
    have hplay : s.mPlayFrame = some p := hP.1
    have hps : Seg s.next (s.next p) ps none := hP.2
    have hlen : cs.length ≤ cfg.poolSize := by
      have := nodup_length_le_of_lt hndC hpool
      simp at this; omega
    obtain ⟨init, last, hsplit, hrun⟩ := submitTail_spec cs c cfg.poolSize hC hlen
    have hndS : (init ++ [last]).Nodup := hsplit ▸ hndC
    have hlast_init : last ∉ init := fun hm =>
      (List.nodup_append.1 hndS).2.2 hm (List.mem_singleton_self last)
    have hlastC : last ∈ c :: cs := by rw [hsplit]; simp
    have hpC : p ∉ c :: cs := fun hm => hdis p hm (List.mem_cons_self _ _)
    have hp_init : p ∉ init := fun hm => hpC (by rw [hsplit]; simp [hm])
    have hlast_p : last ≠ p := fun e => hpC (e ▸ hlastC)
    have hp_ps : p ∉ ps := (List.nodup_cons.1 hndP).1
    have hlast_ps : last ∉ ps := fun hm => hdis last hlastC (List.mem_cons_of_mem _ hm)
    have hsegC : Seg s.next (some c) (init ++ [last]) none := hsplit ▸ hC
    obtain ⟨q, hinit, hq⟩ := seg_append.1 hsegC
    obtain ⟨hql, _⟩ := hq
    subst hql
    have hnd : (p :: ((c :: cs) ++ ps)).Nodup := by
      refine List.nodup_cons.2 ⟨?_, List.nodup_append.2 ⟨hndC, (List.nodup_cons.1 hndP).2, ?_⟩⟩
      · intro hm
        rcases List.mem_append.1 hm with h | h
        · exact hpC h
        · exact hp_ps h
      · intro x hx hxps
        exact hdis x hx (List.mem_cons_of_mem _ hxps)
    refine ⟨(s.setNext last (s.mSampleFrame p).mNext).setNext p (some c), ?_, ?_, hnd, ?_⟩
    · simp [SoundSystem.SubmitFrame, hplay, hrun]
    · have hnx : ((s.setNext last (s.mSampleFrame p).mNext).setNext p (some c)).next =
          Function.update (Function.update s.next last (s.next p)) p (some c) := by
        simp; rfl
      refine ⟨hplay, ?_⟩
      rw [hnx, Function.update_same, hsplit]
      refine seg_append.2 ⟨s.next p, seg_append.2 ⟨some last,
        seg_update _ _ hp_init (seg_update _ _ hlast_init hinit), rfl, ?_⟩,
        seg_update _ _ hp_ps (seg_update _ _ hlast_ps hps)⟩
      show Function.update (Function.update s.next last (s.next p)) p (some c) last = s.next p
      rw [Function.update_noteq hlast_p, Function.update_same]
    · have : (p :: ((c :: cs) ++ ps)).Perm (p :: (ps ++ (c :: cs))) :=
        (List.perm_append_comm).cons p
      simpa using this

/-- Witness of C18: submitting the chain 2, 3 to the play list 0, 1 gives the
play list 0, 2, 3, 1. -/
theorem submitFrame_splices_chain_after_head_witness :
    (spliceState.PlayList [0, 1] ∧ Seg spliceState.next (some 2) (2 :: [3]) none ∧
      (∀ x ∈ 2 :: [3], x < cfgSplice.poolSize) ∧ (∀ x ∈ 2 :: [3], x ∉ [0, 1])) ∧
    ∃ s1, spliceState.SubmitFrame cfgSplice 2 = .ok s1 ∧
      s1.PlayList (match [0, 1] with
        | [] => 2 :: [3]
        | p :: ps => p :: ((2 :: [3]) ++ ps)) ∧
      (match [0, 1] with
        | [] => 2 :: [3]
        | p :: ps => p :: ((2 :: [3]) ++ ps)).Nodup ∧
      (match [0, 1] with
        | [] => 2 :: [3]
        | p :: ps => p :: ((2 :: [3]) ++ ps)).Perm ([0, 1] ++ (2 :: [3])) :=
  ⟨⟨⟨rfl, rfl, rfl⟩, ⟨rfl, rfl, rfl⟩, by decide, by decide⟩,
    submitFrame_splices_chain_after_head cfgSplice spliceState [0, 1] [3] 2 ⟨rfl, rfl, rfl⟩
      ⟨rfl, rfl, rfl⟩ (by decide) (by decide)⟩

theorem freeHolds_nil (s : SoundSystem α) : FreeHolds s [] := by
  unfold FreeHolds
  cases s.mFreeFrame with
  | none => rfl
  | some hd =>
    exact ⟨[], s.next hd, rfl, fun g hg => absurd hg (List.not_mem_nil g),
      fun x hx => absurd hx (List.not_mem_nil x), List.not_mem_nil hd⟩

theorem freeHolds_congr {s s1 : SoundSystem α} {Rel : List Nat}
    (hfree : s1.mFreeFrame = s.mFreeFrame) (hnext : s1.next = s.next) (h : FreeHolds s Rel) :
    FreeHolds s1 Rel := by
  unfold FreeHolds at h ⊢
  rw [hfree, hnext]
  exact h

theorem freeHolds_inFreeList {s : SoundSystem α} {Rel : List Nat} (h : FreeHolds s Rel)
    {g : Nat} (hg : g ∈ Rel) : s.InFreeList g := by
  unfold FreeHolds at h
  cases hh : s.mFreeFrame with
  | none => rw [hh] at h; rw [h] at hg; cases hg
  | some hd =>
    rw [hh] at h
    obtain ⟨tail, e, hseg, hall, _, _⟩ := h
    have hs : Seg s.next (some hd) (hd :: tail) e := ⟨rfl, hseg⟩
    obtain ⟨h1, h2, h3⟩ := seg_reach hs g (hall g hg)
    cases h2
    exact ⟨hd, hh, h3⟩

/-- Releasing the frame `f` after the links of the frames `U` (among them `f`)
have been changed keeps the released frames in the free list. -/
theorem freeHolds_release {s s2 : SoundSystem α} {Rel U : List Nat} {f : Nat}
    (hF : FreeHolds s Rel) (hfree2 : s2.mFreeFrame = s.mFreeFrame)
    (hnext2 : ∀ x, x ∉ U → s2.next x = s.next x) (hfU : f ∈ U)
    (hRelU : ∀ g ∈ Rel, g ∉ U) (hhdU : ∀ h, s.mFreeFrame = some h → h ∉ U) :
    FreeHolds (s2.ReleaseFrame f) (Rel ++ [f]) := by
  have hfRel : f ∉ Rel := fun hm => hRelU f hm hfU
  unfold FreeHolds at hF ⊢
  rw [releaseFrame_mFreeFrame, hfree2]
  cases hh : s.mFreeFrame with
  | none =>
    rw [hh] at hF
    subst hF
    refine ⟨[], none, ?_, by simp, fun x hx => absurd hx (List.not_mem_nil x),
      List.not_mem_nil _⟩
    show (s2.ReleaseFrame f).next f = none
    rw [releaseFrame_next, hfree2, hh]
    simp
  | some hd =>
    rw [hh] at hF
    obtain ⟨tail, e, hseg, hall, htail, hhd⟩ := hF
    have hhdU1 : hd ∉ U := hhdU hd hh
    have hne : f ≠ hd := fun e1 => hhdU1 (e1 ▸ hfU)
    have hnx : (s2.ReleaseFrame f).next =
        Function.update (Function.update s2.next f (s2.next hd)) hd (some f) := by
      rw [releaseFrame_next, hfree2, hh]
    refine ⟨f :: tail, e, ?_, ?_, ?_, ?_⟩
    · show Seg (s2.ReleaseFrame f).next ((s2.ReleaseFrame f).next hd) (f :: tail) e
      rw [hnx, Function.update_same]
      refine ⟨rfl, ?_⟩
      rw [Function.update_noteq hne, Function.update_same, hnext2 hd hhdU1]
      refine seg_congr (fun x hx => ?_) hseg
      have hxRel := htail x hx
      have hxhd : x ≠ hd := fun e1 => hhd (e1 ▸ hx)
      have hxf : x ≠ f := fun e1 => hfRel (e1 ▸ hxRel)
      rw [Function.update_noteq hxhd, Function.update_noteq hxf, hnext2 x (hRelU x hxRel)]
    · intro g hg
      rcases List.mem_append.1 hg with h1 | h1
      · rcases List.mem_cons.1 (hall g h1) with h2 | h2
        · simp [h2]
        · simp [h2]
      · rw [List.mem_singleton.1 h1]; simp
    · intro x hx
      rcases List.mem_cons.1 hx with h1 | h1
      · simp [h1]
      · exact List.mem_append_left _ (htail x h1)
    · intro hm
      rcases List.mem_cons.1 hm with h1 | h1
      · exact hne h1.symm
      · exact hhd h1

theorem unlinkFrame_facts {s s2 : SoundSystem α} {f : Nat} {K : List Nat}
    (h : s.unlinkFrame f K.getLast? = .ok s2) :
    s2.mFreeFrame = s.mFreeFrame ∧ s2.counters = s.counters ∧
      ∀ x, x ∉ f :: K → s2.next x = s.next x := by
  unfold SoundSystem.unlinkFrame at h
  cases hl : K.getLast? with
  | none =>
    rw [hl] at h
    simp only at h
    split at h
    · injection h with h; subst h; exact ⟨rfl, rfl, fun _ _ => rfl⟩
    · cases h
  | some l =>
    rw [hl] at h
    simp only at h
    injection h with h
    subst h
    have hlK : l ∈ K := List.mem_of_getLast?_eq_some hl
    refine ⟨rfl, rfl, fun x hx => ?_⟩
    have hxf : x ≠ f := fun e => hx (by simp [e])
    have hxl : x ≠ l := fun e => hx (by simp [e, hlK])
    simp [Function.update_noteq hxf, Function.update_noteq hxl]

theorem releaseFrame_counters_apply (s : SoundSystem α) (f c : Nat) :
    (s.ReleaseFrame f).counters c =
      s.counters c - (if s.counter f = some c then 1 else 0) := by
  unfold SoundSystem.counter
  cases hc : (s.mSampleFrame f).mCounter with
  | none =>
    have : (s.ReleaseFrame f).counters = s.counters := by
      unfold SoundSystem.ReleaseFrame
      rw [hc]
      cases hfree : s.mFreeFrame <;> simp [hfree]
    rw [this]; simp
  | some cid =>
    rw [releaseFrame_counters s f cid hc]
    by_cases h : c = cid
    · subst h; simp
    · have h1 : ¬ (some cid = some c) := fun e => h (Option.some.inj e).symm
      rw [Function.update_noteq h, if_neg h1]; simp

/-- The loop over the play list on an even buffer: the drained frames end in
the free list and each of them decrements its counter once. -/
theorem mixFrames_released [Add α] (cfg : Config) (step : Nat) (hcap : 0 < cfg.frameSize)
    (hdev : cfg.samples % cfg.frameSize = 0) :
    ∀ (R K Rel : List Nat) (s : SoundSystem α) (mix : Nat → α) (fuel : Nat) (p : Option Nat),
      MixInv s K p R → R.length < fuel → (∀ g ∈ Rel, g ∉ K ++ R) → FreeHolds s Rel →
      ∃ s1 mix1, SoundSystem.mixFrames cfg step (2 * step) fuel s mix p K.getLast? =
          .ok (s1, mix1) ∧
        FreeHolds s1 (Rel ++ R.filter (drainedBy cfg.frameSize step s)) ∧
        ∀ c, s1.counters c = s.counters c -
          ((R.filter (drainedBy cfg.frameSize step s)).filter
            (fun g => decide (s.counter g = some c))).length := by
  intro R
  induction R with
  | nil =>
    intro K Rel s mix fuel p hinv _ _ hF
    have hp : p = none := hinv.2.1
    subst hp
    refine ⟨s, mix, ?_, by simpa using hF, fun c => by simp⟩
    cases fuel <;> simp [SoundSystem.mixFrames]
  | cons f R ih =>
    intro K Rel s mix fuel p hinv hfuel hRel hF
    have hp : p = some f := hinv.2.1.1
    subst hp
    obtain ⟨fuel1, rfl⟩ : ∃ n, fuel = n + 1 := ⟨fuel - 1, by simp at hfuel; omega⟩
    obtain ⟨s1, K1, heq, hK1, hinv1, _, hcnt1, hdel1, _, hkeep, hdrain⟩ :=
      mixFrames_step cfg step (2 * step) hcap hdev fuel1 s mix K R f hinv
        (fun hd => mixActive_even cfg step (s.mSampleFrame f) mix hcap hd)
    have hnd := hinv.2.2.1
    have hfR : f ∉ R := (List.nodup_cons.1 (List.nodup_append.1 hnd).2.1).1
    have hfK : f ∉ K := fun hm => (List.nodup_append.1 hnd).2.2 hm (List.mem_cons_self _ _)
    have hsame : ∀ g ∈ R, s1.delay g = s.delay g := by
      intro g hg
      rw [hdel1, Function.update_noteq]
      rintro rfl; exact hfR hg
    have hfilt : R.filter (drainedBy cfg.frameSize step s1) =
        R.filter (drainedBy cfg.frameSize step s) := by
      refine List.filter_congr (fun g hg => ?_)
      unfold drainedBy
      rw [hsame g hg]
    by_cases hk : delayAfter cfg.frameSize step (s.delay f) < cfg.frameSize
    · -- the frame stays in the play list
      have hs1 := hkeep hk
      have hdr : drainedBy cfg.frameSize step s f = false := by
        unfold drainedBy; simpa using hk
      rw [if_pos hk] at hK1
      have hF1 : FreeHolds s1 Rel := by
        refine freeHolds_congr ?_ ?_ hF
        · rw [hs1]; rfl
        · rw [hs1]; simp
      have hRel1 : ∀ g ∈ Rel, g ∉ K1 ++ R := by
        intro g hg hm
        refine hRel g hg ?_
        rw [hK1] at hm
        simpa using hm
      obtain ⟨s2, mix2, hrun, hF2, hc2⟩ := ih K1 Rel s1 _ fuel1 (s.next f) hinv1
        (by simp at hfuel; omega) hRel1 hF1
      refine ⟨s2, mix2, heq.trans hrun, ?_, fun c => ?_⟩
      · rw [List.filter_cons_of_neg (by simp [hdr]), ← hfilt]; exact hF2
      · rw [hc2 c, hfilt, hcnt1, List.filter_cons_of_neg (by simp [hdr])]
        have : s1.counters = s.counters := by rw [hs1]; rfl
        rw [this]
    · -- the frame is unlinked and released
      obtain ⟨s2, hunlink, hs1⟩ := hdrain hk
      have hdr : drainedBy cfg.frameSize step s f = true := by
        unfold drainedBy; simpa using hk
      rw [if_neg hk] at hK1
      obtain ⟨hfree2, hcounters2, hnext2⟩ := unlinkFrame_facts hunlink
      have hF1 : FreeHolds s1 (Rel ++ [f]) := by
        rw [hs1]
        refine freeHolds_release hF hfree2 (fun x hx => ?_) (List.mem_cons_self f K)
          (fun g hg hm => ?_) (fun h hh hm => ?_)
        · rw [hnext2 x hx]; simp
        · refine hRel g hg ?_
          rcases List.mem_cons.1 hm with h1 | h1
          · rw [h1]; simp
          · exact List.mem_append_left _ h1
        · refine hinv.2.2.2 h hh ?_
          rcases List.mem_cons.1 hm with h1 | h1
          · rw [h1]; simp
          · exact List.mem_append_left _ h1
      have hRel1 : ∀ g ∈ Rel ++ [f], g ∉ K1 ++ R := by
        intro g hg hm
        rw [hK1] at hm
        rcases List.mem_append.1 hg with h1 | h1
        · refine hRel g h1 ?_
          rcases List.mem_append.1 hm with h2 | h2
          · exact List.mem_append_left _ h2
          · exact List.mem_append_right _ (List.mem_cons_of_mem _ h2)
        · rw [List.mem_singleton.1 h1] at hm
          rcases List.mem_append.1 hm with h2 | h2
          · exact hfK h2
          · exact hfR h2
      obtain ⟨s3, mix3, hrun, hF3, hc3⟩ := ih K1 (Rel ++ [f]) s1 _ fuel1 (s.next f) hinv1
        (by simp at hfuel; omega) hRel1 hF1
      refine ⟨s3, mix3, heq.trans hrun, ?_, fun c => ?_⟩
      · rw [List.filter_cons_of_pos (by simp [hdr]), ← hfilt]
        simpa using hF3
      · rw [hc3 c, hfilt, hcnt1, List.filter_cons_of_pos (by simp [hdr])]
        have h1 : s1.counters c = s.counters c - (if s.counter f = some c then 1 else 0) := by
          rw [hs1, releaseFrame_counters_apply, hcounters2]
          have : s2.counter f = s.counter f := by
            have := congrFun hcnt1 f
            rw [hs1] at this
            simpa using this
          rw [this]
          rfl
        rw [h1]
        by_cases hcf : s.counter f = some c
        · rw [if_pos hcf, List.filter_cons_of_pos (by simp [hcf])]
          simp only [List.length_cons]
          push_cast
          ring
        · rw [if_neg hcf, List.filter_cons_of_neg (by simp [hcf])]
          ring

theorem inPlayList_mem {s : SoundSystem α} {L : List Nat} (hL : s.PlayList L) {g : Nat}
    (hg : s.InPlayList g) : g ∈ L := by
  obtain ⟨hd, hhd, hreach⟩ := hg
  have hclosed : ∀ x ∈ L, ∀ y, s.next x = some y → y ∈ L := by
    intro x hx y hxy
    rcases seg_closed hL x hx y hxy with h | h
    · exact h
    · cases h
  have hmem : hd ∈ L := by
    cases L with
    | nil =>
      have : s.mPlayFrame = none := hL
      rw [this] at hhd; cases hhd
    | cons a l =>
      have : s.mPlayFrame = some a := hL.1
      rw [this] at hhd; cases hhd; simp
  exact reach_mem hclosed hmem hreach

@[simp] theorem next_setSample (s : SoundSystem α) (f i : Nat) (x : α) :
    (s.setSample f i x).next = s.next := by
  simp [SoundSystem.setSample]; rfl

@[simp] theorem delay_setSample (s : SoundSystem α) (f i : Nat) (x : α) :
    (s.setSample f i x).delay = s.delay := by
  simp [SoundSystem.setSample]; rfl

@[simp] theorem sample_setSample (s : SoundSystem α) (f i : Nat) (x : α) :
    (s.setSample f i x).sample =
      Function.update s.sample f (Function.update (s.sample f) i x) := by
  simp [SoundSystem.setSample]; rfl

@[simp] theorem mFreeFrame_setSample (s : SoundSystem α) (f i : Nat) (x : α) :
    (s.setSample f i x).mFreeFrame = s.mFreeFrame := rfl

@[simp] theorem mPlayFrame_setSample (s : SoundSystem α) (f i : Nat) (x : α) :
    (s.setSample f i x).mPlayFrame = s.mPlayFrame := rfl

theorem freeRing_congr {s s1 : SoundSystem α} {avail : List Nat}
    (hfree : s1.mFreeFrame = s.mFreeFrame) (hnext : ∀ x ∈ avail, s1.next x = s.next x)
    (h : FreeRing s avail) : FreeRing s1 avail := by
  rcases h with ⟨h1, h2⟩ | ⟨hd, rem, h1, h2, h3⟩
  · exact Or.inl ⟨h1, hfree.trans h2⟩
  · refine Or.inr ⟨hd, rem, h1, hfree.trans h2, ?_⟩
    rw [hnext hd (by rw [h1]; simp)]
    exact seg_congr (fun x hx => hnext x (by rw [h1]; simp [hx])) h3

/-- `RequestFrame` on a circular free list hands out the first frame of the
order `avail`, cleared, and leaves the circular list of the others. -/
theorem requestFrame_ring [Zero α] (cfg : Config) {s : SoundSystem α} {f : Nat}
    {avail : List Nat} (h : FreeRing s (f :: avail)) (hnd : (f :: avail).Nodup) :
    ∃ s1, s.RequestFrame cfg = .ok (f, s1) ∧ FreeRing s1 avail ∧
      s1.mPlayFrame = s.mPlayFrame ∧ s1.delay = Function.update s.delay f 0 ∧
      s1.sample = Function.update s.sample f
        (fun i => if i < cfg.frameSize then 0 else s.sample f i) ∧
      s1.next f = none := by
  rcases h with ⟨h1, _⟩ | ⟨hd, rem, h1, hfree, hseg⟩
  · cases h1
  · cases rem with
    | nil =>
      -- the head is the only free frame
      have e : f = hd ∧ avail = [] := by simpa using h1
      obtain ⟨rfl, rfl⟩ := e
      have hself : (s.mSampleFrame f).mNext = some f := hseg
      refine ⟨({ s with mFreeFrame := none } : SoundSystem α).setFrame f
        ((s.mSampleFrame f).Reset cfg), ?_, Or.inl ⟨rfl, rfl⟩, rfl, ?_, ?_, ?_⟩
      · simp [SoundSystem.RequestFrame, hfree, hself]
      · simp [SoundFrame.Reset]; rfl
      · simp [SoundFrame.Reset]; rfl
      · simp [SoundFrame.Reset]
    | cons r rem1 =>
      have e : f = r ∧ avail = rem1 ++ [hd] := by simpa using h1
      obtain ⟨rfl, rfl⟩ := e
      have hnx : (s.mSampleFrame hd).mNext = some f := hseg.1
      have hne : f ≠ hd := by
        intro e1
        have := (List.nodup_cons.1 hnd).1
        exact this (by simp [e1])
      have hnself : ¬ (s.mSampleFrame hd).mNext = some hd := by
        rw [hnx]; intro e1; exact hne (Option.some.inj e1)
      have hf_rem : f ∉ rem1 := fun hm => (List.nodup_cons.1 hnd).1 (by simp [hm])
      have hhd_rem : hd ∉ rem1 := by
        have := (List.nodup_cons.1 hnd).2
        exact fun hm => (List.nodup_append.1 this).2.2 hm (List.mem_singleton_self hd)
      refine ⟨(s.setNext hd (s.mSampleFrame f).mNext).setFrame f
        (((s.setNext hd (s.mSampleFrame f).mNext).mSampleFrame f).Reset cfg), ?_,
        Or.inr ⟨hd, rem1, rfl, hfree, ?_⟩, rfl, ?_, ?_, ?_⟩
      · simp [SoundSystem.RequestFrame, hfree, hnx, hne]
      · simp only [next_setFrame, next_setNext, SoundFrame.Reset]
        rw [Function.update_noteq (Ne.symm hne), Function.update_same]
        exact seg_update _ _ hf_rem (seg_update _ _ hhd_rem hseg.2)
      · simp [SoundFrame.Reset]
      · funext x
        by_cases hx : x = f
        · subst hx
          simp [SoundFrame.Reset, SoundSystem.sample, SoundSystem.setNext, SoundSystem.setFrame,
            Function.update_noteq hne]
        · simp [SoundFrame.Reset, SoundSystem.sample, SoundSystem.setNext, SoundSystem.setFrame,
            Function.update_noteq hx]
          by_cases hxh : x = hd
          · subst hxh; simp
          · simp [Function.update_noteq hxh]
      · simp [SoundFrame.Reset]

/-- `SubmitFrame` of a frame whose link is null: only links change, at the
frame and at the head of the play list. -/
theorem submitFrame_single (cfg : Config) {s : SoundSystem α} {f : Nat}
    (hf : s.next f = none) :
    ∃ s1, s.SubmitFrame cfg f = .ok s1 ∧ s1.delay = s.delay ∧ s1.sample = s.sample ∧
      s1.mFreeFrame = s.mFreeFrame ∧
      (∃ p, s1.mPlayFrame = some p ∧ (p = f ∨ s.mPlayFrame = some p)) ∧
      ∀ x, x ≠ f → (∀ p, s.mPlayFrame = some p → x ≠ p) → s1.next x = s.next x := by
  cases hplay : s.mPlayFrame with
  | none =>
    refine ⟨{ s with mPlayFrame := some f }, ?_, rfl, rfl, rfl, ⟨f, rfl, Or.inl rfl⟩,
      fun _ _ _ => rfl⟩
    simp [SoundSystem.SubmitFrame, hplay]
  | some p =>
    have htail : submitTail s.next cfg.poolSize f = .ok f := by
      cases cfg.poolSize <;> simp [submitTail, hf]
    refine ⟨(s.setNext f (s.mSampleFrame p).mNext).setNext p (some f), ?_, by simp, by simp,
      rfl, ⟨p, hplay, Or.inr rfl⟩, fun x hxf hxp => ?_⟩
    · simp [SoundSystem.SubmitFrame, hplay, htail]
    · have hxp1 : x ≠ p := hxp p rfl
      simp [Function.update_noteq hxp1, Function.update_noteq hxf]

theorem fillFrames_acquire [Zero α] [Mul α] (cfg : Config) (a x : α) (rest : List α)
    (idx frameIdx f : Nat) (s s1 : SoundSystem α) (hcap : 0 < cfg.frameSize)
    (hreq : s.RequestFrame cfg = .ok (f, s1)) :
    SoundComponent.fillFrames cfg a (x :: rest) idx s none frameIdx =
      SoundComponent.fillFrames cfg a rest (idx + 1)
        ((s1.setDelay f (-(idx : Int))).setSample f 0 (a * x)) (some f) 1 := by
  rw [SoundComponent.fillFrames]
  simp [hreq, hcap]

theorem fillFrames_submit_acquire [Zero α] [Mul α] (cfg : Config) (a x : α) (rest : List α)
    (idx frameIdx f0 f : Nat) (s s0 s1 : SoundSystem α) (hcap : 0 < cfg.frameSize)
    (hfull : ¬ frameIdx < cfg.frameSize) (hsub : s.SubmitFrame cfg f0 = .ok s0)
    (hreq : s0.RequestFrame cfg = .ok (f, s1)) :
    SoundComponent.fillFrames cfg a (x :: rest) idx s (some f0) frameIdx =
      SoundComponent.fillFrames cfg a rest (idx + 1)
        ((s1.setDelay f (-(idx : Int))).setSample f 0 (a * x)) (some f) 1 := by
  rw [SoundComponent.fillFrames]
  simp [hreq, hcap, hsub, hfull]

theorem fillFrames_continue [Zero α] [Mul α] (cfg : Config) (a x : α) (rest : List α)
    (idx frameIdx f : Nat) (s : SoundSystem α) (hroom : frameIdx < cfg.frameSize) :
    SoundComponent.fillFrames cfg a (x :: rest) idx s (some f) frameIdx =
      SoundComponent.fillFrames cfg a rest (idx + 1)
        (s.setSample f frameIdx (a * x)) (some f) (frameIdx + 1) := by
  rw [SoundComponent.fillFrames]
  simp [hroom]

theorem slotValue_succ_of_lt [Zero α] [Mul α] (cap : Nat) (a : α) (audio : List α)
    (idx k j : Nat) (h : k * cap + j < idx) :
    slotValue cap a audio (idx + 1) k j = slotValue cap a audio idx k j := by
  unfold slotValue
  rw [if_pos h, if_pos (by omega)]

/-- Acquiring a frame for the sample of index `idx = taken.length * frameSize`
and writing the sample into its first slot keeps the invariant. -/
theorem fillInv_acquire [Zero α] [Mul α] (cfg : Config) (a x : α) (audio : List α)
    (s0 : SoundSystem α) (idx f : Nat) (taken avail : List Nat) (hcap : 0 < cfg.frameSize)
    (hring : FreeRing s0 (f :: avail)) (hnd : (taken ++ f :: avail).Nodup)
    (hplay : ∀ p, s0.mPlayFrame = some p → p ∉ f :: avail)
    (hcont : ∀ k fk, taken[k]? = some fk →
      s0.delay fk = -((k * cfg.frameSize : Nat) : Int) ∧
      ∀ j, j < cfg.frameSize → s0.sample fk j = slotValue cfg.frameSize a audio idx k j)
    (hidx : idx = taken.length * cfg.frameSize) (hx : audio.getD idx 0 = x) :
    ∃ s1, s0.RequestFrame cfg = .ok (f, s1) ∧
      FillInv cfg a audio ((s1.setDelay f (-(idx : Int))).setSample f 0 (a * x)) (idx + 1)
        (taken ++ [f]) avail (some f) 1 ∧
      ∀ y, y ≠ f → s1.delay y = s0.delay y ∧ s1.sample y = s0.sample y := by
  have hndf : (f :: avail).Nodup := (List.nodup_append.1 hnd).2.1
  obtain ⟨s1, hreq, hring1, hplay1, hdel1, hsmp1, hnext1⟩ := requestFrame_ring cfg hring hndf
  refine ⟨s1, hreq, ⟨?_, by simpa using hnd, ?_, ?_, Or.inr ⟨taken, f, rfl, rfl, ?_, le_refl 1,
    hcap, ?_⟩⟩, fun y hy => by
      rw [hdel1, hsmp1, Function.update_noteq hy, Function.update_noteq hy]
      exact ⟨rfl, rfl⟩⟩
  · exact freeRing_congr (by simp) (fun x _ => by simp) hring1
  · intro p hp hm
    have hp0 : s0.mPlayFrame = some p := by
      rw [← hplay1]; simpa using hp
    exact hplay p hp0 (List.mem_cons_of_mem _ hm)
  · intro k fk hk
    rcases Nat.lt_trichotomy k taken.length with hlt | heq | hgt
    · rw [List.getElem?_append_left hlt] at hk
      have hfk : fk ∈ taken := List.getElem?_mem hk
      have hne : fk ≠ f := fun e =>
        (List.nodup_append.1 hnd).2.2 hfk (e ▸ List.mem_cons_self f avail)
      obtain ⟨hd0, hs0⟩ := hcont k fk hk
      have hle : (k + 1) * cfg.frameSize ≤ taken.length * cfg.frameSize :=
        Nat.mul_le_mul_right _ hlt
      have he : (k + 1) * cfg.frameSize = k * cfg.frameSize + cfg.frameSize := by ring
      refine ⟨?_, fun j hj => ?_⟩
      · simp [hdel1, Function.update_noteq hne, hd0]
      · rw [slotValue_succ_of_lt _ _ _ _ _ _ (by omega), ← hs0 j hj]
        simp [hsmp1, Function.update_noteq hne]
    · subst heq
      have hfk : fk = f := by simpa using hk.symm
      subst hfk
      refine ⟨?_, fun j hj => ?_⟩
      · simp [hidx]
      · simp only [sample_setSample, sample_setDelay, Function.update_same, hsmp1]
        unfold slotValue
        by_cases hj0 : j = 0
        · subst hj0
          rw [Function.update_same, if_pos (by omega), Nat.add_zero, ← hidx, hx]
        · rw [Function.update_noteq hj0, if_pos hj, if_neg (by omega)]
    · rw [List.getElem?_eq_none (by simp; omega)] at hk
      cases hk
  · simp [hidx]
  · simpa using hnext1

/-- Writing the next sample into the frame being filled keeps the invariant. -/
theorem fillInv_continue [Zero α] [Mul α] (cfg : Config) (a x : α) (audio : List α)
    (s : SoundSystem α) (idx f frameIdx : Nat) (taken avail : List Nat)
    (hinv : FillInv cfg a audio s idx taken avail (some f) frameIdx)
    (hroom : frameIdx < cfg.frameSize) (hx : audio.getD idx 0 = x) :
    FillInv cfg a audio (s.setSample f frameIdx (a * x)) (idx + 1) taken avail (some f)
      (frameIdx + 1) := by
  obtain ⟨hring, hnd, hplay, hcont, hcur⟩ := hinv
  rcases hcur with ⟨_, _, h, _⟩ | ⟨init, f1, htaken, hsf, hidx, h1, _, hnext⟩
  · cases h
  · have e : f = f1 := Option.some.inj hsf
    subst e
    subst htaken
    have hndT : (init ++ [f]).Nodup := (List.nodup_append.1 hnd).1
    have hf_init : f ∉ init := fun hm =>
      (List.nodup_append.1 hndT).2.2 hm (List.mem_singleton_self f)
    refine ⟨freeRing_congr (by simp) (fun x _ => by simp) hring, hnd, by simpa using hplay, ?_,
      Or.inr ⟨init, f, rfl, rfl, by omega, by omega, by omega, by simpa using hnext⟩⟩
    intro k fk hk
    obtain ⟨hd0, hs0⟩ := hcont k fk hk
    rcases Nat.lt_trichotomy k init.length with hlt | heq | hgt
    · have hk1 := hk
      rw [List.getElem?_append_left hlt] at hk1
      have hne : fk ≠ f := fun e => hf_init (e ▸ List.getElem?_mem hk1)
      have hle : (k + 1) * cfg.frameSize ≤ init.length * cfg.frameSize :=
        Nat.mul_le_mul_right _ hlt
      have he : (k + 1) * cfg.frameSize = k * cfg.frameSize + cfg.frameSize := by ring
      refine ⟨by simpa using hd0, fun j hj => ?_⟩
      rw [slotValue_succ_of_lt _ _ _ _ _ _ (by omega), ← hs0 j hj]
      simp [Function.update_noteq hne]
    · subst heq
      have hfk : fk = f := by simpa using hk.symm
      subst hfk
      refine ⟨by simpa using hd0, fun j hj => ?_⟩
      simp only [sample_setSample, Function.update_same]
      by_cases hjf : j = frameIdx
      · subst hjf
        rw [Function.update_same]
        unfold slotValue
        rw [if_pos (by omega), ← hidx, hx]
      · rw [Function.update_noteq hjf, hs0 j hj]
        unfold slotValue
        by_cases hlt : init.length * cfg.frameSize + j < idx
        · rw [if_pos hlt, if_pos (by omega)]
        · rw [if_neg hlt, if_neg (by omega)]
    · rw [List.getElem?_eq_none (by simp; omega)] at hk
      cases hk

/-- Submitting the frame being filled keeps the free frames, the written slots
and the delays as they are. -/
theorem fillInv_submit [Zero α] [Mul α] (cfg : Config) (a : α) (audio : List α)
    (s : SoundSystem α) (idx f frameIdx : Nat) (taken avail : List Nat)
    (hinv : FillInv cfg a audio s idx taken avail (some f) frameIdx) :
    ∃ s0, s.SubmitFrame cfg f = .ok s0 ∧ FreeRing s0 avail ∧
      (∀ p, s0.mPlayFrame = some p → p ∉ avail) ∧
      (∀ k fk, taken[k]? = some fk →
        s0.delay fk = -((k * cfg.frameSize : Nat) : Int) ∧
        ∀ j, j < cfg.frameSize → s0.sample fk j = slotValue cfg.frameSize a audio idx k j) ∧
      s0.delay = s.delay ∧ s0.sample = s.sample := by
  obtain ⟨hring, hnd, hplay, hcont, hcur⟩ := hinv
  rcases hcur with ⟨_, _, h, _⟩ | ⟨init, f1, htaken, hsf, _, _, _, hnext⟩
  · cases h
  · have e : f = f1 := Option.some.inj hsf
    subst e
    have hf_avail : f ∉ avail := fun hm =>
      (List.nodup_append.1 hnd).2.2 (by rw [htaken]; simp) hm
    obtain ⟨s0, hsub, hdel, hsmp, hfree, ⟨p, hp, hpor⟩, hnx⟩ := submitFrame_single cfg hnext
    refine ⟨s0, hsub, ?_, ?_, ?_, hdel, hsmp⟩
    · refine freeRing_congr hfree (fun x hx => hnx x ?_ ?_) hring
      · rintro rfl; exact hf_avail hx
      · intro q hq e; exact hplay q hq (e ▸ hx)
    · intro q hq
      rw [hp] at hq
      have e : p = q := Option.some.inj hq
      subst e
      rcases hpor with h | h
      · rw [h]; exact hf_avail
      · exact hplay p h
    · intro k fk hk
      rw [hdel, hsmp]
      exact hcont k fk hk

/-- The loop over the samples of a stream, started with enough free frames:
it ends without fault and every acquired frame holds its delay and the
attenuated samples of its chunk. -/
theorem fillFrames_spec [Zero α] [Mul α] (cfg : Config) (a : α) (audio : List α)
    (hcap : 0 < cfg.frameSize) :
    ∀ (rest done : List α) (s : SoundSystem α) (taken avail : List Nat)
      (soundFrame : Option Nat) (frameIdx : Nat), audio = done ++ rest →
      FillInv cfg a audio s done.length taken avail soundFrame frameIdx →
      audio.length ≤ (taken.length + avail.length) * cfg.frameSize →
      ∃ s1 taken1 avail1 sf1 fi1,
        SoundComponent.fillFrames cfg a rest done.length s soundFrame frameIdx =
          .ok (s1, sf1, fi1) ∧
        taken1 ++ avail1 = taken ++ avail ∧
        FillInv cfg a audio s1 audio.length taken1 avail1 sf1 fi1 ∧
        ∀ y, y ∉ taken ++ avail → s1.delay y = s.delay y ∧ s1.sample y = s.sample y := by
  intro rest
  induction rest with
  | nil =>
    intro done s taken avail soundFrame frameIdx haudio hinv _
    have hlen : audio.length = done.length := by rw [haudio]; simp
    exact ⟨s, taken, avail, soundFrame, frameIdx, rfl, rfl, hlen ▸ hinv, fun _ _ => ⟨rfl, rfl⟩⟩
  | cons x rest ih =>
    intro done s taken avail soundFrame frameIdx haudio hinv hroom
    have hx : audio.getD done.length 0 = x := by
      rw [haudio, List.getD_eq_getElem?_getD, List.getElem?_append_right (le_refl _)]
      simp
    have haudio1 : audio = (done ++ [x]) ++ rest := by rw [haudio]; simp
    have hlen1 : (done ++ [x]).length = done.length + 1 := by simp
    have hL : done.length + 1 ≤ audio.length := by rw [haudio]; simp
    have hacq : ∀ (s0 : SoundSystem α), FreeRing s0 avail →
        (∀ p, s0.mPlayFrame = some p → p ∉ avail) →
        (∀ k fk, taken[k]? = some fk →
          s0.delay fk = -((k * cfg.frameSize : Nat) : Int) ∧
          ∀ j, j < cfg.frameSize →
            s0.sample fk j = slotValue cfg.frameSize a audio done.length k j) →
        done.length = taken.length * cfg.frameSize →
        ∃ f avail1 s1, avail = f :: avail1 ∧ s0.RequestFrame cfg = .ok (f, s1) ∧
          FillInv cfg a audio ((s1.setDelay f (-(done.length : Int))).setSample f 0 (a * x))
            (done.length + 1) (taken ++ [f]) avail1 (some f) 1 ∧
          ∀ y, y ≠ f →
            ((s1.setDelay f (-(done.length : Int))).setSample f 0 (a * x)).delay y = s0.delay y ∧
            ((s1.setDelay f (-(done.length : Int))).setSample f 0 (a * x)).sample y =
              s0.sample y := by
      intro s0 hring0 hplay0 hcont0 hidx
      cases avail with
      | nil =>
        simp only [List.length_nil, Nat.add_zero] at hroom
        omega
      | cons f avail1 =>
        obtain ⟨s1, hreq, hinv1, hsame1⟩ := fillInv_acquire cfg a x audio s0 done.length f taken
          avail1 hcap hring0 hinv.2.1 hplay0 hcont0 hidx hx
        refine ⟨f, avail1, s1, rfl, hreq, hinv1, fun y hy => ?_⟩
        obtain ⟨h1, h2⟩ := hsame1 y hy
        simp only [delay_setSample, delay_setDelay, sample_setSample, sample_setDelay,
          Function.update_noteq hy]
        exact ⟨h1, h2⟩
    rcases hinv.2.2.2.2 with ⟨htk, hidx, hsf, _⟩ | ⟨init, f, htaken, hsf, hidx, h1, hle, hnext⟩
    · -- first sample of the stream
      subst hsf
      obtain ⟨f, avail1, s1, havail, hreq, hinv1, hsame1⟩ := hacq s hinv.1 hinv.2.2.1
        hinv.2.2.2.1 (by rw [htk, hidx]; simp)
      obtain ⟨s2, taken2, avail2, sf2, fi2, hrun, happ, hinv2, hsame2⟩ :=
        ih (done ++ [x]) _ (taken ++ [f]) avail1 (some f) 1 haudio1 (hlen1 ▸ hinv1)
          (by
            have e : (taken ++ [f]).length + avail1.length =
                taken.length + (f :: avail1).length := by simp; omega
            rw [e, ← havail]; exact hroom)
      refine ⟨s2, taken2, avail2, sf2, fi2, ?_, by rw [happ, havail]; simp, hinv2,
        fun y hy => ?_⟩
      · rw [fillFrames_acquire cfg a x rest done.length frameIdx f s s1 hcap hreq, ← hlen1]
        exact hrun
      · have hyf : y ≠ f := fun e => hy (by rw [havail, e]; simp)
        obtain ⟨h1, h2⟩ := hsame2 y (by rw [havail] at hy; simpa using hy)
        obtain ⟨h3, h4⟩ := hsame1 y hyf
        exact ⟨h1.trans h3, h2.trans h4⟩
    · subst hsf
      by_cases hroomF : frameIdx < cfg.frameSize
      · -- the frame being filled has room
        have hinv1 := fillInv_continue cfg a x audio s done.length f frameIdx taken avail hinv
          hroomF hx
        obtain ⟨s2, taken2, avail2, sf2, fi2, hrun, happ, hinv2, hsame2⟩ :=
          ih (done ++ [x]) _ taken avail (some f) (frameIdx + 1) haudio1 (hlen1 ▸ hinv1) hroom
        refine ⟨s2, taken2, avail2, sf2, fi2, ?_, happ, hinv2, fun y hy => ?_⟩
        · rw [fillFrames_continue cfg a x rest done.length frameIdx f s hroomF, ← hlen1]
          exact hrun
        · have hyf : y ≠ f := fun e => hy (by rw [htaken, e]; simp)
          obtain ⟨h1, h2⟩ := hsame2 y hy
          rw [h1, h2]
          simp [Function.update_noteq hyf]
      · -- the frame is full: it is submitted and a new one is acquired
        obtain ⟨s0, hsub, hring0, hplay0, hcont0, hdel0, hsmp0⟩ :=
          fillInv_submit cfg a audio s done.length f frameIdx taken avail hinv
        have hfull : frameIdx = cfg.frameSize := by omega
        have hidx1 : done.length = taken.length * cfg.frameSize := by
          rw [hidx, htaken, hfull]; simp; ring
        obtain ⟨f2, avail1, s1, havail, hreq, hinv1, hsame1⟩ :=
          hacq s0 hring0 hplay0 hcont0 hidx1
        obtain ⟨s2, taken2, avail2, sf2, fi2, hrun, happ, hinv2, hsame2⟩ :=
          ih (done ++ [x]) _ (taken ++ [f2]) avail1 (some f2) 1 haudio1 (hlen1 ▸ hinv1)
            (by
              have e : (taken ++ [f2]).length + avail1.length =
                  taken.length + (f2 :: avail1).length := by simp; omega
              rw [e, ← havail]; exact hroom)
        refine ⟨s2, taken2, avail2, sf2, fi2, ?_, by rw [happ, havail]; simp, hinv2,
          fun y hy => ?_⟩
        · rw [fillFrames_submit_acquire cfg a x rest done.length frameIdx f f2 s s0 s1 hcap
            hroomF hsub hreq, ← hlen1]
          exact hrun
        · have hyf : y ≠ f2 := fun e => hy (by rw [havail, e]; simp)
          obtain ⟨h1, h2⟩ := hsame2 y (by rw [havail] at hy; simpa using hy)
          obtain ⟨h3, h4⟩ := hsame1 y hyf
          rw [hdel0, hsmp0] at *
          exact ⟨h1.trans h3, h2.trans h4⟩

/-! ## RingBuffer: the unread elements -/

theorem map_range_getElem? (f : Nat → α) (n i : Nat) :
    ((List.range n).map f)[i]? = if i < n then some (f i) else none := by
  by_cases h : i < n
  · simp [h, List.getElem?_range]
  · simp [h]
    omega

theorem cyc_pos (N w s i : Nat) (hw : w < N) (hs : s ≤ N) (hi : i < s) :
    (w + N - s + i) % N = if s ≤ w + i then w + i - s else w + N + i - s := by
  by_cases h : s ≤ w + i
  · rw [if_pos h]
    have e : w + N - s + i = (w + i - s) + N := by omega
    rw [e, Nat.add_mod_right]
    exact Nat.mod_eq_of_lt (by omega)
  · rw [if_neg h]
    have e : w + N - s + i = w + N + i - s := by omega
    rw [e]
    exact Nat.mod_eq_of_lt (by omega)

theorem ringInv_nat (N : Nat) (rb : RingBuffer α) (h : RingInv N rb) :
    ∃ s w : Nat, rb.mSize = (s : Int) ∧ rb.mWriteIndex = (w : Int) ∧ s ≤ N ∧ w < N := by
  obtain ⟨h1, h2, h3, h4⟩ := h
  obtain ⟨s, hs⟩ := Int.eq_ofNat_of_zero_le h1
  obtain ⟨w, hw⟩ := Int.eq_ofNat_of_zero_le h3
  exact ⟨s, w, hs, hw, by omega, by omega⟩

theorem unread_length (N : Nat) (rb : RingBuffer α) :
    (rb.unread N).length = rb.mSize.toNat := by
  simp [RingBuffer.unread]

theorem unread_getElem? (N s w : Nat) (rb : RingBuffer α) (hs : rb.mSize = (s : Int))
    (hw : rb.mWriteIndex = (w : Int)) (hsN : s ≤ N) (hwN : w < N) (i : Nat) :
    (rb.unread N)[i]? =
      if i < s then some (rb.mBuffer (if s ≤ w + i then w + i - s else w + N + i - s))
      else none := by
  unfold RingBuffer.unread
  rw [map_range_getElem?, hs, hw]
  simp only [Int.toNat_ofNat]
  by_cases h : i < s
  · rw [if_pos h, if_pos h, cyc_pos N w s i hwN hsN h]
  · rw [if_neg h, if_neg h]

/-- Writing `acc` into the cells that follow the write index, cyclically, and
advancing the write index and the size by its length, appends `acc` to the
unread elements. -/
theorem unread_append (N s w c : Nat) (rb rb1 : RingBuffer α) (acc : List α)
    (hs : rb.mSize = (s : Int)) (hw : rb.mWriteIndex = (w : Int))
    (hsc : s + c ≤ N) (hwN : w < N) (hlen : acc.length = c)
    (hs1 : rb1.mSize = ((s + c : Nat) : Int))
    (hw1 : rb1.mWriteIndex = ((if w + c < N then w + c else w + c - N : Nat) : Int))
    (hnew : ∀ k, k < c → acc[k]? = some (rb1.mBuffer (if w + k < N then w + k else w + k - N)))
    (hold : ∀ p, p < N → ¬ ((w ≤ p ∧ p < w + c) ∨ p + N < w + c) → rb1.mBuffer p = rb.mBuffer p) :
    rb1.unread N = rb.unread N ++ acc := by
  apply List.ext_getElem?
  intro i
  have hw1N : (if w + c < N then w + c else w + c - N) < N := by split <;> omega
  rw [unread_getElem? N (s + c) _ rb1 hs1 hw1 hsc hw1N i]
  by_cases hi : i < s
  · rw [List.getElem?_append_left (by rw [unread_length, hs]; simpa using hi),
      unread_getElem? N s w rb hs hw (by omega) hwN i, if_pos hi, if_pos (by omega)]
    congr 1
    have e : (if s + c ≤ (if w + c < N then w + c else w + c - N) + i
          then (if w + c < N then w + c else w + c - N) + i - (s + c)
          else (if w + c < N then w + c else w + c - N) + N + i - (s + c))
        = (if s ≤ w + i then w + i - s else w + N + i - s) := by
      split_ifs <;> omega
    rw [e]
    apply hold
    · split_ifs <;> omega
    · split_ifs <;> omega
  · have hl : (rb.unread N).length = s := by rw [unread_length, hs]; simp
    rw [List.getElem?_append_right (by omega), hl]
    by_cases hi2 : i < s + c
    · rw [if_pos hi2, hnew (i - s) (by omega)]
      congr 2
      split_ifs <;> omega
    · rw [if_neg hi2]
      symm
      apply List.getElem?_eq_none
      omega

theorem memcpyInto_ok (N : Nat) (dst : Nat → α) (start cnt : Nat) (src : List α)
    (h1 : start + cnt ≤ N) (h2 : cnt ≤ src.length) :
    memcpyInto N dst (start : Int) src (cnt : Int) =
      .ok (fun i => if start ≤ i ∧ i < start + cnt then src.getD (i - start) (dst i)
        else dst i) := by
  unfold memcpyInto
  rw [if_pos ⟨by omega, by omega, by omega, by omega⟩]
  simp

theorem memcpyFrom_ok (N : Nat) (src : Nat → α) (start cnt : Nat) (h1 : start + cnt ≤ N) :
    memcpyFrom N src (start : Int) (cnt : Int) =
      .ok ((List.range cnt).map (fun k => src (start + k))) := by
  unfold memcpyFrom
  rw [if_pos ⟨by omega, by omega, by omega⟩]
  simp

theorem tmod_wrap (N a : Nat) (h : a ≤ N) :
    Int.tmod (a : Int) (N : Int) = ((if a < N then a else a - N : Nat) : Int) := by
  have e : Int.tmod (a : Int) (N : Int) = ((a % N : Nat) : Int) := rfl
  rw [e]
  congr 1
  by_cases h1 : a < N
  · rw [if_pos h1]; exact Nat.mod_eq_of_lt h1
  · have e2 : a = N := by omega
    rw [if_neg h1, e2]; simp

theorem getElem?_eq_getD (l : List α) (k : Nat) (d : α) (h : k < l.length) :
    l[k]? = some (l.getD k d) := by
  rw [List.getD_eq_getElem?_getD, List.getElem?_eq_getElem h]
  rfl

/-- The bulk write on a buffer that satisfies the invariant: the count written
back, the new size and write index, the cells written and the cells kept. -/
theorem write_spec (N : Nat) (rb : RingBuffer α) (data : List α) (s w : Nat)
    (hs : rb.mSize = (s : Int)) (hw : rb.mWriteIndex = (w : Int)) (hsN : s ≤ N) (hwN : w < N) :
    ∃ rb1, rb.write N data = .ok (((min data.length (N - s) : Nat) : Int), rb1)
      ∧ rb1.mSize = ((s + min data.length (N - s) : Nat) : Int)
      ∧ rb1.mWriteIndex = ((if w + min data.length (N - s) < N then w + min data.length (N - s)
          else w + min data.length (N - s) - N : Nat) : Int)
      ∧ (∀ k, k < min data.length (N - s) →
          data[k]? = some (rb1.mBuffer (if w + k < N then w + k else w + k - N)))
      ∧ (∀ p, p < N → ¬ ((w ≤ p ∧ p < w + min data.length (N - s))
          ∨ p + N < w + min data.length (N - s)) → rb1.mBuffer p = rb.mBuffer p) := by
  obtain ⟨c, hc⟩ : ∃ c, c = min data.length (N - s) := ⟨_, rfl⟩
  rw [← hc]
  have hc1 : c ≤ data.length := by omega
  have hc2 : c ≤ N - s := by omega
  have hcount : min (data.length : Int) ((N : Int) - rb.size) = (c : Int) := by
    rw [RingBuffer.size, hs]; omega
  unfold RingBuffer.write
  simp only []
  rw [hcount, hw]
  by_cases hb : c ≤ N - w
  · have hmax : min (c : Int) ((N : Int) - (w : Int)) = (c : Int) := by omega
    rw [hmax, if_pos (le_refl _), memcpyInto_ok N rb.mBuffer w c data (by omega) hc1]
    simp only []
    rw [if_pos (by rw [hs]; omega)]
    refine ⟨_, rfl, ?_, ?_, ?_, ?_⟩
    · simp only [hs]; omega
    · have e : ((w : Int) + (c : Int)) = ((w + c : Nat) : Int) := by omega
      simp only [e]
      exact tmod_wrap N (w + c) (by omega)
    · intro k hk
      simp only []
      rw [if_pos (show w + k < N by omega), if_pos (by omega)]
      have e : w + k - w = k := by omega
      rw [e]
      exact getElem?_eq_getD data k _ (by omega)
    · intro p hp hnot
      simp only []
      rw [if_neg]
      intro h
      exact hnot (Or.inl h)
  · have hmax : min (c : Int) ((N : Int) - (w : Int)) = ((N - w : Nat) : Int) := by omega
    rw [hmax, if_neg (by omega), memcpyInto_ok N rb.mBuffer w (N - w) data (by omega) (by omega)]
    simp only []
    have e : (c : Int) - ((N - w : Nat) : Int) = ((c - (N - w) : Nat) : Int) := by omega
    have e0 : (0 : Int) = ((0 : Nat) : Int) := rfl
    rw [e, Int.toNat_ofNat, e0,
      memcpyInto_ok N _ 0 (c - (N - w)) (data.drop (N - w)) (by omega)
        (by rw [List.length_drop]; omega)]
    simp only []
    rw [if_pos (by rw [hs]; omega)]
    refine ⟨_, rfl, ?_, ?_, ?_, ?_⟩
    · simp only [hs]; omega
    · simp only []
      congr 1
      rw [if_neg (by omega)]
      omega
    · intro k hk
      simp only []
      by_cases hk1 : w + k < N
      · rw [if_pos hk1, if_neg (by omega), if_pos (by omega)]
        have e : w + k - w = k := by omega
        rw [e]
        exact getElem?_eq_getD data k _ (by omega)
      · rw [if_neg hk1, if_pos (by omega)]
        rw [← getElem?_eq_getD (data.drop (N - w)) _ _ (by rw [List.length_drop]; omega),
          List.getElem?_drop]
        congr 1
        omega
    · intro p hp hnot
      simp only []
      rw [if_neg (by omega), if_neg]
      intro h
      exact hnot (Or.inl ⟨h.1, by omega⟩)

theorem read_index_spec (N : Nat) (rb : RingBuffer α) (s w i : Nat)
    (hs : rb.mSize = (s : Int)) (hw : rb.mWriteIndex = (w : Int)) (hsN : s ≤ N) (hi : i ≤ s) :
    rb.read_index N (i : Int)
      = .ok (((if s ≤ w + i then w + i - s else w + N + i - s : Nat)) : Int) := by
  unfold RingBuffer.read_index
  rw [if_neg (by omega), if_neg (by rw [RingBuffer.size, hs]; omega)]
  simp only [RingBuffer.size, hs, hw]
  by_cases h : s ≤ w + i
  · rw [if_neg (by omega), if_pos h]
    congr 1
    omega
  · rw [if_pos (by omega), if_neg h]
    congr 1
    omega

/-- The element `peek_at i` returns is the one at position `i` of the unread
elements, counted from the oldest. -/
theorem peek_at_spec (N : Nat) (rb : RingBuffer α) (s w i : Nat)
    (hs : rb.mSize = (s : Int)) (hw : rb.mWriteIndex = (w : Int)) (hsN : s ≤ N) (hwN : w < N)
    (hi : i < s) :
    ∃ x, rb.peek_at N (i : Int) = .ok x ∧ (rb.unread N)[i]? = some x := by
  refine ⟨rb.mBuffer (if s ≤ w + i then w + i - s else w + N + i - s), ?_, ?_⟩
  · unfold RingBuffer.peek_at
    rw [read_index_spec N rb s w i hs hw hsN (by omega)]
    simp only []
    rw [if_pos (by split_ifs <;> omega)]
    split_ifs <;> simp
  · rw [unread_getElem? N s w rb hs hw hsN hwN i, if_pos hi]

/-- The bulk read on a buffer that satisfies the invariant: it delivers the
oldest `min c s` unread elements and leaves the others. -/
theorem read_spec (N : Nat) (rb : RingBuffer α) (s w c : Nat)
    (hs : rb.mSize = (s : Int)) (hw : rb.mWriteIndex = (w : Int)) (hsN : s ≤ N) (hwN : w < N) :
    rb.read N (c : Int) = .ok (((min c s : Nat) : Int), (rb.unread N).take (min c s),
        { rb with mSize := ((s - min c s : Nat) : Int) }) := by
  obtain ⟨k, hk⟩ : ∃ k, k = min c s := ⟨_, rfl⟩
  rw [← hk]
  have hk1 : k ≤ s := by omega
  have hclamp : min (c : Int) rb.size = (k : Int) := by rw [RingBuffer.size, hs]; omega
  have h0 : (0 : Int) = ((0 : Nat) : Int) := rfl
  unfold RingBuffer.read
  simp only []
  rw [hclamp, h0, read_index_spec N rb s w 0 hs hw hsN (by omega)]
  simp only [Nat.add_zero]
  obtain ⟨r, hr⟩ : ∃ r, r = (if s ≤ w then w - s else w + N - s) := ⟨_, rfl⟩
  rw [← hr]
  have hrN : r < N := by rw [hr]; split_ifs <;> omega
  have hr2 : (s ≤ w ∧ r + s = w) ∨ (w < s ∧ r + s = w + N) := by
    rw [hr]; split_ifs <;> omega
  rw [if_neg (by omega), if_neg (by omega)]
  have hsize : rb.mSize - (k : Int) = ((s - k : Nat) : Int) := by rw [hs]; omega
  have hlist : ∀ l : List α, (∀ j, l[j]? = if j < k then
      some (rb.mBuffer (if s ≤ w + j then w + j - s else w + N + j - s)) else none) →
      l = (rb.unread N).take k := by
    intro l hl
    apply List.ext_getElem?
    intro j
    rw [hl j, List.getElem?_take, unread_getElem? N s w rb hs hw hsN hwN j]
    by_cases hj : j < k
    · rw [if_pos hj, if_pos hj, if_pos (show j < s by omega)]
    · rw [if_neg hj, if_neg hj]
  by_cases hb : k ≤ N - r
  · have hmax : min (k : Int) ((N : Int) - (r : Int)) = (k : Int) := by omega
    rw [hmax, if_pos (le_refl _), memcpyFrom_ok N rb.mBuffer r k (by omega)]
    simp only []
    rw [hsize, if_pos (by omega)]
    congr 3
    apply hlist
    intro j
    rw [map_range_getElem?]
    by_cases hj : j < k
    · rw [if_pos hj, if_pos hj]
      congr 2
      rcases hr2 with h | h <;> split_ifs <;> omega
    · rw [if_neg hj, if_neg hj]
  · have hmax : min (k : Int) ((N : Int) - (r : Int)) = ((N - r : Nat) : Int) := by omega
    have e : (k : Int) - ((N - r : Nat) : Int) = ((k - (N - r) : Nat) : Int) := by omega
    have h2 := memcpyFrom_ok N rb.mBuffer 0 (k - (N - r)) (by omega)
    rw [hmax, if_neg (by omega), memcpyFrom_ok N rb.mBuffer r (N - r) (by omega), e]
    simp only []
    rw [h2]
    simp only []
    rw [hsize, if_pos (by omega)]
    congr 3
    apply hlist
    intro j
    by_cases hj1 : j < N - r
    · rw [List.getElem?_append_left (by simpa using hj1), map_range_getElem?, if_pos hj1,
        if_pos (by omega)]
      congr 2
      rcases hr2 with h | h <;> split_ifs <;> omega
    · rw [List.getElem?_append_right (by simp; omega), map_range_getElem?]
      simp only [List.length_map, List.length_range]
      by_cases hj : j < k
      · rw [if_pos (by omega), if_pos hj]
        congr 2
        rcases hr2 with h | h <;> split_ifs <;> omega
      · rw [if_neg (by omega), if_neg hj]

/-- Removing the `k` oldest elements: the unread elements of the buffer whose
size is reduced by `k` are the unread elements without the first `k`. -/
theorem unread_drop (N : Nat) (rb : RingBuffer α) (s k : Nat) (hs : rb.mSize = (s : Int))
    (hsN : s ≤ N) (hk : k ≤ s) :
    RingBuffer.unread N { rb with mSize := ((s - k : Nat) : Int) } = (rb.unread N).drop k := by
  apply List.ext_getElem?
  intro j
  unfold RingBuffer.unread
  rw [List.getElem?_drop, map_range_getElem?, map_range_getElem?, hs]
  simp only [Int.toNat_ofNat]
  by_cases hj : j < s - k
  · rw [if_pos hj, if_pos (by omega)]
    congr 3
    omega
  · rw [if_neg hj, if_neg (by omega)]

/-- The pointer read on a buffer that satisfies the invariant: with something to
deliver it returns the cell of the oldest unread element and consumes the
`min (min c s) (N - readIndex)` elements that lie contiguously from there. -/
theorem read_ptr_spec (N : Nat) (rb : RingBuffer α) (s w c : Nat)
    (hs : rb.mSize = (s : Int)) (hw : rb.mWriteIndex = (w : Int)) (hsN : s ≤ N) (hwN : w < N) :
    ∃ (p : Option Nat) (n : Nat),
      rb.read_ptr N (c : Int) = .ok (p, (n : Int), { rb with mSize := ((s - n : Nat) : Int) })
      ∧ n ≤ min c s ∧ (min c s = 0 → p = none ∧ n = 0) ∧ (0 < min c s → p ≠ none ∧ 0 < n)
      ∧ rb.cells p (n : Int) = (rb.unread N).take n := by
  obtain ⟨k, hk⟩ : ∃ k, k = min c s := ⟨_, rfl⟩
  rw [← hk]
  have hk1 : k ≤ s := by omega
  have hclamp : min (c : Int) rb.size = (k : Int) := by rw [RingBuffer.size, hs]; omega
  have h0 : (0 : Int) = ((0 : Nat) : Int) := rfl
  unfold RingBuffer.read_ptr
  simp only []
  rw [hclamp]
  by_cases hpos : 0 < k
  · rw [if_pos (by omega), h0, read_index_spec N rb s w 0 hs hw hsN (by omega)]
    simp only [Nat.add_zero]
    obtain ⟨r, hr⟩ : ∃ r, r = (if s ≤ w then w - s else w + N - s) := ⟨_, rfl⟩
    rw [← hr]
    have hrN : r < N := by rw [hr]; split_ifs <;> omega
    have hr2 : (s ≤ w ∧ r + s = w) ∨ (w < s ∧ r + s = w + N) := by
      rw [hr]; split_ifs <;> omega
    rw [if_neg (by omega), if_neg (by omega)]
    have hmin : min (k : Int) ((N : Int) - (r : Int)) = ((min k (N - r) : Nat) : Int) := by omega
    rw [hmin]
    have hsize : rb.mSize - ((min k (N - r) : Nat) : Int)
        = ((s - min k (N - r) : Nat) : Int) := by rw [hs]; omega
    rw [hsize, if_pos (by omega)]
    refine ⟨some r, min k (N - r), ?_, by omega, by omega, ?_, ?_⟩
    · simp
    · intro _
      exact ⟨by simp, by omega⟩
    · apply List.ext_getElem?
      intro j
      simp only [RingBuffer.cells, Int.toNat_ofNat]
      rw [map_range_getElem?, List.getElem?_take, unread_getElem? N s w rb hs hw hsN hwN j]
      by_cases hj : j < min k (N - r)
      · rw [if_pos hj, if_pos hj, if_pos (show j < s by omega)]
        congr 2
        rcases hr2 with h | h <;> split_ifs <;> omega
      · rw [if_neg hj, if_neg hj]
  · have hk0 : k = 0 := by omega
    rw [if_neg (by omega)]
    refine ⟨none, 0, ?_, by omega, fun _ => ⟨rfl, rfl⟩, fun h => absurd h hpos, ?_⟩
    · rw [hk0]
      simp only [Nat.sub_zero]
      rw [← hs]
    · simp [RingBuffer.cells]

/-- The single-element write on a buffer that satisfies the invariant and is not
full appends the element to the unread elements. -/
theorem writeElement_spec (N : Nat) (rb : RingBuffer α) (x : α) (s w : Nat)
    (hs : rb.mSize = (s : Int)) (hw : rb.mWriteIndex = (w : Int)) (hsN : s < N) (hwN : w < N) :
    ∃ rb1, rb.writeElement N x = .ok rb1
      ∧ rb1.mSize = ((s + 1 : Nat) : Int)
      ∧ rb1.mWriteIndex = ((if w + 1 < N then w + 1 else w + 1 - N : Nat) : Int)
      ∧ rb1.unread N = rb.unread N ++ [x] := by
  unfold RingBuffer.writeElement
  rw [if_neg (by rw [hs]; omega), if_neg (by rw [hw]; omega)]
  simp only [hs, hw, Int.toNat_ofNat]
  have h1 : (s : Int) + 1 = ((s + 1 : Nat) : Int) := by omega
  have h2 : (if (N : Int) ≤ (w : Int) + 1 then (w : Int) + 1 - (N : Int) else (w : Int) + 1)
      = ((if w + 1 < N then w + 1 else w + 1 - N : Nat) : Int) := by
    split_ifs <;> omega
  rw [h1, h2]
  refine ⟨_, rfl, rfl, rfl, ?_⟩
  refine unread_append N s w 1 rb
    { mBuffer := Function.update rb.mBuffer w x, mSize := ((s + 1 : Nat) : Int),
      mWriteIndex := ((if w + 1 < N then w + 1 else w + 1 - N : Nat) : Int) }
    [x] hs hw (by omega) hwN rfl rfl rfl ?_ ?_
  · intro k hk
    have hk0 : k = 0 := by omega
    subst hk0
    show [x][0]? = some (Function.update rb.mBuffer w x (if w + 0 < N then w + 0 else w + 0 - N))
    rw [if_pos (show w + 0 < N by omega), Nat.add_zero, Function.update_same]
    rfl
  · intro p hp hnot
    simp only []
    rw [Function.update_noteq]
    omega

/-- The bulk write on a buffer that satisfies the invariant appends the accepted
elements, the first `min c (N - s)` of the input, to the unread elements. -/
theorem write_unread (N : Nat) (rb : RingBuffer α) (data : List α) (s w : Nat)
    (hs : rb.mSize = (s : Int)) (hw : rb.mWriteIndex = (w : Int)) (hsN : s ≤ N) (hwN : w < N) :
    ∃ (rb1 : RingBuffer α) (w1 : Nat),
      rb.write N data = .ok (((min data.length (N - s) : Nat) : Int), rb1)
      ∧ rb1.mSize = ((s + min data.length (N - s) : Nat) : Int)
      ∧ rb1.mWriteIndex = (w1 : Int) ∧ w1 < N
      ∧ rb1.unread N = rb.unread N ++ data.take (min data.length (N - s)) := by
  obtain ⟨rb1, h1, h2, h3, h4, h5⟩ := write_spec N rb data s w hs hw hsN hwN
  refine ⟨rb1, _, h1, h2, h3, by split_ifs <;> omega, ?_⟩
  refine unread_append N s w (min data.length (N - s)) rb rb1 _ hs hw (by omega) hwN
    (by rw [List.length_take]; omega) h2 h3 ?_ h5
  intro k hk
  rw [List.getElem?_take, if_pos hk]
  exact h4 k hk

theorem ringInv_of_nat (N s w : Nat) (rb : RingBuffer α) (hs : rb.mSize = (s : Int))
    (hw : rb.mWriteIndex = (w : Int)) (hsN : s ≤ N) (hwN : w < N) : RingInv N rb := by
  unfold RingInv
  rw [hs, hw]
  omega

/-- C14: on a ring buffer of capacity `N` that satisfies the invariant and holds
`s` unread elements (what a read of `s` elements delivers), a bulk write of
`data` writes back the count `min c (N - s)`, with `c` the length of `data`,
which is less than `c` when `c > N - s`; the size becomes `s + min c (N - s)`;
the unread elements become the old ones followed by the first `min c (N - s)`
elements of `data`, and every later read delivers a prefix of that list and
leaves the rest unread. -/
theorem bulk_write_truncates_and_keeps_unread (N : Nat) (rb : RingBuffer α) (data : List α)
    (s : Nat) (hinv : RingInv N rb) (hs : rb.mSize = (s : Int)) :
    ∃ (rb0 rb1 : RingBuffer α),
      rb.read N (s : Int) = .ok ((s : Int), rb.unread N, rb0)
      ∧ rb.write N data = .ok (((min data.length (N - s) : Nat) : Int), rb1)
      ∧ (N - s < data.length → min data.length (N - s) < data.length)
      ∧ rb1.mSize = ((s + min data.length (N - s) : Nat) : Int)
      ∧ RingInv N rb1
      ∧ rb1.unread N = rb.unread N ++ data.take (min data.length (N - s))
      ∧ ∀ n : Nat, ∃ rb2 : RingBuffer α,
          rb1.read N (n : Int)
            = .ok (((min n (s + min data.length (N - s)) : Nat) : Int),
                (rb.unread N ++ data.take (min data.length (N - s))).take
                  (min n (s + min data.length (N - s))), rb2)
          ∧ RingInv N rb2
          ∧ rb2.unread N = (rb.unread N ++ data.take (min data.length (N - s))).drop
              (min n (s + min data.length (N - s))) := by
  obtain ⟨s0, w, hs0, hw, hsN, hwN⟩ := ringInv_nat N rb hinv
  have e : s0 = s := by omega
  subst e
  obtain ⟨rb1, w1, h1, h2, h3, h4, h5⟩ := write_unread N rb data s0 w hs hw hsN hwN
  have hread := read_spec N rb s0 w s0 hs hw hsN hwN
  have hlen : (rb.unread N).length = s0 := by rw [unread_length, hs]; simp
  rw [Nat.min_self, List.take_of_length_le (by omega)] at hread
  refine ⟨_, rb1, hread, h1, by omega, h2, ringInv_of_nat N _ w1 rb1 h2 h3 (by omega) h4, h5, ?_⟩
  intro n
  have hr1 := read_spec N rb1 (s0 + min data.length (N - s0)) w1 n h2 h3 (by omega) h4
  rw [h5] at hr1
  refine ⟨_, hr1, ringInv_of_nat N (s0 + min data.length (N - s0)
      - min n (s0 + min data.length (N - s0))) w1 _ rfl h3 (by omega) h4, ?_⟩
  rw [unread_drop N rb1 _ _ h2 (by omega) (by omega), h5]

theorem bulk_write_truncates_and_keeps_unread_witness :
    (RingInv 4 ringWrapped ∧ ringWrapped.mSize = ((1 : Nat) : Int)) ∧
    ∃ (rb0 rb1 : RingBuffer Int),
      ringWrapped.read 4 ((1 : Nat) : Int) = .ok (((1 : Nat) : Int), [7], rb0)
      ∧ ringWrapped.write 4 [8, 9, 10, 11] = .ok (((3 : Nat) : Int), rb1)
      ∧ (4 - 1 < 4 → 3 < 4)
      ∧ rb1.mSize = ((4 : Nat) : Int)
      ∧ RingInv 4 rb1
      ∧ rb1.unread 4 = [7, 8, 9, 10]
      ∧ ∀ n : Nat, ∃ rb2 : RingBuffer Int,
          rb1.read 4 (n : Int)
            = .ok (((min n 4 : Nat) : Int), ([7, 8, 9, 10] : List Int).take (min n 4), rb2)
          ∧ RingInv 4 rb2
          ∧ rb2.unread 4 = ([7, 8, 9, 10] : List Int).drop (min n 4) :=
  ⟨⟨by unfold RingInv; decide, rfl⟩,
    bulk_write_truncates_and_keeps_unread 4 ringWrapped [8, 9, 10, 11] 1
      (by unfold RingInv; decide) rfl⟩

/-- C16: on a ring buffer of capacity `N` that satisfies the invariant and holds
no unread element, whatever its write index, a bulk write of `xs`, of length
`n ≤ N`, writes back `n`; a bulk read of `n` elements then writes back `n`,
delivers exactly `xs` and leaves the size 0. -/
theorem bulk_write_then_read_round_trip (N : Nat) (rb : RingBuffer α) (xs : List α)
    (hinv : RingInv N rb) (hempty : rb.mSize = 0) (hn : xs.length ≤ N) :
    ∃ (rb1 rb2 : RingBuffer α),
      rb.write N xs = .ok ((xs.length : Int), rb1)
      ∧ rb1.read N (xs.length : Int) = .ok ((xs.length : Int), xs, rb2)
      ∧ rb2.mSize = 0 := by
  obtain ⟨s0, w, hs0, hw, hsN, hwN⟩ := ringInv_nat N rb hinv
  have e : s0 = 0 := by omega
  subst e
  obtain ⟨rb1, w1, h1, h2, h3, h4, h5⟩ := write_unread N rb xs 0 w hs0 hw hsN hwN
  have hc : min xs.length (N - 0) = xs.length := by omega
  have hu : rb.unread N = [] := by
    apply List.eq_nil_of_length_eq_zero
    rw [unread_length, hs0]
    rfl
  rw [hc] at h1 h2 h5
  rw [hu, List.take_of_length_le (le_refl _), List.nil_append] at h5
  rw [Nat.zero_add] at h2
  have hread := read_spec N rb1 xs.length w1 xs.length h2 h3 hn h4
  rw [Nat.min_self, h5, List.take_of_length_le (le_refl _), Nat.sub_self] at hread
  exact ⟨rb1, _, h1, hread, rfl⟩

theorem bulk_write_then_read_round_trip_witness :
    (RingInv 4 ringEmptyAt3 ∧ ringEmptyAt3.mSize = 0 ∧ [1, 2, 3].length ≤ 4) ∧
    ∃ (rb1 rb2 : RingBuffer Int),
      ringEmptyAt3.write 4 [1, 2, 3] = .ok (3, rb1)
      ∧ rb1.read 4 3 = .ok (3, [1, 2, 3], rb2)
      ∧ rb2.mSize = 0 :=
  ⟨⟨by unfold RingInv; decide, rfl, by decide⟩,
    bulk_write_then_read_round_trip 4 ringEmptyAt3 [1, 2, 3] (by unfold RingInv; decide) rfl
      (by decide)⟩

/-- C17: on a ring buffer that satisfies the invariant and holds `s` unread
elements, `read` with the count `c` writes back `min c s`, delivers the
`min c s` oldest unread elements in order and leaves the size `s - min c s`;
`read_ptr` writes back a count `n ≤ min c s`, the `n` cells from the returned
pointer on are the `n` oldest unread elements in order, the size becomes
`s - n`, and the count is 0, and the pointer null, exactly when `min c s = 0`.
After both, the unread elements are the old ones without those delivered. -/
theorem reads_consume_oldest_unread (N : Nat) (rb : RingBuffer α) (s c : Nat)
    (hinv : RingInv N rb) (hs : rb.mSize = (s : Int)) :
    (∃ rb1 : RingBuffer α,
      rb.read N (c : Int) = .ok (((min c s : Nat) : Int), (rb.unread N).take (min c s), rb1)
      ∧ rb1.mSize = (s : Int) - ((min c s : Nat) : Int)
      ∧ rb1.unread N = (rb.unread N).drop (min c s))
    ∧ (∃ (p : Option Nat) (n : Nat) (rb1 : RingBuffer α),
      rb.read_ptr N (c : Int) = .ok (p, (n : Int), rb1)
      ∧ n ≤ min c s
      ∧ rb1.mSize = (s : Int) - (n : Int)
      ∧ rb.cells p (n : Int) = (rb.unread N).take n
      ∧ rb1.unread N = (rb.unread N).drop n
      ∧ (n = 0 ↔ min c s = 0) ∧ (p = none ↔ min c s = 0)) := by
  obtain ⟨s0, w, hs0, hw, hsN, hwN⟩ := ringInv_nat N rb hinv
  have e : s0 = s := by omega
  subst e
  constructor
  · exact ⟨_, read_spec N rb s0 w c hs hw hsN hwN, by simp only []; omega,
      unread_drop N rb s0 (min c s0) hs hsN (by omega)⟩
  · obtain ⟨p, n, h1, h2, h3, h4, h5⟩ := read_ptr_spec N rb s0 w c hs hw hsN hwN
    refine ⟨p, n, _, h1, h2, by simp only []; omega, h5,
      unread_drop N rb s0 n hs hsN (by omega), ?_, ?_⟩
    · constructor
      · intro hn
        by_contra hne
        have := (h4 (by omega)).2
        omega
      · intro h0
        exact (h3 h0).2
    · constructor
      · intro hp
        by_contra hne
        exact (h4 (by omega)).1 hp
      · intro h0
        exact (h3 h0).1

theorem reads_consume_oldest_unread_witness :
    (RingInv 4 ringThree ∧ ringThree.mSize = ((3 : Nat) : Int)) ∧
    (∃ rb1 : RingBuffer Int,
      ringThree.read 4 ((2 : Nat) : Int) = .ok (((2 : Nat) : Int), [1, 2], rb1)
      ∧ rb1.mSize = ((3 : Nat) : Int) - ((2 : Nat) : Int)
      ∧ rb1.unread 4 = [3])
    ∧ (∃ (p : Option Nat) (n : Nat) (rb1 : RingBuffer Int),
      ringThree.read_ptr 4 ((2 : Nat) : Int) = .ok (p, (n : Int), rb1)
      ∧ n ≤ 2
      ∧ rb1.mSize = ((3 : Nat) : Int) - (n : Int)
      ∧ ringThree.cells p (n : Int) = (ringThree.unread 4).take n
      ∧ rb1.unread 4 = (ringThree.unread 4).drop n
      ∧ (n = 0 ↔ min 2 3 = 0) ∧ (p = none ↔ min 2 3 = 0)) :=
  ⟨⟨by unfold RingInv; decide, rfl⟩,
    reads_consume_oldest_unread 4 ringThree 3 2 (by unfold RingInv; decide) rfl⟩

/-- C15, as stated: after the writes of 1 and then 2 to an empty buffer of
capacity 2, `peek_at 0` returns 1, the older element, and `peek_at 1` returns
2, the most recently written one. -/
theorem peek_at_zero_returns_oldest :
    ∃ (rb1 rb2 : RingBuffer Int),
      (RingBuffer.ctor (fun _ => (0 : Int))).writeElement 2 1 = .ok rb1
      ∧ rb1.writeElement 2 2 = .ok rb2
      ∧ rb2.size = 2
      ∧ rb2.peek_at 2 0 = .ok 1
      ∧ rb2.peek_at 2 1 = .ok 2 :=
  ⟨_, _, rfl, rfl, rfl, rfl, rfl⟩

/-- C15, amended: on a ring buffer that satisfies the invariant and holds `s`
unread elements, after a single-element write (when `s < N`) and after a bulk
write that accepts at least one element, `peek_at i` for `i` below the new
size returns the element at position `i` of the old unread elements followed
by the accepted ones, so the index runs forward from the oldest unread
element; the element written `j` positions before the newest is at the index
`size - 1 - j`, and the most recently written one at `size - 1`. -/
theorem peek_at_indexes_from_oldest (N : Nat) (rb : RingBuffer α) (s : Nat)
    (hinv : RingInv N rb) (hs : rb.mSize = (s : Int)) :
    (∀ x : α, s < N → ∃ rb1 : RingBuffer α,
      rb.writeElement N x = .ok rb1
      ∧ rb1.size = ((s + 1 : Nat) : Int)
      ∧ (∀ i, i < s + 1 → ∃ y, rb1.peek_at N (i : Int) = .ok y
          ∧ (rb.unread N ++ [x])[i]? = some y)
      ∧ (∀ j, j < s + 1 → ∃ y, rb1.peek_at N ((s + 1 - 1 - j : Nat) : Int) = .ok y
          ∧ (rb.unread N ++ [x]).reverse[j]? = some y))
    ∧ (∀ data : List α, 1 ≤ min data.length (N - s) → ∃ rb1 : RingBuffer α,
      rb.write N data = .ok (((min data.length (N - s) : Nat) : Int), rb1)
      ∧ rb1.size = ((s + min data.length (N - s) : Nat) : Int)
      ∧ (∀ i, i < s + min data.length (N - s) → ∃ y, rb1.peek_at N (i : Int) = .ok y
          ∧ (rb.unread N ++ data.take (min data.length (N - s)))[i]? = some y)
      ∧ (∀ j, j < s + min data.length (N - s) →
          ∃ y, rb1.peek_at N ((s + min data.length (N - s) - 1 - j : Nat) : Int) = .ok y
          ∧ (rb.unread N ++ data.take (min data.length (N - s))).reverse[j]? = some y)) := by
  obtain ⟨s0, w, hs0, hw, hsN, hwN⟩ := ringInv_nat N rb hinv
  have e : s0 = s := by omega
  subst e
  have key : ∀ (rb1 : RingBuffer α) (k w1 : Nat) (acc : List α), rb1.mSize = ((s0 + k : Nat) : Int) →
      rb1.mWriteIndex = (w1 : Int) → s0 + k ≤ N → w1 < N → acc.length = k →
      rb1.unread N = rb.unread N ++ acc →
      (∀ i, i < s0 + k → ∃ y, rb1.peek_at N (i : Int) = .ok y
          ∧ (rb.unread N ++ acc)[i]? = some y)
      ∧ (∀ j, j < s0 + k → ∃ y, rb1.peek_at N ((s0 + k - 1 - j : Nat) : Int) = .ok y
          ∧ (rb.unread N ++ acc).reverse[j]? = some y) := by
    intro rb1 k w1 acc h1 h2 h3 h4 h5 h6
    have hfwd : ∀ i, i < s0 + k → ∃ y, rb1.peek_at N (i : Int) = .ok y
        ∧ (rb.unread N ++ acc)[i]? = some y := by
      intro i hi
      obtain ⟨y, hy1, hy2⟩ := peek_at_spec N rb1 (s0 + k) w1 i h1 h2 h3 h4 hi
      exact ⟨y, hy1, by rw [← h6]; exact hy2⟩
    refine ⟨hfwd, ?_⟩
    intro j hj
    obtain ⟨y, hy1, hy2⟩ := hfwd (s0 + k - 1 - j) (by omega)
    have hlen : (rb.unread N ++ acc).length = s0 + k := by
      rw [List.length_append, unread_length, hs, h5]; simp
    refine ⟨y, hy1, ?_⟩
    rw [List.getElem?_reverse (by omega), hlen]
    exact hy2
  constructor
  · intro x hsx
    obtain ⟨rb1, h1, h2, h3, h4⟩ := writeElement_spec N rb x s0 w hs hw hsx hwN
    exact ⟨rb1, h1, h2, key rb1 1 _ [x] h2 h3 (by omega) (by split_ifs <;> omega) rfl h4⟩
  · intro data hc
    obtain ⟨rb1, w1, h1, h2, h3, h4, h5⟩ := write_unread N rb data s0 w hs hw hsN hwN
    exact ⟨rb1, h1, h2, key rb1 _ w1 _ h2 h3 (by omega) h4
      (by rw [List.length_take]; omega) h5⟩

theorem peek_at_indexes_from_oldest_witness :
    (RingInv 4 ringWrapped ∧ ringWrapped.mSize = ((1 : Nat) : Int)) ∧
    (∀ x : Int, 1 < 4 → ∃ rb1 : RingBuffer Int,
      ringWrapped.writeElement 4 x = .ok rb1
      ∧ rb1.size = ((1 + 1 : Nat) : Int)
      ∧ (∀ i : Nat, i < 1 + 1 → ∃ y, rb1.peek_at 4 (i : Int) = .ok y
          ∧ ([7] ++ [x] : List Int)[i]? = some y)
      ∧ (∀ j : Nat, j < 1 + 1 → ∃ y, rb1.peek_at 4 ((1 + 1 - 1 - j : Nat) : Int) = .ok y
          ∧ ([7] ++ [x] : List Int).reverse[j]? = some y))
    ∧ (∀ data : List Int, 1 ≤ min data.length (4 - 1) → ∃ rb1 : RingBuffer Int,
      ringWrapped.write 4 data = .ok (((min data.length (4 - 1) : Nat) : Int), rb1)
      ∧ rb1.size = ((1 + min data.length (4 - 1) : Nat) : Int)
      ∧ (∀ i : Nat, i < 1 + min data.length (4 - 1) → ∃ y, rb1.peek_at 4 (i : Int) = .ok y
          ∧ ([7] ++ data.take (min data.length (4 - 1)) : List Int)[i]? = some y)
      ∧ (∀ j : Nat, j < 1 + min data.length (4 - 1) →
          ∃ y, rb1.peek_at 4 ((1 + min data.length (4 - 1) - 1 - j : Nat) : Int) = .ok y
          ∧ ([7] ++ data.take (min data.length (4 - 1)) : List Int).reverse[j]? = some y)) :=
  ⟨⟨by unfold RingInv; decide, rfl⟩,
    peek_at_indexes_from_oldest 4 ringWrapped 1 (by unfold RingInv; decide) rfl⟩

theorem readElement_spec (N : Nat) (rb : RingBuffer α) (s w : Nat)
    (hs : rb.mSize = (s : Int)) (hw : rb.mWriteIndex = (w : Int)) (hsN : s ≤ N) (hwN : w < N)
    (hpos : 0 < s) :
    ∃ x, rb.readElement N = .ok (x, { rb with mSize := ((s - 1 : Nat) : Int) }) := by
  have h0 : (0 : Int) = ((0 : Nat) : Int) := rfl
  unfold RingBuffer.readElement
  rw [if_neg (by rw [hs]; omega), h0, read_index_spec N rb s w 0 hs hw hsN (by omega)]
  simp only []
  rw [if_pos (by split_ifs <;> omega)]
  have e : rb.mSize - 1 = ((s - 1 : Nat) : Int) := by rw [hs]; omega
  rw [e]
  exact ⟨_, rfl⟩

theorem run_append (N : Nat) (ops : List (RingOp α)) (op : RingOp α) (rb0 rb rb1 : RingBuffer α)
    (h : rb0.run N ops = .ok rb) (h1 : rb.step N op = .ok rb1) :
    rb0.run N (ops ++ [op]) = .ok rb1 := by
  induction ops generalizing rb0 with
  | nil =>
    simp only [RingBuffer.run] at h
    cases h
    simp [RingBuffer.run, h1]
  | cons o os ih =>
    simp only [RingBuffer.run, List.cons_append] at h ⊢
    cases hstep : rb0.step N o with
    | error e => rw [hstep] at h; cases h
    | ok rb2 =>
      rw [hstep] at h
      simp only [] at h ⊢
      exact ih rb2 h

/-- Every call whose precondition holds returns, on a buffer that satisfies the
invariant, a buffer that satisfies it. -/
theorem step_ok (N : Nat) (rb : RingBuffer α) (hinv : RingInv N rb) (op : RingOp α)
    (hpre : op.pre N rb) : ∃ rb1, rb.step N op = .ok rb1 ∧ RingInv N rb1 := by
  obtain ⟨s, w, hs, hw, hsN, hwN⟩ := ringInv_nat N rb hinv
  cases op with
  | write data =>
    obtain ⟨rb1, w1, h1, h2, h3, h4, _⟩ := write_unread N rb data s w hs hw hsN hwN
    refine ⟨rb1, ?_, ringInv_of_nat N _ w1 rb1 h2 h3 (by omega) h4⟩
    simp [RingBuffer.step, h1]
  | writeElement x =>
    have hlt : s < N := by
      have : rb.mSize < (N : Int) := hpre
      omega
    obtain ⟨rb1, h1, h2, h3, _⟩ := writeElement_spec N rb x s w hs hw hlt hwN
    exact ⟨rb1, h1, ringInv_of_nat N _ _ rb1 h2 h3 (by omega) (by split_ifs <;> omega)⟩
  | read count =>
    have hc : 0 ≤ count := hpre
    obtain ⟨c, hc1⟩ := Int.eq_ofNat_of_zero_le hc
    subst hc1
    have h1 := read_spec N rb s w c hs hw hsN hwN
    refine ⟨{ rb with mSize := ((s - min c s : Nat) : Int) }, ?_,
      ringInv_of_nat N (s - min c s) w _ rfl hw (by omega) hwN⟩
    simp [RingBuffer.step, h1]
  | read_ptr count =>
    by_cases hc : 0 ≤ count
    · obtain ⟨c, hc1⟩ := Int.eq_ofNat_of_zero_le hc
      subst hc1
      obtain ⟨p, n, h1, h2, _⟩ := read_ptr_spec N rb s w c hs hw hsN hwN
      refine ⟨{ rb with mSize := ((s - n : Nat) : Int) }, ?_,
        ringInv_of_nat N (s - n) w _ rfl hw (by omega) hwN⟩
      simp [RingBuffer.step, h1]
    · refine ⟨rb, ?_, hinv⟩
      simp only [RingBuffer.step, RingBuffer.read_ptr]
      rw [if_neg (by rw [RingBuffer.size, hs]; omega)]
  | readElement =>
    have hpos : 0 < s := by
      have : 0 < rb.mSize := hpre
      omega
    obtain ⟨x, h1⟩ := readElement_spec N rb s w hs hw hsN hwN hpos
    refine ⟨{ rb with mSize := ((s - 1 : Nat) : Int) }, ?_,
      ringInv_of_nat N (s - 1) w _ rfl hw (by omega) hwN⟩
    simp [RingBuffer.step, h1]

/-- A call that returns, on a buffer that satisfies the invariant, was made with
its precondition: the single write and the single read assert theirs, and a
bulk read with a negative count copies a negative number of cells. -/
theorem step_pre (N : Nat) (rb rb1 : RingBuffer α) (hinv : RingInv N rb) (op : RingOp α)
    (h : rb.step N op = .ok rb1) : op.pre N rb := by
  obtain ⟨s, w, hs, hw, hsN, hwN⟩ := ringInv_nat N rb hinv
  cases op with
  | write data => trivial
  | read_ptr count => trivial
  | writeElement x =>
    show rb.mSize < (N : Int)
    by_contra hne
    simp only [RingBuffer.step, RingBuffer.writeElement] at h
    rw [if_pos (by omega)] at h
    cases h
  | readElement =>
    show 0 < rb.mSize
    by_contra hne
    simp only [RingBuffer.step, RingBuffer.readElement] at h
    rw [if_pos hne] at h
    cases h
  | read count =>
    show 0 ≤ count
    by_contra hne
    have h0 : (0 : Int) = ((0 : Nat) : Int) := rfl
    have hclamp : min count rb.size = count := by rw [RingBuffer.size, hs]; omega
    simp only [RingBuffer.step, RingBuffer.read] at h
    rw [hclamp, h0, read_index_spec N rb s w 0 hs hw hsN (by omega)] at h
    simp only [Nat.add_zero] at h
    obtain ⟨r, hr⟩ : ∃ r, r = (if s ≤ w then w - s else w + N - s) := ⟨_, rfl⟩
    rw [← hr] at h
    have hrN : r < N := by rw [hr]; split_ifs <;> omega
    have hmax : min count ((N : Int) - (r : Int)) = count := by omega
    rw [if_neg (by omega), if_neg (by omega), hmax, if_pos (le_refl _)] at h
    have hcopy : memcpyFrom N rb.mBuffer (r : Int) count = .error .outOfBounds := by
      unfold memcpyFrom
      rw [if_neg (by omega)]
    rw [hcopy] at h
    cases h

/-- Every buffer a run of calls without fault leaves, from a buffer that
satisfies the invariant, satisfies it. -/
theorem run_inv (N : Nat) (ops : List (RingOp α)) (rb0 rb : RingBuffer α)
    (h0 : RingInv N rb0) (h : rb0.run N ops = .ok rb) : RingInv N rb := by
  induction ops generalizing rb0 with
  | nil =>
    simp only [RingBuffer.run] at h
    cases h
    exact h0
  | cons o os ih =>
    simp only [RingBuffer.run] at h
    cases hstep : rb0.step N o with
    | error e => rw [hstep] at h; cases h
    | ok rb2 =>
      rw [hstep] at h
      obtain ⟨rb3, h3, hinv3⟩ := step_ok N rb0 h0 o (step_pre N rb0 rb2 h0 o hstep)
      rw [hstep] at h3
      cases h3
      exact ih rb2 hinv3 h

theorem read_index_range (N : Nat) (rb : RingBuffer α) (hinv : RingInv N rb) (i : Int)
    (h0 : 0 ≤ i) (h1 : i ≤ rb.size) :
    ∃ r, rb.read_index N i = .ok r ∧ 0 ≤ r ∧ r < (N : Int) := by
  obtain ⟨s, w, hs, hw, hsN, hwN⟩ := ringInv_nat N rb hinv
  obtain ⟨k, hk⟩ := Int.eq_ofNat_of_zero_le h0
  subst hk
  rw [RingBuffer.size, hs] at h1
  refine ⟨_, read_index_spec N rb s w k hs hw hsN (by omega), by omega, ?_⟩
  split_ifs <;> omega

/-- C21, as stated: on the empty buffer of capacity 4 the bulk read with the
count -1 does not return: it copies a negative number of cells out of the
array. -/
theorem bulk_read_with_negative_count_faults :
    RingInv 4 (RingBuffer.ctor (fun _ => (0 : Int)))
      ∧ (RingBuffer.ctor (fun _ => (0 : Int))).read 4 (-1) = .error .outOfBounds :=
  ⟨by unfold RingInv; decide, rfl⟩

/-- C21, amended: for a capacity `N ≥ 1`, every buffer that a run of calls
without fault leaves from the empty buffer satisfies `0 ≤ size ≤ N` and
`0 ≤ write index < N`; on it every call (the bulk write, the single write when
`size < N`, the bulk read with a count `≥ 0`, the pointer read with any count,
the single read when `0 < size`) returns without fault a buffer that satisfies
the invariant again, which extends the run; and `read_index i` for
`0 ≤ i ≤ size` returns an index in `[0, N)`. -/
theorem ring_invariant_preserved (N : Nat) (mem : Nat → α) (ops : List (RingOp α))
    (rb : RingBuffer α) (hN : 0 < N) (hrun : (RingBuffer.ctor mem).run N ops = .ok rb) :
    RingInv N rb
    ∧ (∀ op : RingOp α, op.pre N rb → ∃ rb1 : RingBuffer α,
        rb.step N op = .ok rb1 ∧ RingInv N rb1
        ∧ (RingBuffer.ctor mem).run N (ops ++ [op]) = .ok rb1)
    ∧ (∀ i : Int, 0 ≤ i → i ≤ rb.size →
        ∃ r, rb.read_index N i = .ok r ∧ 0 ≤ r ∧ r < (N : Int)) := by
  have hctor : RingInv N (RingBuffer.ctor mem) := by
    unfold RingInv RingBuffer.ctor
    simp only []
    omega
  have hinv : RingInv N rb := run_inv N ops _ rb hctor hrun
  refine ⟨hinv, ?_, read_index_range N rb hinv⟩
  intro op hpre
  obtain ⟨rb1, h1, h2⟩ := step_ok N rb hinv op hpre
  exact ⟨rb1, h1, h2, run_append N ops op _ rb rb1 hrun h1⟩

theorem ring_invariant_preserved_witness :
    (0 < 4 ∧ (RingBuffer.ctor (fun _ => (0 : Int))).run 4 sampleOps = .ok ringAfterOps) ∧
    RingInv 4 ringAfterOps
    ∧ (∀ op : RingOp Int, op.pre 4 ringAfterOps → ∃ rb1 : RingBuffer Int,
        ringAfterOps.step 4 op = .ok rb1 ∧ RingInv 4 rb1
        ∧ (RingBuffer.ctor (fun _ => (0 : Int))).run 4 (sampleOps ++ [op]) = .ok rb1)
    ∧ (∀ i : Int, 0 ≤ i → i ≤ ringAfterOps.size →
        ∃ r, ringAfterOps.read_index 4 i = .ok r ∧ 0 ≤ r ∧ r < ((4 : Nat) : Int)) :=
  ⟨⟨by decide, rfl⟩,
    ring_invariant_preserved 4 (fun _ => (0 : Int)) sampleOps ringAfterOps (by decide) rfl⟩

theorem mixSamples_odd [Add α] (sample : Nat → α) (cap step : Nat) :
    ∀ (n frameIdx off : Nat) (mix : Nat → α), cap - frameIdx ≤ step - off →
      mixSamples sample cap (2 * step + 1) n frameIdx (2 * off) mix =
        mixSamples sample cap (2 * step) n frameIdx (2 * off) mix := by
  intro n
  induction n with
  | zero => intro frameIdx off mix _; rfl
  | succ n ih =>
    intro frameIdx off mix h
    unfold mixSamples
    by_cases hc : frameIdx < cap
    · have h1 : frameIdx < cap ∧ 2 * off < 2 * step + 1 := ⟨hc, by omega⟩
      have h2 : frameIdx < cap ∧ 2 * off < 2 * step := ⟨hc, by omega⟩
      have h3 : 2 * off + 1 < 2 * step + 1 := by omega
      have h4 : 2 * off + 1 < 2 * step := by omega
      have e2 : 2 * off + 2 = 2 * (off + 1) := by ring
      rw [if_pos h1, if_pos h2]
      simp only [h3, h4, if_true, e2]
      exact ih (frameIdx + 1) (off + 1) _ (by omega)
    · rw [if_neg (fun h => hc h.1), if_neg (fun h => hc h.1)]

/-- On a frame that is due and does not overrun, the guarded block does on the
odd buffer what it does on the even one. -/
theorem mixActive_odd [Add α] (cfg : Config) (step : Nat) (fr : SoundFrame α)
    (mix : Nat → α) (hcap : 0 < cfg.frameSize) (hd : -(step : Int) < fr.mDelay)
    (hno : ¬ overruns cfg.frameSize step fr.mDelay) :
    mixActive cfg step (2 * step + 1) fr mix =
      .ok (delayAfter cfg.frameSize step fr.mDelay, mixAfter cfg.frameSize step fr mix) := by
  rw [← mixActive_even cfg step fr mix hcap hd]
  unfold mixActive
  by_cases hlt : fr.mDelay < (step : Int)
  · have hroom : cfg.frameSize - fr.mDelay.toNat ≤ step - mixOffset fr.mDelay := by
      by_contra h
      exact hno ⟨hd, hlt, by omega⟩
    have hinit : (max 0 fr.mDelay).toNat = fr.mDelay.toNat := by
      rcases le_total 0 fr.mDelay with h | h
      · rw [max_eq_right h]
      · rw [max_eq_left h]; simp [Int.toNat_eq_zero.2 h]
    have hmix : (if fr.mDelay < 0 then |fr.mDelay| * 2 else 0 : Int).toNat =
        2 * mixOffset fr.mDelay := by
      unfold mixOffset
      by_cases hneg : fr.mDelay < 0
      · simp only [hneg, if_true]
        rw [Int.abs_eq_natAbs]
        have : ((fr.mDelay.natAbs : Int) * 2) = ((2 * fr.mDelay.natAbs : Nat) : Int) := by
          push_cast; ring
        rw [this, Int.toNat_natCast]
      · simp [hneg]
    simp only [hlt, if_true, hinit, hmix]
    rw [mixSamples_odd _ _ _ _ _ _ _ hroom]
  · simp [hlt]

/-- The loop over the play list on the odd buffer of `2 * step + 1` samples does
what it does on the even buffer of `2 * step` samples when no frame of the list
overruns. -/
theorem mixFrames_odd [Add α] (cfg : Config) (step : Nat) (hcap : 0 < cfg.frameSize)
    (hdev : cfg.samples % cfg.frameSize = 0) :
    ∀ (R K : List Nat) (s : SoundSystem α) (mix : Nat → α) (fuel : Nat) (p : Option Nat),
      MixInv s K p R → (∀ g ∈ R, ¬ overruns cfg.frameSize step (s.delay g)) →
      SoundSystem.mixFrames cfg step (2 * step + 1) fuel s mix p K.getLast? =
        SoundSystem.mixFrames cfg step (2 * step) fuel s mix p K.getLast? := by
  intro R
  induction R with
  | nil =>
    intro K s mix fuel p hinv _
    have hp : p = none := hinv.2.1
    subst hp
    cases fuel <;> simp [SoundSystem.mixFrames]
  | cons f R ih =>
    intro K s mix fuel p hinv hno
    have hp : p = some f := hinv.2.1.1
    subst hp
    cases fuel with
    | zero => simp [SoundSystem.mixFrames]
    | succ fuel1 =>
      have hnof : ¬ overruns cfg.frameSize step (s.mSampleFrame f).mDelay :=
        hno f (List.mem_cons_self f R)
      obtain ⟨s1, K1, heq, hK1, hinv1, _, _, hdel1, _, hkeep, hdrain⟩ :=
        mixFrames_step cfg step (2 * step + 1) hcap hdev fuel1 s mix K R f hinv
          (fun hd => mixActive_odd cfg step (s.mSampleFrame f) mix hcap hd hnof)
      obtain ⟨s3, K3, heq3, hK3, _, _, _, _, _, hkeep3, hdrain3⟩ :=
        mixFrames_step cfg step (2 * step) hcap hdev fuel1 s mix K R f hinv
          (fun hd => mixActive_even cfg step (s.mSampleFrame f) mix hcap hd)
      have hK : K3 = K1 := by rw [hK1, hK3]
      have hs : s3 = s1 := by
        by_cases hk : delayAfter cfg.frameSize step (s.delay f) < cfg.frameSize
        · rw [hkeep hk, hkeep3 hk]
        · obtain ⟨s2, h2, e2⟩ := hdrain hk
          obtain ⟨s4, h4, e4⟩ := hdrain3 hk
          rw [h2] at h4
          injection h4 with h4
          rw [e2, e4, h4]
      rw [hK, hs] at heq3
      have hfR : f ∉ R := by
        have := (List.nodup_append.1 hinv.2.2.1).2.1
        exact (List.nodup_cons.1 this).1
      rw [heq, heq3]
      refine ih K1 s1 _ fuel1 (s.next f) hinv1 (fun g hg => ?_)
      have hsame : s1.delay g = s.delay g := by
        rw [hdel1, Function.update_noteq]
        rintro rfl; exact hfR hg
      rw [hsame]
      exact hno g (List.mem_cons_of_mem _ hg)

/-- A tick of an idle system with the sample count `n` is the loop over the
play list on a zeroed buffer of `n` samples, with `n / 2` mono samples. -/
theorem update_idle_any [LinearOrderedField α] (cfg : Config) (deltaTime : α)
    (listenerDistance : α × α × α → α) (n fuel : Nat) (s : SoundSystem α)
    (hdt : 0 ≤ deltaTime) (hidle : s.Idle) :
    s.Update cfg deltaTime listenerDistance (n : Int) fuel =
      match SoundSystem.mixFrames cfg ((n / 2 : Nat) : Int) n fuel s (fun _ => 0)
          s.mPlayFrame none with
      | .error e => .error e
      | .ok (s2, mix) => .ok (s2, (List.range n).map mix) := by
  have h2 : ¬ ¬ (0 : Int) ≤ (n : Int) := by omega
  have hdiv : Int.tdiv (n : Int) 2 = ((n / 2 : Nat) : Int) := by
    rw [Int.tdiv_eq_ediv (by omega) (by omega)]; omega
  have hnat : (n : Int).toNat = n := by omega
  unfold SoundSystem.Update
  rw [if_neg (not_not.2 hdt), updateComponents_idle _ _ _ _ _ hidle]
  simp only [h2, if_false, hdiv, hnat]

theorem frameMix_odd [Add α] (cfg : Config) (step : Nat) (fr : SoundFrame α)
    (mix : Nat → α) (hcap : 0 < cfg.frameSize)
    (hno : ¬ overruns cfg.frameSize step fr.mDelay) :
    frameMix cfg step (2 * step + 1) fr mix = mixAfter cfg.frameSize step fr mix := by
  unfold frameMix
  by_cases hp : fr.mDelay ≤ -(step : Int)
  · rw [if_pos hp]; unfold mixAfter; rw [if_pos hp]
  · rw [if_neg hp, mixActive_odd cfg step fr mix hcap (not_le.1 hp) hno]

/-- A sample count `n` is `2 * (n / 2)` or `2 * (n / 2) + 1`; with no frame that
overruns in the second case, the body of the loop does on the buffer of `n`
samples what `mixAfter` says. -/
theorem frameMix_any [Add α] (cfg : Config) (n : Nat) (fr : SoundFrame α)
    (mix : Nat → α) (hcap : 0 < cfg.frameSize)
    (hno : n % 2 = 1 → ¬ overruns cfg.frameSize (n / 2) fr.mDelay) :
    frameMix cfg ((n / 2 : Nat) : Int) n fr mix = mixAfter cfg.frameSize (n / 2) fr mix := by
  rcases Nat.mod_two_eq_zero_or_one n with h | h
  · have e : n = 2 * (n / 2) := by omega
    rw [e]
    have e2 : 2 * (n / 2) / 2 = n / 2 := by omega
    rw [e2]
    exact frameMix_even cfg (n / 2) fr mix hcap
  · have e : n = 2 * (n / 2) + 1 := by omega
    have hno1 := hno h
    rw [e]
    have e2 : (2 * (n / 2) + 1) / 2 = n / 2 := by omega
    rw [e2]
    exact frameMix_odd cfg (n / 2) fr mix hcap hno1

theorem mixFrames_any [Add α] (cfg : Config) (n : Nat) (hcap : 0 < cfg.frameSize)
    (hdev : cfg.samples % cfg.frameSize = 0) (L : List Nat) (s : SoundSystem α)
    (mix : Nat → α) (fuel : Nat) (hinv : MixInv s [] s.mPlayFrame L)
    (hno : n % 2 = 1 → ∀ g ∈ L, ¬ overruns cfg.frameSize (n / 2) (s.delay g)) :
    SoundSystem.mixFrames cfg ((n / 2 : Nat) : Int) n fuel s mix s.mPlayFrame none =
      SoundSystem.mixFrames cfg ((n / 2 : Nat) : Int) (2 * (n / 2)) fuel s mix
        s.mPlayFrame none := by
  rcases Nat.mod_two_eq_zero_or_one n with h | h
  · have e : 2 * (n / 2) = n := by omega
    rw [e]
  · have e : n = 2 * (n / 2) + 1 := by omega
    have key := mixFrames_odd cfg (n / 2) hcap hdev L [] s mix fuel s.mPlayFrame hinv (hno h)
    rw [← e] at key
    exact key

/-- One tick of an idle system whose play list is `L`, with the device sample
count `n`, even or odd, in which no frame overruns: the tick ends without fault
and hands `tickOutput` to the device; the frames whose new delay is below the
frame capacity form the new play list. -/
theorem update_spec_any [LinearOrderedField α] (cfg : Config) (deltaTime : α)
    (listenerDistance : α × α × α → α) (n fuel : Nat) (s : SoundSystem α) (L : List Nat)
    (hcap : 0 < cfg.frameSize) (hdev : cfg.samples % cfg.frameSize = 0)
    (hdt : 0 ≤ deltaTime) (hidle : s.Idle) (hL : s.PlayList L)
    (hfree : ∀ h, s.mFreeFrame = some h → h ∉ L) (hfuel : L.length < fuel)
    (hno : n % 2 = 1 → ∀ g ∈ L, ¬ overruns cfg.frameSize (n / 2) (s.delay g)) :
    ∃ s1 mix1, s.Update cfg deltaTime listenerDistance (n : Int) fuel =
        .ok (s1, tickOutput cfg ((n / 2 : Nat) : Int) n s L) ∧
      SoundSystem.mixFrames cfg ((n / 2 : Nat) : Int) (2 * (n / 2)) fuel s (fun _ => 0)
        s.mPlayFrame none = .ok (s1, mix1) ∧
      s1.PlayList (L.filter (fun g => decide (delayAfter cfg.frameSize (n / 2) (s.delay g) <
        cfg.frameSize))) ∧
      s1.sample = s.sample ∧ s1.counter = s.counter ∧
      (∀ g ∈ L, s1.delay g = delayAfter cfg.frameSize (n / 2) (s.delay g)) ∧
      (∀ g, g ∉ L → s1.delay g = s.delay g) ∧
      s1.mComponents = s.mComponents := by
  have hinv : MixInv s [] s.mPlayFrame L :=
    ⟨rfl, hL, by simpa using seg_nodup hL, by simpa using hfree⟩
  obtain ⟨s1, hrun, hseg, hsmp, hcnt, hdel, hdelN, hcomp, _⟩ :=
    mixFrames_spec cfg (n / 2) hcap hdev L [] s (fun _ => 0) fuel s.mPlayFrame hinv hfuel
  have hrun1 : SoundSystem.mixFrames cfg ((n / 2 : Nat) : Int) (2 * (n / 2)) fuel s (fun _ => 0)
      s.mPlayFrame none = .ok (s1, L.foldl (fun m g => mixAfter cfg.frameSize (n / 2)
        (s.mSampleFrame g) m) (fun _ => 0)) := hrun
  refine ⟨s1, _, ?_, hrun1, by simpa using hseg, hsmp, hcnt, hdel, hdelN, hcomp⟩
  rw [update_idle_any cfg deltaTime listenerDistance n fuel s hdt hidle,
    mixFrames_any cfg n hcap hdev L s _ fuel hinv hno, hrun1]
  simp only [tickOutput]
  congr 3
  refine List.foldl_ext _ _ _ (fun m g hg => ?_)
  rw [frameMix_any cfg n _ _ hcap (fun h => hno h g hg)]

/-- A tick of an idle system with the device sample count `n`, even or odd, in
which no frame of the play list `L` overruns the buffer: the tick ends
without fault, and a frame of `L` whose delay is at most `-stepSize`, with
`stepSize = n / 2`, ends it with delay `delay + stepSize`, with its samples
unchanged and still in the play list; the body of the loop leaves the output
buffer, of any size, as it finds it when it runs on that frame. -/
theorem pending_frame_is_delayed [LinearOrderedField α] (cfg : Config) (deltaTime : α)
    (listenerDistance : α × α × α → α) (n fuel : Nat) (s : SoundSystem α)
    (L : List Nat) (f : Nat)
    (hcap : 0 < cfg.frameSize) (hdev : cfg.samples % cfg.frameSize = 0)
    (hdt : 0 ≤ deltaTime) (hidle : s.Idle) (hL : s.PlayList L)
    (hfree : ∀ h, s.mFreeFrame = some h → h ∉ L) (hfuel : L.length < fuel)
    (hno : n % 2 = 1 → ∀ g ∈ L, ¬ overruns cfg.frameSize (n / 2) (s.delay g))
    (hf : f ∈ L) (hd : (s.mSampleFrame f).mDelay ≤ -((n / 2 : Nat) : Int)) :
    ∃ s1, s.Update cfg deltaTime listenerDistance (n : Int) fuel =
        .ok (s1, tickOutput cfg ((n / 2 : Nat) : Int) n s L) ∧
      (s1.mSampleFrame f).mDelay = (s.mSampleFrame f).mDelay + ((n / 2 : Nat) : Int) ∧
      (s1.mSampleFrame f).mSample = (s.mSampleFrame f).mSample ∧
      s1.InPlayList f ∧
      ∀ (size : Nat) (array_mix : Nat → α),
        frameMix cfg ((n / 2 : Nat) : Int) size (s.mSampleFrame f) array_mix = array_mix := by
  obtain ⟨s1, _, hrun, _, hplay, hsmp, _, hdel, _, _⟩ :=
    update_spec_any cfg deltaTime listenerDistance n fuel s L hcap hdev hdt hidle hL hfree
      hfuel hno
  have hda : delayAfter cfg.frameSize (n / 2) (s.delay f) =
      (s.mSampleFrame f).mDelay + ((n / 2 : Nat) : Int) := by
    unfold delayAfter SoundSystem.delay; rw [if_pos hd]
  refine ⟨s1, hrun, ?_, congrFun hsmp f, ?_, ?_⟩
  · have := hdel f hf
    rw [hda] at this
    exact this
  · refine playList_inPlayList hplay (List.mem_filter.2 ⟨hf, ?_⟩)
    rw [hda]
    simp only [decide_eq_true_eq]
    omega
  · intro size array_mix
    unfold frameMix
    rw [if_pos hd]

/-- The frame of delay -5 ticked with the odd device sample count 7, so with
`stepSize = 3`, ends the tick with delay -2. -/
theorem pending_frame_is_delayed_witness :
    (0 < cfgMix.frameSize ∧ cfgMix.samples % cfgMix.frameSize = 0 ∧ (0 : ℚ) ≤ 1 ∧
      (oneFrame (-5)).Idle ∧ (oneFrame (-5)).PlayList [1] ∧
      (∀ h, (oneFrame (-5)).mFreeFrame = some h → h ∉ [1]) ∧ [1].length < 2 ∧
      (7 % 2 = 1 → ∀ g ∈ [1], ¬ overruns cfgMix.frameSize (7 / 2) ((oneFrame (-5)).delay g)) ∧
      1 ∈ [1] ∧ ((oneFrame (-5)).mSampleFrame 1).mDelay ≤ -((7 / 2 : Nat) : Int)) ∧
    ∃ s1, (oneFrame (-5)).Update cfgMix 1 nearListener ((7 : Nat) : Int) 2 =
        .ok (s1, tickOutput cfgMix ((7 / 2 : Nat) : Int) 7 (oneFrame (-5)) [1]) ∧
      (s1.mSampleFrame 1).mDelay = ((oneFrame (-5)).mSampleFrame 1).mDelay + ((7 / 2 : Nat) : Int) ∧
      (s1.mSampleFrame 1).mSample = ((oneFrame (-5)).mSampleFrame 1).mSample ∧
      s1.InPlayList 1 ∧
      ∀ (size : Nat) (array_mix : Nat → ℚ),
        frameMix cfgMix ((7 / 2 : Nat) : Int) size ((oneFrame (-5)).mSampleFrame 1) array_mix =
          array_mix :=
  have hfree : ∀ h, (oneFrame (-5)).mFreeFrame = some h → h ∉ [1] := by
    intro h hh
    have e : 0 = h := Option.some.inj hh
    subst e
    decide
  have hno : 7 % 2 = 1 → ∀ g ∈ [1],
      ¬ overruns cfgMix.frameSize (7 / 2) ((oneFrame (-5)).delay g) := by
    intro _ g hg
    have e : g = 1 := by simpa using hg
    subst e
    intro h
    exact absurd h.1 (by decide)
  ⟨⟨by decide, by decide, by norm_num, fun c hc => absurd hc (List.not_mem_nil c),
      ⟨rfl, rfl⟩, hfree, by decide, hno, by decide, by decide⟩,
    pending_frame_is_delayed cfgMix 1 nearListener 7 2 (oneFrame (-5)) [1] 1 (by decide)
      (by decide) (by norm_num) (fun c hc => absurd hc (List.not_mem_nil c)) ⟨rfl, rfl⟩ hfree
      (by decide) hno (by decide) (by decide)⟩

/-- A tick of an idle system with the device sample count `n`, even or odd, in
which no frame of the play list `L` overruns the buffer: the tick ends
without fault; the play list consists of the frames of `L` whose delay after
the tick is below the frame capacity, in their previous order; every frame of
`L` whose delay after the tick is at least the frame capacity is reachable from
the free list and no longer from the play list, and every counter has been
decremented once for each such frame that points to it; the frames keep their
counter pointers, and the output is the result of running the loop body once
on every frame of `L`. -/
theorem tick_keeps_undrained_and_releases_drained [LinearOrderedField α] (cfg : Config)
    (deltaTime : α) (listenerDistance : α × α × α → α) (n fuel : Nat)
    (s : SoundSystem α) (L : List Nat)
    (hcap : 0 < cfg.frameSize) (hdev : cfg.samples % cfg.frameSize = 0)
    (hdt : 0 ≤ deltaTime) (hidle : s.Idle) (hL : s.PlayList L)
    (hfree : ∀ h, s.mFreeFrame = some h → h ∉ L) (hfuel : L.length < fuel)
    (hno : n % 2 = 1 → ∀ g ∈ L, ¬ overruns cfg.frameSize (n / 2) (s.delay g)) :
    ∃ s1, s.Update cfg deltaTime listenerDistance (n : Int) fuel =
        .ok (s1, tickOutput cfg ((n / 2 : Nat) : Int) n s L) ∧
      s1.PlayList (L.filter (fun g => decide ((s1.mSampleFrame g).mDelay < cfg.frameSize))) ∧
      (L.filter (fun g => decide ((s1.mSampleFrame g).mDelay < cfg.frameSize))).Nodup ∧
      (∀ g ∈ L, (s1.mSampleFrame g).mDelay < cfg.frameSize → s1.InPlayList g) ∧
      (∀ g ∈ L, (cfg.frameSize : Int) ≤ (s1.mSampleFrame g).mDelay →
        s1.InFreeList g ∧ ¬ s1.InPlayList g) ∧
      (∀ g, (s1.mSampleFrame g).mCounter = (s.mSampleFrame g).mCounter) ∧
      ∀ c, s1.counters c = s.counters c -
        ((L.filter (fun g => decide ((cfg.frameSize : Int) ≤ (s1.mSampleFrame g).mDelay))).filter
          (fun g => decide ((s.mSampleFrame g).mCounter = some c))).length := by
  obtain ⟨s1, mix1, hrun, hmix, hplay, _, hcnt, hdel, _, _⟩ :=
    update_spec_any cfg deltaTime listenerDistance n fuel s L hcap hdev hdt hidle hL hfree
      hfuel hno
  have hinv : MixInv s [] s.mPlayFrame L :=
    ⟨rfl, hL, by simpa using seg_nodup hL, by simpa using hfree⟩
  obtain ⟨s2, mix2, hrun2, hF, hcounters⟩ :=
    mixFrames_released cfg (n / 2) hcap hdev L [] [] s (fun _ => 0) fuel s.mPlayFrame hinv hfuel
      (fun g hg => absurd hg (List.not_mem_nil g)) (freeHolds_nil s)
  have hs : s2 = s1 := by
    have hrun3 : SoundSystem.mixFrames cfg ((n / 2 : Nat) : Int) (2 * (n / 2)) fuel s
        (fun _ => 0) s.mPlayFrame none = .ok (s2, mix2) := hrun2
    rw [hrun3] at hmix
    injection hmix with h1
    injection h1 with h1 _
  subst hs
  have hd1 : ∀ g ∈ L, (s2.mSampleFrame g).mDelay =
      delayAfter cfg.frameSize (n / 2) (s.delay g) := hdel
  have hkeptEq : L.filter (fun g => decide ((s2.mSampleFrame g).mDelay < cfg.frameSize)) =
      L.filter (fun g => decide (delayAfter cfg.frameSize (n / 2) (s.delay g) <
        cfg.frameSize)) :=
    List.filter_congr (fun g hg => by rw [hd1 g hg])
  have hdrEq : L.filter (fun g => decide ((cfg.frameSize : Int) ≤ (s2.mSampleFrame g).mDelay)) =
      L.filter (drainedBy cfg.frameSize (n / 2) s) :=
    List.filter_congr (fun g hg => by unfold drainedBy; rw [hd1 g hg])
  have hplay2 : s2.PlayList
      (L.filter (fun g => decide ((s2.mSampleFrame g).mDelay < cfg.frameSize))) := by
    rw [hkeptEq]; exact hplay
  refine ⟨s2, hrun, hplay2, seg_nodup hplay2, ?_, ?_, fun g => congrFun hcnt g, ?_⟩
  · intro g hg hlt
    exact playList_inPlayList hplay2 (List.mem_filter.2 ⟨hg, by simpa using hlt⟩)
  · intro g hg hge
    refine ⟨freeHolds_inFreeList hF ?_, fun hin => ?_⟩
    · rw [List.nil_append, ← hdrEq]
      exact List.mem_filter.2 ⟨hg, by simpa using hge⟩
    · have := (List.mem_filter.1 (inPlayList_mem hplay2 hin)).2
      simp only [decide_eq_true_eq] at this
      omega
  · intro c
    rw [hcounters c, hdrEq]
    rfl

/-- A tick with the odd device sample count 9, so with `stepSize = 4`, on the
play list of frame 1 (delay 0, drained) and frame 2 (delay -6, kept). -/
theorem tick_keeps_undrained_and_releases_drained_witness :
    (0 < cfgMix.frameSize ∧ cfgMix.samples % cfgMix.frameSize = 0 ∧ (0 : ℚ) ≤ 1 ∧
      twoFrames.Idle ∧ twoFrames.PlayList [1, 2] ∧
      (∀ h, twoFrames.mFreeFrame = some h → h ∉ [1, 2]) ∧ [1, 2].length < 3 ∧
      (9 % 2 = 1 → ∀ g ∈ [1, 2], ¬ overruns cfgMix.frameSize (9 / 2) (twoFrames.delay g))) ∧
    ∃ s1, twoFrames.Update cfgMix 1 nearListener ((9 : Nat) : Int) 3 =
        .ok (s1, tickOutput cfgMix ((9 / 2 : Nat) : Int) 9 twoFrames [1, 2]) ∧
      s1.PlayList ([1, 2].filter (fun g =>
        decide ((s1.mSampleFrame g).mDelay < cfgMix.frameSize))) ∧
      ([1, 2].filter (fun g => decide ((s1.mSampleFrame g).mDelay < cfgMix.frameSize))).Nodup ∧
      (∀ g ∈ [1, 2], (s1.mSampleFrame g).mDelay < cfgMix.frameSize → s1.InPlayList g) ∧
      (∀ g ∈ [1, 2], (cfgMix.frameSize : Int) ≤ (s1.mSampleFrame g).mDelay →
        s1.InFreeList g ∧ ¬ s1.InPlayList g) ∧
      (∀ g, (s1.mSampleFrame g).mCounter = (twoFrames.mSampleFrame g).mCounter) ∧
      ∀ c, s1.counters c = twoFrames.counters c -
        (([1, 2].filter (fun g =>
            decide ((cfgMix.frameSize : Int) ≤ (s1.mSampleFrame g).mDelay))).filter
          (fun g => decide ((twoFrames.mSampleFrame g).mCounter = some c))).length :=
  have hfree : ∀ h, twoFrames.mFreeFrame = some h → h ∉ [1, 2] := by
    intro h hh
    have e : 0 = h := Option.some.inj hh
    subst e
    decide
  have hno : 9 % 2 = 1 → ∀ g ∈ [1, 2],
      ¬ overruns cfgMix.frameSize (9 / 2) (twoFrames.delay g) := by
    intro _ g hg
    have e : g = 1 ∨ g = 2 := by simpa using hg
    rcases e with e | e
    · subst e
      intro h
      exact absurd h.2.2 (by decide)
    · subst e
      intro h
      exact absurd h.1 (by decide)
  ⟨⟨by decide, by decide, by norm_num, fun c hc => absurd hc (List.not_mem_nil c),
      ⟨rfl, rfl, rfl⟩, hfree, by decide, hno⟩,
    tick_keeps_undrained_and_releases_drained cfgMix 1 nearListener 9 3 twoFrames [1, 2]
      (by decide) (by decide) (by norm_num) (fun c hc => absurd hc (List.not_mem_nil c))
      ⟨rfl, rfl, rfl⟩ hfree (by decide) hno⟩

theorem framesFor_mul_ge (cap len : Nat) (hcap : 0 < cap) : len ≤ framesFor cap len * cap := by
  unfold framesFor
  have h1 := Nat.div_add_mod (len + cap - 1) cap
  have h2 := Nat.mod_lt (len + cap - 1) hcap
  rw [Nat.mul_comm] at h1
  omega

theorem framesFor_zero (cap : Nat) (hcap : 0 < cap) : framesFor cap 0 = 0 := by
  unfold framesFor
  exact Nat.div_eq_of_lt (by omega)

theorem framesFor_chunks (cap m r : Nat) (h1 : 1 ≤ r) (h2 : r ≤ cap) :
    framesFor cap (m * cap + r) = m + 1 := by
  unfold framesFor
  apply Nat.div_eq_of_lt_le
  · have e : (m + 1) * cap = m * cap + cap := by ring
    omega
  · have e : (m + 1 + 1) * cap = m * cap + cap + cap := by ring
    omega

/-- The frames acquired for a stream are as many as `framesFor` says. -/
theorem fillInv_length [Zero α] [Mul α] (cfg : Config) (a : α) (audio : List α)
    (s : SoundSystem α) (taken avail : List Nat) (sf : Option Nat) (fi : Nat)
    (hcap : 0 < cfg.frameSize)
    (h : FillInv cfg a audio s audio.length taken avail sf fi) :
    taken.length = framesFor cfg.frameSize audio.length := by
  rcases h.2.2.2.2 with ⟨h1, h2, _, _⟩ | ⟨init, f, h1, _, h2, h3, h4, _⟩
  · rw [h1, h2, framesFor_zero _ hcap]; rfl
  · rw [h1, h2, framesFor_chunks _ _ _ h3 h4]; simp

/-- The loop over the queued effects, started on a circular free list with
enough frames for all the streams: it ends without fault; the frames are
handed out in the order `avail`, those of an effect right after those of the
effects before it in the queue, and the `k`-th frame of each effect holds its
delay and the attenuated samples of its chunk; the frames outside `avail` keep
their delay and samples. -/
theorem playEffects_spec [LinearOrderedField α] (cfg : Config)
    (listenerDistance : α × α × α → α) (streams : List (List α)) (hcap : 0 < cfg.frameSize) :
    ∀ (effects : List (SoundEffect α)) (soundEffectIdx : Nat) (s : SoundSystem α)
      (avail : List Nat), FreeRing s avail → avail.Nodup →
      (∀ p, s.mPlayFrame = some p → p ∉ avail) →
      soundEffectIdx + effects.length ≤ streams.length →
      (∀ e ∈ effects, e.mIndex < streams.length) →
      framesForQueue cfg.frameSize streams effects ≤ avail.length →
      ∃ s1, SoundComponent.playEffects cfg listenerDistance streams effects soundEffectIdx s =
          .ok s1 ∧
        (∀ y, y ∉ avail → s1.delay y = s.delay y ∧ s1.sample y = s.sample y) ∧
        ∀ i effect audio, effects[i]? = some effect →
          streams.get? effect.mIndex = some audio →
          ∀ k, k * cfg.frameSize < audio.length →
            ∃ fk, avail[framesForQueue cfg.frameSize streams (effects.take i) + k]? = some fk ∧
              s1.delay fk = -((k * cfg.frameSize : Nat) : Int) ∧
              ∀ j, j < cfg.frameSize →
                s1.sample fk j =
                  if k * cfg.frameSize + j < audio.length then
                    distanceAttenuation (listenerDistance effect.mPosition) *
                      audio.getD (k * cfg.frameSize + j) 0
                  else 0 := by
  intro effects
  induction effects with
  | nil =>
    intro idx0 s avail _ _ _ _ _ _
    refine ⟨s, rfl, fun _ _ => ⟨rfl, rfl⟩, fun i effect audio hi => ?_⟩
    simp at hi
  | cons e es ih =>
    intro idx0 s avail hring hnd hplay hcount hidx hroom
    have he : e.mIndex < streams.length := hidx e (List.mem_cons_self e es)
    obtain ⟨audio0, haudio0⟩ : ∃ audio0, streams[e.mIndex]? = some audio0 :=
      ⟨streams[e.mIndex], List.getElem?_eq_getElem he⟩
    have hgetD : streams.getD e.mIndex [] = audio0 := by
      rw [List.getD_eq_getElem?_getD, haudio0]; rfl
    have hroom0 : framesFor cfg.frameSize audio0.length +
        framesForQueue cfg.frameSize streams es ≤ avail.length := by
      have := hroom
      simp only [framesForQueue, hgetD] at this
      exact this
    have hinit : FillInv cfg (distanceAttenuation (listenerDistance e.mPosition)) audio0 s
        ([] : List α).length [] avail none 0 :=
      ⟨hring, by simpa using hnd, hplay, fun k fk hk => by simp at hk,
        Or.inl ⟨rfl, rfl, rfl, rfl⟩⟩
    have hfit : audio0.length ≤ (([] : List Nat).length + avail.length) * cfg.frameSize := by
      have h1 := framesFor_mul_ge cfg.frameSize audio0.length hcap
      have h2 : framesFor cfg.frameSize audio0.length * cfg.frameSize ≤
          avail.length * cfg.frameSize := Nat.mul_le_mul_right _ (by omega)
      simp only [List.length_nil, Nat.zero_add]
      omega
    obtain ⟨s1, taken1, avail1, sf1, fi1, hrun, happ, hinv1, hsame1⟩ :=
      fillFrames_spec cfg (distanceAttenuation (listenerDistance e.mPosition)) audio0 hcap
        audio0 [] s [] avail none 0 (by simp) hinit hfit
    simp only [List.nil_append] at happ hsame1
    have hlen1 : taken1.length = framesFor cfg.frameSize audio0.length :=
      fillInv_length cfg _ audio0 s1 taken1 avail1 sf1 fi1 hcap hinv1
    have hnd1 : (taken1 ++ avail1).Nodup := hinv1.2.1
    obtain ⟨s2, hrun2, hsame2, hcont2⟩ := ih (idx0 + 1) s1 avail1 hinv1.1
      (List.nodup_append.1 hnd1).2.1 hinv1.2.2.1
      (by simp only [List.length_cons] at hcount; omega)
      (fun e1 he1 => hidx e1 (List.mem_cons_of_mem _ he1))
      (by
        have : avail.length = taken1.length + avail1.length := by rw [← happ]; simp
        omega)
    have hrun1 : SoundComponent.fillFrames cfg
        (distanceAttenuation (listenerDistance e.mPosition)) audio0 0 s none 0 =
          .ok (s1, sf1, fi1) := hrun
    have hlt : idx0 < streams.length := by
      simp only [List.length_cons] at hcount; omega
    refine ⟨s2, ?_, fun y hy => ?_, fun i effect audio hi hstream k hk => ?_⟩
    · rw [SoundComponent.playEffects]
      simp only [hlt, not_true_eq_false, if_false, List.get?_eq_getElem?, haudio0, hrun1]
      exact hrun2
    · obtain ⟨h1, h2⟩ := hsame1 y hy
      obtain ⟨h3, h4⟩ := hsame2 y (fun hm => hy (by rw [← happ]; simp [hm]))
      exact ⟨h3.trans h1, h4.trans h2⟩
    · cases i with
      | zero =>
        have e1 : e = effect := by simpa using hi
        subst e1
        have e2 : audio0 = audio := by
          rw [List.get?_eq_getElem?, haudio0] at hstream
          exact Option.some.inj hstream
        subst e2
        obtain ⟨_, _, _, hcont, hcur⟩ := hinv1
        have hklt : k < taken1.length := by
          rcases hcur with ⟨_, h0, _, _⟩ | ⟨init, f, htaken, _, hidx1, _, hle, _⟩
          · omega
          · rw [htaken]
            simp only [List.length_append, List.length_singleton]
            by_contra hge
            have h1 : (init.length + 1) * cfg.frameSize ≤ k * cfg.frameSize :=
              Nat.mul_le_mul_right _ (by omega)
            have h2 : (init.length + 1) * cfg.frameSize =
                init.length * cfg.frameSize + cfg.frameSize := by ring
            omega
        obtain ⟨fk, hfk⟩ : ∃ fk, taken1[k]? = some fk :=
          ⟨taken1[k], List.getElem?_eq_getElem hklt⟩
        obtain ⟨hdel, hsmp⟩ := hcont k fk hfk
        have hfk_avail1 : fk ∉ avail1 := fun hm =>
          (List.nodup_append.1 hnd1).2.2 (List.getElem?_mem hfk) hm
        obtain ⟨h3, h4⟩ := hsame2 fk hfk_avail1
        refine ⟨fk, ?_, h3.trans hdel, fun j hj => ?_⟩
        · simp only [List.take_zero, framesForQueue, Nat.zero_add]
          rw [← happ, List.getElem?_append_left hklt, hfk]
        · rw [h4]
          have := hsmp j hj
          unfold slotValue at this
          exact this
      | succ i =>
        have hi1 : es[i]? = some effect := by simpa using hi
        obtain ⟨fk, hfk, hdel, hsmp⟩ := hcont2 i effect audio hi1 hstream k hk
        refine ⟨fk, ?_, hdel, hsmp⟩
        simp only [List.take_succ_cons, framesForQueue, hgetD]
        rw [← happ, ← hlen1, Nat.add_assoc,
          List.getElem?_append_right (Nat.le_add_right _ _), Nat.add_sub_cancel_left]
        exact hfk

/-- C11: `SoundComponent::Update` on a component with any queue of effects, no
longer than the list of registered streams and with registered stream indices,
started on a circular free list (head `hd`, then the frames `l`) with enough
frames for the streams of all the effects, ends without fault and clears the
queue.  The frames are handed out in the order `l ++ [hd]`, those of an effect
right after those of the effects before it in the queue.  For every queued
effect, with the stream `audio` of `L` samples, the `k`-th frame acquired for it
(for every `k` with `k * capacity < L`) has delay `-(k * capacity)` and holds in
slot `j` the attenuated sample `k * capacity + j` of the stream when that index
is below `L`, and 0 otherwise. -/
theorem update_fills_frames_in_order [LinearOrderedField α] (cfg : Config) (deltaTime : α)
    (listenerDistance : α × α × α → α) (c : SoundComponent α) (s : SoundSystem α)
    (hd : Nat) (l : List Nat)
    (hcap : 0 < cfg.frameSize) (hcount : c.mSoundPlay.length ≤ c.mSoundStreams.length)
    (hidx : ∀ e ∈ c.mSoundPlay, e.mIndex < c.mSoundStreams.length)
    (hfree : s.mFreeFrame = some hd) (hring : Seg s.next (s.next hd) l (some hd))
    (hnd : (hd :: l).Nodup) (hplay : ∀ p, s.mPlayFrame = some p → p ∉ hd :: l)
    (hroom : framesForQueue cfg.frameSize c.mSoundStreams c.mSoundPlay ≤ l.length + 1) :
    ∃ s1, c.Update cfg deltaTime listenerDistance s = .ok ({ c with mSoundPlay := [] }, s1) ∧
      ∀ i effect audio, c.mSoundPlay[i]? = some effect →
        c.mSoundStreams.get? effect.mIndex = some audio →
        ∀ k, k * cfg.frameSize < audio.length →
          ∃ fk, (l ++ [hd])[framesForQueue cfg.frameSize c.mSoundStreams
              (c.mSoundPlay.take i) + k]? = some fk ∧
            (s1.mSampleFrame fk).mDelay = -((k * cfg.frameSize : Nat) : Int) ∧
            ∀ j, j < cfg.frameSize →
              (s1.mSampleFrame fk).mSample j =
                if k * cfg.frameSize + j < audio.length then
                  distanceAttenuation (listenerDistance effect.mPosition) *
                    audio.getD (k * cfg.frameSize + j) 0
                else 0 := by
  have hndA : (l ++ [hd]).Nodup := by
    have : (l ++ [hd]).Perm (hd :: l) :=
      (List.perm_append_comm : (l ++ [hd]).Perm ([hd] ++ l))
    exact this.nodup_iff.2 hnd
  have hplayA : ∀ p, s.mPlayFrame = some p → p ∉ l ++ [hd] := by
    intro p hp hm
    refine hplay p hp ?_
    rcases List.mem_append.1 hm with h | h
    · exact List.mem_cons_of_mem _ h
    · rw [List.mem_singleton.1 h]; exact List.mem_cons_self _ _
  obtain ⟨s1, hrun, _, hcont⟩ :=
    playEffects_spec cfg listenerDistance c.mSoundStreams hcap c.mSoundPlay 0 s (l ++ [hd])
      (Or.inr ⟨hd, l, rfl, hfree, hring⟩) hndA hplayA (by omega) hidx (by simpa using hroom)
  refine ⟨s1, ?_, hcont⟩
  simp [SoundComponent.Update, hrun]

/-- Witness of C11: two queued effects, on the streams `[1, 2, 3]` and `[4]`,
with frame capacity 2 on the fresh pool of three frames (head 0, then the
frames 1 and 2). -/
theorem update_fills_frames_in_order_witness :
    (0 < cfgQueue.frameSize ∧ twoSounds.mSoundPlay.length ≤ twoSounds.mSoundStreams.length ∧
      (∀ e ∈ twoSounds.mSoundPlay, e.mIndex < twoSounds.mSoundStreams.length) ∧
      freshPool3.mFreeFrame = some 0 ∧
      Seg freshPool3.next (freshPool3.next 0) [1, 2] (some 0) ∧ (0 :: [1, 2]).Nodup ∧
      (∀ p, freshPool3.mPlayFrame = some p → p ∉ 0 :: [1, 2]) ∧
      framesForQueue cfgQueue.frameSize twoSounds.mSoundStreams twoSounds.mSoundPlay ≤
        [1, 2].length + 1) ∧
    ∃ s1, twoSounds.Update cfgQueue 1 nearListener freshPool3 =
        .ok ({ twoSounds with mSoundPlay := [] }, s1) ∧
      ∀ i effect audio, twoSounds.mSoundPlay[i]? = some effect →
        twoSounds.mSoundStreams.get? effect.mIndex = some audio →
        ∀ k, k * cfgQueue.frameSize < audio.length →
          ∃ fk, ([1, 2] ++ [0])[framesForQueue cfgQueue.frameSize twoSounds.mSoundStreams
              (twoSounds.mSoundPlay.take i) + k]? = some fk ∧
            (s1.mSampleFrame fk).mDelay = -((k * cfgQueue.frameSize : Nat) : Int) ∧
            ∀ j, j < cfgQueue.frameSize →
              (s1.mSampleFrame fk).mSample j =
                if k * cfgQueue.frameSize + j < audio.length then
                  distanceAttenuation (nearListener effect.mPosition) *
                    audio.getD (k * cfgQueue.frameSize + j) 0
                else 0 :=
  have hplay : ∀ p, freshPool3.mPlayFrame = some p → p ∉ 0 :: [1, 2] := by
    intro p hp
    cases hp
  have hidx : ∀ e ∈ twoSounds.mSoundPlay, e.mIndex < twoSounds.mSoundStreams.length := by
    intro e he
    have h : e = { mIndex := 0, mPosition := (0, 0, 0) } ∨
        e = { mIndex := 1, mPosition := (0, 0, 0) } := by
      simpa [twoSounds] using he
    rcases h with h | h <;> subst h <;> decide
  ⟨⟨by decide, by decide, hidx, rfl, ⟨rfl, rfl, rfl⟩, by decide, hplay, by decide⟩,
    update_fills_frames_in_order cfgQueue 1 nearListener twoSounds freshPool3 0 [1, 2]
      (by decide) (by decide) hidx rfl ⟨rfl, rfl, rfl⟩ (by decide) hplay (by decide)⟩

end Particle
